import Mathlib

/-!
# Plankton binary codec: a shallow embedding in Lean 4

This file embeds the core of the plankton serialization codec
(`src/python/src/plankton/codec/_binary.py`, `_object.py`, `_types.py` and
`__init__.py`) and proves properties of the embedding.

Modelling conventions:
* machine bytes are `Nat`s (well-formedness hypotheses require them `< 256`);
* Python `int` is `Int` (arbitrary precision), lengths are `Nat`;
* IEEE-754 binary64 floats are represented by their 64-bit pattern (`Nat`);
* the decoder's byte cursor (`BinaryDecoder._current` plus the unread input)
  is an explicit `DecSt` record; `_advance` pops the head of the unread list
  into the cursor;
* fallible operations return `Except DErr`;
* Python strings are represented by their UTF-8 byte sequences (the binary
  codec only ever moves the raw bytes and never interprets them).
-/

namespace Plankton

/-- Errors surfaced by decoding (section 7 of the format documentation).
`invalidReference` models the `KeyError` raised by `ObjectBuilder.on_get_ref`
when the slot was never bound, `unhashableKey` the `TypeError` raised by
Python when an unhashable value is used as a dict key, and `fuelExhausted`
is the artificial out-of-fuel marker of the top-level decode loop (never hit
on the runs the theorems below describe). -/
inductive DErr where
  | invalidInstruction (code : Nat)
  | unexpectedEnd
  | invalidReference
  | unhashableKey
  | fuelExhausted
  | internal
  deriving Repr, DecidableEq

/-- The byte-cursor state of `BinaryDecoder`: `cur` is `self._current` (the
byte most recently read from the input, `none` when the input is exhausted),
`rest` is the unread remainder of the input and `nextRef` is
`self._next_ref_offset`. -/
structure DecSt where
  cur : Option Nat
  rest : List Nat
  nextRef : Nat
  deriving Repr, DecidableEq

/-- `BinaryDecoder._advance`: read one byte from the input into `cur`. -/
def DecSt.advance (s : DecSt) : DecSt :=
  { s with cur := s.rest.head?, rest := s.rest.tail }

/-- Termination measure: number of bytes still to be processed
(including the one held in `cur`). -/
def DecSt.meas (s : DecSt) : Nat :=
  (if s.cur.isSome then 1 else 0) + s.rest.length

/-- The state of a freshly constructed `BinaryDecoder` on input `l` with
reference counter `nr`: the constructor immediately calls `_advance()`,
so the cursor holds the head of `l`. -/
def mkSt (l : List Nat) (nr : Nat) : DecSt :=
  { cur := l.head?, rest := l.tail, nextRef := nr }

theorem advance_meas_lt (s : DecSt) (h : s.cur.isSome) :
    s.advance.meas < s.meas := by
  unfold DecSt.advance DecSt.meas
  cases s.rest with
  | nil => simp [h]
  | cons b r => simp [h]

theorem advance_eq_mkSt (b : Nat) (l : List Nat) (nr : Nat) :
    DecSt.advance ⟨some b, l, nr⟩ = mkSt l nr := by
  simp [DecSt.advance, mkSt]

theorem mkSt_append_cons (b : Nat) (l l' : List Nat) (nr : Nat) :
    mkSt ((l ++ [b]) ++ l') nr = mkSt (l ++ b :: l') nr := by
  simp [mkSt]

/-! ## Unsigned varint (`_write_unsigned_int` / `_read_unsigned_int`)

Base-128 little-endian with a bias of 1 on all non-terminal groups. -/

/-- `BinaryEncoder._write_unsigned_int`:
`while value >= 0x80: emit (value & 0x7F) | 0x80; value = (value >> 7) - 1`,
then emit the final byte. -/
def writeUInt (n : Nat) : List Nat :=
  if h : n ≥ 0x80 then
    (n % 0x80 + 0x80) :: writeUInt (n / 0x80 - 1)
  else
    [n]
termination_by n
decreasing_by
  have : n / 0x80 < n := Nat.div_lt_self (by omega) (by norm_num)
  omega

/-- The loop of `BinaryDecoder._read_unsigned_int`, phrased over the
conceptual remaining stream: `c` is the current byte (whose payload is
already in `acc`), `l` the unread bytes.  While `c` has bit 7 set, advance
and add `(byte & 0x7F) + 1` shifted by the accumulated offset; the returned
list is the stream left after the final `_advance` positions the cursor on
its head. -/
def readUIntGo (c : Nat) (l : List Nat) (acc : Nat) (offset : Nat) :
    Except DErr (Nat × List Nat) :=
  if c ≥ 0x80 then
    match l with
    | [] => throw .unexpectedEnd
    | c' :: l' => readUIntGo c' l' (acc + (c' % 0x80 + 1) * 2 ^ offset) (offset + 7)
  else
    pure (acc, l)

/-- `BinaryDecoder._read_unsigned_int`: the first byte is the cursor, its low
7 bits seed the accumulator, and the trailing `_advance` is reflected by
`mkSt` on the returned remainder. -/
def readUInt (s : DecSt) : Except DErr (Nat × DecSt) :=
  match s.cur with
  | none => throw .unexpectedEnd
  | some c =>
      (readUIntGo c s.rest (c % 0x80) 7).map fun p => (p.1, mkSt p.2 s.nextRef)

theorem writeUInt_head_lt (n : Nat) (hn : ¬ n ≥ 0x80) : writeUInt n = [n] := by
  rw [writeUInt]
  simp [hn]

theorem writeUInt_cons (n : Nat) (hn : n ≥ 0x80) :
    writeUInt n = (n % 0x80 + 0x80) :: writeUInt (n / 0x80 - 1) := by
  rw [writeUInt]
  simp [hn]

theorem mkSt_cons (b : Nat) (l : List Nat) (nr : Nat) :
    mkSt (b :: l) nr = ⟨some b, l, nr⟩ := rfl

/-- Reading the continuation bytes produced by the writer for `m` adds
exactly `(m + 1) * 2 ^ offset` to the accumulator: each non-terminal group
contributes `(byte & 0x7F) + 1` shifted by 7 times its offset. -/
theorem readUIntGo_write (m : Nat) : ∀ (l : List Nat) (acc offset c : Nat),
    c ≥ 0x80 →
    readUIntGo c (writeUInt m ++ l) acc offset =
      .ok (acc + (m + 1) * 2 ^ offset, l) := by
  induction m using Nat.strong_induction_on with
  | _ m ih =>
    intro l acc offset c hc
    by_cases hm : m ≥ 0x80
    · rw [writeUInt_cons m hm]
      rw [readUIntGo.eq_def]
      simp only [hc, if_pos, List.cons_append]
      have hrec : m / 0x80 - 1 < m := by
        have : m / 0x80 < m := Nat.div_lt_self (by omega) (by norm_num)
        omega
      rw [ih (m / 0x80 - 1) hrec l _ _ _ (by omega)]
      have hmod : (m % 0x80 + 0x80) % 0x80 = m % 0x80 := by omega
      rw [hmod]
      have hdiv : m / 0x80 - 1 + 1 = m / 0x80 := by
        have : m / 0x80 ≥ 1 := Nat.one_le_div_iff (by norm_num) |>.mpr (by omega)
        omega
      rw [hdiv]
      have h1 : (m % 0x80 + 1) * 2 ^ offset + m / 0x80 * 2 ^ (offset + 7) =
          (m % 0x80 + 1 + 0x80 * (m / 0x80)) * 2 ^ offset := by
        rw [pow_add]
        ring
      have h2 : m % 0x80 + 1 + 0x80 * (m / 0x80) = m + 1 := by
        have := Nat.div_add_mod m 0x80
        omega
      have h3 : acc + (m % 0x80 + 1) * 2 ^ offset + m / 0x80 * 2 ^ (offset + 7)
          = acc + (m + 1) * 2 ^ offset := by
        rw [Nat.add_assoc, h1, h2]
      rw [h3]
    · rw [writeUInt_head_lt m hm]
      rw [List.cons_append, readUIntGo]
      simp only [hc, if_pos]
      rw [readUIntGo.eq_def]
      have hm' : ¬ m ≥ 0x80 := hm
      simp only [hm', if_neg, not_false_iff]
      have : m % 0x80 = m := Nat.mod_eq_of_lt (by omega)
      rw [this]
      rfl

/-- The unsigned-varint writer and reader are mutually inverse: reading the
bytes `writeUInt n` (followed by anything) yields `n` and leaves the cursor
on the first following byte. -/
theorem readUInt_writeUInt (n : Nat) (l : List Nat) (nr : Nat) :
    readUInt (mkSt (writeUInt n ++ l) nr) = .ok (n, mkSt l nr) := by
  by_cases hn : n ≥ 0x80
  · rw [writeUInt_cons n hn, List.cons_append, mkSt_cons, readUInt]
    simp only
    rw [readUIntGo_write (n / 0x80 - 1) l _ 7 _ (by omega)]
    have hmod : (n % 0x80 + 0x80) % 0x80 = n % 0x80 := by omega
    have hdiv : n / 0x80 - 1 + 1 = n / 0x80 := by
      have : n / 0x80 ≥ 1 := Nat.one_le_div_iff (by norm_num) |>.mpr (by omega)
      omega
    have hval : n % 0x80 + n / 0x80 * 2 ^ 7 = n := by
      have := Nat.div_add_mod n 0x80
      norm_num
      omega
    rw [Except.map]
    simp only [hmod, hdiv]
    rw [hval]
  · rw [writeUInt_head_lt n hn, List.cons_append, mkSt_cons, readUInt]
    simp only
    rw [readUIntGo.eq_def]
    simp only [hn, if_neg, not_false_iff]
    have : n % 0x80 = n := Nat.mod_eq_of_lt (by omega)
    rw [this]
    rfl

/-! ## Fixed-width byte blocks

`struct.pack("<f")` / `struct.pack("<d")` produce little-endian bytes;
`uuid.UUID(bytes=...).int` interprets 16 bytes big-endian. -/

/-- `k` little-endian bytes of `v` (`struct.pack("<...")`). -/
def toLE : Nat → Nat → List Nat
  | 0, _ => []
  | k + 1, v => v % 256 :: toLE k (v / 256)

/-- Read a little-endian byte sequence back into a number
(`struct.unpack("<...")`). -/
def fromLE : List Nat → Nat
  | [] => 0
  | b :: l => b + 256 * fromLE l

theorem toLE_length (k v : Nat) : (toLE k v).length = k := by
  induction k generalizing v with
  | zero => rfl
  | succ k ih => simp [toLE, ih]

theorem fromLE_toLE (k v : Nat) (h : v < 256 ^ k) : fromLE (toLE k v) = v := by
  induction k generalizing v with
  | zero =>
      simp [toLE, fromLE]
      omega
  | succ k ih =>
      rw [toLE, fromLE, ih (v / 256) (by
        have : 256 ^ (k + 1) = 256 ^ k * 256 := by ring
        rw [this] at h
        exact Nat.div_lt_of_lt_mul (by omega))]
      omega

theorem toLE_lt (k v : Nat) : ∀ b ∈ toLE k v, b < 256 := by
  induction k generalizing v with
  | zero => simp [toLE]
  | succ k ih =>
      intro b hb
      rw [toLE] at hb
      rcases List.mem_cons.mp hb with h | h
      · omega
      · exact ih (v / 256) b h

/-- The big-endian value of a byte sequence
(`uuid.UUID(bytes=bytes).int`). -/
def beNat (l : List Nat) : Nat :=
  l.foldl (fun acc b => acc * 256 + b) 0

/-! ## IEEE-754 binary64 bit-pattern helpers

A Python float is a binary64 value; we carry its 64-bit pattern `b`.
`struct.pack('Q', struct.pack('<d', value))` recovers exactly this
pattern, so the significand / exponent extraction of
`BinaryEncoder._encode_float` is pure bit arithmetic. -/

/-- The 52-bit significand field: `double_raw & 0xFFFFFFFFFFFFF`. -/
def f64Mant (b : Nat) : Nat := b % 2 ^ 52

/-- The 11-bit biased exponent: `(double_raw & 0x7FF0000000000000) >> 52`. -/
def f64Exp (b : Nat) : Nat := b / 2 ^ 52 % 2 ^ 11

/-- The sign bit of the binary64 pattern. -/
def f64Sign (b : Nat) : Nat := b / 2 ^ 63 % 2

/-- `value == 0.0` for a binary64 pattern (true for `0.0` and `-0.0`). -/
def f64IsZero (b : Nat) : Prop := f64Exp b = 0 ∧ f64Mant b = 0

/-- `math.isinf(value)` for a binary64 pattern. -/
def f64IsInf (b : Nat) : Prop := f64Exp b = 2 ^ 11 - 1 ∧ f64Mant b = 0

/-- `math.isnan(value)` for a binary64 pattern. -/
def f64IsNaN (b : Nat) : Prop := f64Exp b = 2 ^ 11 - 1 ∧ f64Mant b ≠ 0

instance (b : Nat) : Decidable (f64IsZero b) := by unfold f64IsZero; infer_instance

instance (b : Nat) : Decidable (f64IsInf b) := by unfold f64IsInf; infer_instance

instance (b : Nat) : Decidable (f64IsNaN b) := by unfold f64IsNaN; infer_instance

/-- The C `double`-to-`float` conversion performed by
`struct.pack("<f", value)` on the values the encoder sends there: zeros and
infinities map to the corresponding binary32 patterns; NaNs keep their sign,
have the quiet bit forced and the top 23 significand bits kept (the IEEE
narrowing behaviour); normal values with exponent in `[-126, 127]` and 29
trailing zero significand bits convert exactly. -/
def f64ToF32 (b : Nat) : Nat :=
  if f64IsZero b then f64Sign b * 2 ^ 31
  else if f64IsInf b then f64Sign b * 2 ^ 31 + 0xFF * 2 ^ 23
  else if f64IsNaN b then
    -- quiet bit forced (bitwise or with 2^22), top 23 payload bits kept
    f64Sign b * 2 ^ 31 + 0xFF * 2 ^ 23 + (2 ^ 22 + f64Mant b / 2 ^ 29 % 2 ^ 22)
  else
    -- binary32 biased exponent: (e - 1023) + 127 = e - 896
    f64Sign b * 2 ^ 31 + (f64Exp b - 896) * 2 ^ 23 + f64Mant b / 2 ^ 29

/-- The 23-bit significand field of a binary32 pattern. -/
def f32Mant (w : Nat) : Nat := w % 2 ^ 23

/-- The 8-bit biased exponent of a binary32 pattern. -/
def f32Exp (w : Nat) : Nat := w / 2 ^ 23 % 2 ^ 8

/-- The sign bit of a binary32 pattern. -/
def f32Sign (w : Nat) : Nat := w / 2 ^ 31 % 2

/-- The C `float`-to-`double` conversion performed by
`struct.unpack("<f", data)`: exact widening of the binary32 value to a
binary64 pattern.  Normals rebias the exponent, zero stays zero, infinities
and NaNs map to the maximal exponent (NaN payloads are shifted up by 29
bits), and binary32 subnormals `m * 2^-149` are normalized. -/
def f32ToF64 (w : Nat) : Nat :=
  if f32Exp w = 0 then
    if f32Mant w = 0 then f32Sign w * 2 ^ 63
    else
      -- subnormal: value = m * 2^-149 with m < 2^23; normalize around the
      -- most significant bit of m
      let p := Nat.log2 (f32Mant w)
      f32Sign w * 2 ^ 63 + (p + 874) * 2 ^ 52 + (f32Mant w - 2 ^ p) * 2 ^ (52 - p)
  else if f32Exp w = 0xFF then
    f32Sign w * 2 ^ 63 + (2 ^ 11 - 1) * 2 ^ 52 + f32Mant w * 2 ^ 29
  else
    f32Sign w * 2 ^ 63 + (f32Exp w + 896) * 2 ^ 52 + f32Mant w * 2 ^ 29

/-- `BinaryEncoder._encode_float`: pick 4 little-endian bytes of the
binary32 narrowing when the value is zero, infinite, NaN, or has exponent
in `[-126, 127]` and 29 trailing zero significand bits; otherwise the 8
little-endian bytes of the binary64 pattern. -/
def encodeFloatBytes (b : Nat) : List Nat :=
  if f64IsZero b ∨ f64IsInf b ∨ f64IsNaN b then toLE 4 (f64ToF32 b)
  else
    let significand := f64Mant b
    let exponent : Int := (f64Exp b : Int) - 1023
    if -126 ≤ exponent ∧ exponent ≤ 127 ∧ significand % 2 ^ 29 = 0 then
      toLE 4 (f64ToF32 b)
    else
      toLE 8 b

/-- `BinaryEncoder.on_float`: tag `0x1a` before 4 bytes, `0x1b` before 8. -/
def floatInstr (b : Nat) : List Nat :=
  let bytes := encodeFloatBytes b
  (if bytes.length = 4 then 0x1a else 0x1b) :: bytes

/-- The binary64 patterns whose Float32 narrowing loses nothing: any NaN
must already be quiet and have no payload in its low 29 significand bits.
All non-NaN doubles qualify. -/
def floatWf (b : Nat) : Prop :=
  b < 2 ^ 64 ∧ (f64IsNaN b → f64Mant b % 2 ^ 29 = 0 ∧ 2 ^ 51 ≤ f64Mant b)

instance (b : Nat) : Decidable (floatWf b) := by
  unfold floatWf
  infer_instance

/-- The selection test of `_encode_float`, as a proposition. -/
def f32Selected (b : Nat) : Prop :=
  f64IsZero b ∨ f64IsInf b ∨ f64IsNaN b ∨
    (897 ≤ f64Exp b ∧ f64Exp b ≤ 1150 ∧ f64Mant b % 2 ^ 29 = 0)

instance (b : Nat) : Decidable (f32Selected b) := by
  unfold f32Selected
  infer_instance

theorem encodeFloatBytes_of_selected (b : Nat) (h : f32Selected b) :
    encodeFloatBytes b = toLE 4 (f64ToF32 b) := by
  unfold encodeFloatBytes
  by_cases hs : f64IsZero b ∨ f64IsInf b ∨ f64IsNaN b
  · rw [if_pos hs]
  · rw [if_neg hs]
    simp only
    rw [if_pos]
    rcases h with h | h | h | h
    · exact absurd (Or.inl h) hs
    · exact absurd (Or.inr (Or.inl h)) hs
    · exact absurd (Or.inr (Or.inr h)) hs
    · refine ⟨by omega, by omega, h.2.2⟩

theorem encodeFloatBytes_of_not_selected (b : Nat) (h : ¬ f32Selected b) :
    encodeFloatBytes b = toLE 8 b := by
  unfold encodeFloatBytes
  unfold f32Selected at h
  push_neg at h
  obtain ⟨h1, h2, h3, h4⟩ := h
  rw [if_neg (by tauto)]
  simp only
  rw [if_neg]
  intro ⟨ha, hb2, hc⟩
  exact absurd hc (h4 (by omega) (by omega))

/-- Widening after narrowing, on a NaN pattern decomposed into sign `s`,
payload `m`: identity when the payload is quiet with 29 trailing zeros. -/
theorem widen_narrow_nan (s m : Nat) (hs : s ≤ 1) (hm : m < 2 ^ 52)
    (hm29 : m % 2 ^ 29 = 0) (hq : 2 ^ 51 ≤ m) :
    f32ToF64 (s * 2 ^ 31 + 0xFF * 2 ^ 23 + (2 ^ 22 + m / 2 ^ 29 % 2 ^ 22)) =
      s * 2 ^ 63 + (2 ^ 11 - 1) * 2 ^ 52 + m := by
  have h32 : 2 ^ 22 + m / 2 ^ 29 % 2 ^ 22 = m / 2 ^ 29 := by omega
  rw [h32]
  have hm32 : m / 2 ^ 29 < 2 ^ 23 := by omega
  have hexp : f32Exp (s * 2 ^ 31 + 0xFF * 2 ^ 23 + m / 2 ^ 29) = 0xFF := by
    simp only [f32Exp]
    omega
  rw [f32ToF64, if_neg (by omega), if_pos hexp]
  have hmant : f32Mant (s * 2 ^ 31 + 0xFF * 2 ^ 23 + m / 2 ^ 29) = m / 2 ^ 29 := by
    simp only [f32Mant]
    omega
  have hsign : f32Sign (s * 2 ^ 31 + 0xFF * 2 ^ 23 + m / 2 ^ 29) = s := by
    simp only [f32Sign]
    omega
  rw [hmant, hsign]
  omega

/-- Widening after narrowing, on a normal pattern with exponent in the
binary32 range and 29 trailing zero significand bits: identity. -/
theorem widen_narrow_normal (s e m : Nat) (hs : s ≤ 1) (he1 : 897 ≤ e)
    (he2 : e ≤ 1150) (hm : m < 2 ^ 52) (hm29 : m % 2 ^ 29 = 0) :
    f32ToF64 (s * 2 ^ 31 + (e - 896) * 2 ^ 23 + m / 2 ^ 29) =
      s * 2 ^ 63 + e * 2 ^ 52 + m := by
  have hm32 : m / 2 ^ 29 < 2 ^ 23 := by omega
  have hexp : f32Exp (s * 2 ^ 31 + (e - 896) * 2 ^ 23 + m / 2 ^ 29) = e - 896 := by
    simp only [f32Exp]
    omega
  rw [f32ToF64, if_neg (by omega), if_neg (by omega)]
  have hmant : f32Mant (s * 2 ^ 31 + (e - 896) * 2 ^ 23 + m / 2 ^ 29) = m / 2 ^ 29 := by
    simp only [f32Mant]
    omega
  have hsign : f32Sign (s * 2 ^ 31 + (e - 896) * 2 ^ 23 + m / 2 ^ 29) = s := by
    simp only [f32Sign]
    omega
  rw [hexp, hmant, hsign]
  omega

/-- Narrow-then-widen is the identity on every pattern the encoder narrows,
given the `floatWf` NaN-payload condition. -/
theorem f32ToF64_f64ToF32 (b : Nat) (hb : b < 2 ^ 64)
    (hnan : f64IsNaN b → f64Mant b % 2 ^ 29 = 0 ∧ 2 ^ 51 ≤ f64Mant b)
    (hsel : f32Selected b) :
    f32ToF64 (f64ToF32 b) = b := by
  have hdec : b = b / 2 ^ 63 % 2 * 2 ^ 63 + b / 2 ^ 52 % 2 ^ 11 * 2 ^ 52 + b % 2 ^ 52 := by
    omega
  by_cases hz : f64IsZero b
  · obtain ⟨hze, hzm⟩ := hz
    simp only [f64Exp, f64Mant] at hze hzm
    rw [f64ToF32, if_pos (by constructor <;> simp only [f64Exp, f64Mant] <;> omega)]
    rw [f32ToF64]
    rw [if_pos (by simp only [f32Exp, f64Sign]; omega)]
    rw [if_pos (by simp only [f32Mant, f64Sign]; omega)]
    simp only [f32Sign, f64Sign]
    omega
  · by_cases hi : f64IsInf b
    · obtain ⟨hie, him⟩ := hi
      simp only [f64Exp, f64Mant] at hie him
      rw [f64ToF32, if_neg hz,
        if_pos (by constructor <;> simp only [f64Exp, f64Mant] <;> omega)]
      rw [f32ToF64]
      rw [if_neg (by simp only [f32Exp, f64Sign]; omega)]
      rw [if_pos (by simp only [f32Exp, f64Sign]; omega)]
      simp only [f32Sign, f32Mant, f64Sign]
      omega
    · by_cases hn : f64IsNaN b
      · obtain ⟨hlo, hq⟩ := hnan hn
        obtain ⟨hne, hnm⟩ := hn
        rw [f64ToF32, if_neg hz, if_neg hi,
          if_pos (by exact ⟨hne, hnm⟩)]
        rw [widen_narrow_nan (f64Sign b) (f64Mant b)
          (by simp only [f64Sign]; omega)
          (by simp only [f64Mant]; omega) hlo hq]
        simp only [f64Sign, f64Mant] at *
        simp only [f64Exp] at hne
        omega
      · have hcond : 897 ≤ f64Exp b ∧ f64Exp b ≤ 1150 ∧ f64Mant b % 2 ^ 29 = 0 := by
          rcases hsel with h | h | h | h
          · exact absurd h hz
          · exact absurd h hi
          · exact absurd h hn
          · exact h
        obtain ⟨he1, he2, hm29⟩ := hcond
        rw [f64ToF32, if_neg hz, if_neg hi, if_neg hn]
        rw [widen_narrow_normal (f64Sign b) (f64Exp b) (f64Mant b)
          (by simp only [f64Sign]; omega) he1 he2
          (by simp only [f64Mant]; omega) hm29]
        simp only [f64Sign, f64Exp, f64Mant]
        omega

/-- On patterns the encoder narrows, the narrowed pattern fits in 32 bits,
so its 4 little-endian bytes decode back to it. -/
theorem f64ToF32_lt (b : Nat) (hb : b < 2 ^ 64) (hsel : f32Selected b) :
    f64ToF32 b < 2 ^ 32 := by
  rw [f64ToF32]
  by_cases hz : f64IsZero b
  · rw [if_pos hz]
    simp only [f64Sign]
    omega
  · rw [if_neg hz]
    by_cases hi : f64IsInf b
    · rw [if_pos hi]
      simp only [f64Sign]
      omega
    · rw [if_neg hi]
      by_cases hn : f64IsNaN b
      · rw [if_pos hn]
        simp only [f64Sign, f64Mant]
        omega
      · rw [if_neg hn]
        have hcond : 897 ≤ f64Exp b ∧ f64Exp b ≤ 1150 ∧ f64Mant b % 2 ^ 29 = 0 := by
          rcases hsel with h | h | h | h
          · exact absurd h hz
          · exact absurd h hi
          · exact absurd h hn
          · exact h
        simp only [f64Sign, f64Exp, f64Mant] at *
        omega

/-! ## Struct-tag nibble stream

`BinaryEncoder._write_struct_tags` emits 4-bit nibbles, two per byte (high
nibble first); `BinaryDecoder._read_struct_tags` reads them back through a
`NibbleReader`.  Tag deltas are Python ints in the source; the vectors the
encoder ever sees through round trips are monotonically non-decreasing, and
the embedding uses `Nat` subtraction for the delta (identical on those
vectors; a decreasing vector makes the Python encoder crash on a negative
nibble). -/

/-- `add_value` of `_write_struct_tags`: nibble-varint, base 8 with a bias
of 1 on continuations. -/
def nibValue (v : Nat) : List Nat :=
  if h : v ≥ 0x8 then
    (v % 0x8 + 0x8) :: nibValue (v / 0x8 - 1)
  else
    [v]
termination_by v
decreasing_by
  have : v / 0x8 < v := Nat.div_lt_self (by omega) (by norm_num)
  omega

theorem nibValue_head_lt (v : Nat) (hv : ¬ v ≥ 0x8) : nibValue v = [v] := by
  rw [nibValue]
  simp [hv]

theorem nibValue_cons (v : Nat) (hv : v ≥ 0x8) :
    nibValue v = (v % 0x8 + 0x8) :: nibValue (v / 0x8 - 1) := by
  rw [nibValue]
  simp [hv]

theorem nibValue_lt_16 (v : Nat) : ∀ n ∈ nibValue v, n < 16 := by
  induction v using Nat.strong_induction_on with
  | _ v ih =>
    intro n hn
    by_cases hv : v ≥ 0x8
    · rw [nibValue_cons v hv] at hn
      rcases List.mem_cons.mp hn with h | h
      · omega
      · refine ih (v / 0x8 - 1) ?_ n h
        have : v / 0x8 < v := Nat.div_lt_self (by omega) (by norm_num)
        omega
    · rw [nibValue_head_lt v hv] at hn
      simp at hn
      omega

theorem dropWhile_length_le {α : Type} (p : α → Bool) (l : List α) :
    (l.dropWhile p).length ≤ l.length := by
  induction l with
  | nil => simp
  | cons a l ih =>
      rw [List.dropWhile]
      split
      · exact le_trans ih (by simp)
      · simp

theorem nibValue_ne_nil (v : Nat) : nibValue v ≠ [] := by
  by_cases hv : v ≥ 0x8
  · rw [nibValue_cons v hv]
    simp
  · rw [nibValue_head_lt v hv]
    simp

/-- The run-and-delta loop of `_write_struct_tags` over the tags after the
first, carrying `last_value`.  A repeated tag emits nibble-varint `0`
followed by the length of the run of consecutive repeats; otherwise the
positive delta is emitted and `last_value` updated. -/
def tagNibblesLoop (last : Nat) (ts : List Nat) : List Nat :=
  match ts with
  | [] => []
  | t :: ts' =>
      if t = last then
        let runTail := ts'.takeWhile (· = last)
        nibValue 0 ++ nibValue (1 + runTail.length) ++
          tagNibblesLoop last (ts'.dropWhile (· = last))
      else
        nibValue (t - last) ++ tagNibblesLoop t ts'
termination_by ts.length
decreasing_by
  · simp only [List.length_cons]
    exact Nat.lt_succ_of_le (dropWhile_length_le _ _)
  · simp only [List.length_cons]
    exact Nat.lt_succ_self _

/-- The full nibble sequence of `_write_struct_tags` before byte packing
(without the final pad nibble): the first tag as a raw nibble-varint, then
the run/delta loop. -/
def tagNibbles (tags : List Nat) : List Nat :=
  match tags with
  | [] => []
  | t :: ts => nibValue t ++ tagNibblesLoop t ts

/-- `add_nibble` packs two nibbles per byte, high nibble first; the final
`add_nibble(0)` only reaches the output if it completes a byte, so a lone
trailing nibble is silently dropped. -/
def packNibs : List Nat → List Nat
  | a :: b :: r => (a * 16 + b) :: packNibs r
  | [_] => []
  | [] => []

/-- `BinaryEncoder._write_struct_tags`: nothing for an empty vector,
otherwise the nibble stream followed by the terminating pad nibble, packed
into bytes. -/
def writeStructTags (tags : List Nat) : List Nat :=
  if tags = [] then [] else packNibs (tagNibbles tags ++ [0])

/-- Split a byte stream into its nibbles, high first
(`(byte >> 4) & 0xF` then `byte & 0xF`). -/
def splitNibs (l : List Nat) : List Nat :=
  l.flatMap fun b => [b / 16 % 16, b % 16]

/-- The loop of `NibbleReader.next_unsigned_int` over the remaining nibble
stream. -/
def nibVarintGo (c : Nat) (ns : List Nat) (acc offset : Nat) :
    Except DErr (Nat × List Nat) :=
  if c ≥ 0x8 then
    match ns with
    | [] => throw .unexpectedEnd
    | c' :: ns' => nibVarintGo c' ns' (acc + (c' % 0x8 + 1) * 2 ^ offset) (offset + 3)
  else
    pure (acc, ns)

/-- `NibbleReader.next_unsigned_int`: read one nibble-varint. -/
def nibVarint (ns : List Nat) : Except DErr (Nat × List Nat) :=
  match ns with
  | [] => throw .unexpectedEnd
  | c :: ns' => nibVarintGo c ns' (c % 0x8) 3

theorem nibVarintGo_length (c : Nat) (ns : List Nat) (acc offset : Nat)
    (v : Nat) (out : List Nat) (h : nibVarintGo c ns acc offset = .ok (v, out)) :
    out.length ≤ ns.length := by
  induction ns generalizing c acc offset with
  | nil =>
      rw [nibVarintGo.eq_def] at h
      by_cases hc : c ≥ 0x8
      · simp [hc] at h
      · simp only [hc, if_neg, not_false_iff, pure, Except.pure,
          Except.ok.injEq, Prod.mk.injEq, if_false] at h
        simp [← h.2]
  | cons c' ns' ih =>
      rw [nibVarintGo.eq_def] at h
      by_cases hc : c ≥ 0x8
      · simp only [hc, if_pos] at h
        have := ih _ _ _ h
        simp
        omega
      · simp only [hc, if_neg, not_false_iff, pure, Except.pure,
          Except.ok.injEq, Prod.mk.injEq, if_false] at h
        simp [← h.2]

theorem nibVarint_length (ns : List Nat) (v : Nat) (out : List Nat)
    (h : nibVarint ns = .ok (v, out)) : out.length < ns.length := by
  match ns with
  | [] => simp [nibVarint] at h
  | c :: ns' =>
      rw [nibVarint] at h
      have := nibVarintGo_length _ _ _ _ _ _ h
      simp
      omega

/-- The reader loop of `_read_struct_tags`: read nibble-varints until
`length` tags have been produced, handling the delta encoding and the
run-length escape. -/
def readTagsGo (length : Nat) (ns : List Nat) (result : List Nat)
    (lastVal : Option Nat) (repNext : Bool) :
    Except DErr (List Nat × List Nat) :=
  if result.length < length then
    match h : nibVarint ns with
    | .error e => .error e
    | .ok (delta, ns') =>
        match lastVal with
        | none => readTagsGo length ns' (result ++ [delta]) (some delta) false
        | some last =>
            if repNext then
              readTagsGo length ns' (result ++ List.replicate delta last)
                (some last) false
            else if delta = 0 then
              readTagsGo length ns' result (some last) true
            else
              readTagsGo length ns' (result ++ [last + delta])
                (some (last + delta)) false
  else
    pure (result, ns)
termination_by ns.length
decreasing_by
  all_goals exact nibVarint_length ns _ _ h

/-- `BinaryDecoder._read_struct_tags`.  The `NibbleReader` splits the
current byte and every subsequently fetched byte into two nibbles and
fetches lazily, so consuming `k` nibbles consumes `⌈k / 2⌉` bytes from the
stream (whose head is the decoder's `_current`), and the cursor ends on the
byte after them. -/
def readStructTags (s : DecSt) (length : Nat) :
    Except DErr (List Nat × DecSt) :=
  if length = 0 then pure ([], s)
  else
    match s.cur with
    | none => throw .unexpectedEnd
    | some c =>
        let stream := c :: s.rest
        match readTagsGo length (splitNibs stream) [] none false with
        | .error e => .error e
        | .ok (tags, nsLeft) =>
            let consumedN := 2 * stream.length - nsLeft.length
            pure (tags, mkSt (stream.drop ((consumedN + 1) / 2)) s.nextRef)

/-- Reading the continuation nibbles produced by `nibValue` for `m` adds
exactly `(m + 1) * 2 ^ offset` to the accumulator. -/
theorem nibVarintGo_write (m : Nat) : ∀ (ns : List Nat) (acc offset c : Nat),
    c ≥ 0x8 →
    nibVarintGo c (nibValue m ++ ns) acc offset =
      .ok (acc + (m + 1) * 2 ^ offset, ns) := by
  induction m using Nat.strong_induction_on with
  | _ m ih =>
    intro ns acc offset c hc
    by_cases hm : m ≥ 0x8
    · rw [nibValue_cons m hm]
      rw [nibVarintGo.eq_def]
      simp only [hc, if_pos, List.cons_append]
      have hrec : m / 0x8 - 1 < m := by
        have : m / 0x8 < m := Nat.div_lt_self (by omega) (by norm_num)
        omega
      rw [ih (m / 0x8 - 1) hrec ns _ _ _ (by omega)]
      have hmod : (m % 0x8 + 0x8) % 0x8 = m % 0x8 := by omega
      rw [hmod]
      have hdiv : m / 0x8 - 1 + 1 = m / 0x8 := by
        have : m / 0x8 ≥ 1 := Nat.one_le_div_iff (by norm_num) |>.mpr (by omega)
        omega
      rw [hdiv]
      have h1 : (m % 0x8 + 1) * 2 ^ offset + m / 0x8 * 2 ^ (offset + 3) =
          (m % 0x8 + 1 + 0x8 * (m / 0x8)) * 2 ^ offset := by
        rw [pow_add]
        ring
      have h2 : m % 0x8 + 1 + 0x8 * (m / 0x8) = m + 1 := by
        have := Nat.div_add_mod m 0x8
        omega
      have h3 : acc + (m % 0x8 + 1) * 2 ^ offset + m / 0x8 * 2 ^ (offset + 3)
          = acc + (m + 1) * 2 ^ offset := by
        rw [Nat.add_assoc, h1, h2]
      rw [h3]
    · rw [nibValue_head_lt m hm]
      rw [List.cons_append, nibVarintGo]
      simp only [hc, if_pos]
      rw [nibVarintGo.eq_def]
      have hm' : ¬ m ≥ 0x8 := hm
      simp only [hm', if_neg, not_false_iff]
      have : m % 0x8 = m := Nat.mod_eq_of_lt (by omega)
      rw [this]
      rfl

/-- The nibble-varint writer and reader are mutually inverse. -/
theorem nibVarint_nibValue (v : Nat) (ns : List Nat) :
    nibVarint (nibValue v ++ ns) = .ok (v, ns) := by
  by_cases hv : v ≥ 0x8
  · rw [nibValue_cons v hv, List.cons_append, nibVarint]
    rw [nibVarintGo_write (v / 0x8 - 1) ns _ 3 _ (by omega)]
    have hmod : (v % 0x8 + 0x8) % 0x8 = v % 0x8 := by omega
    have hdiv : v / 0x8 - 1 + 1 = v / 0x8 := by
      have : v / 0x8 ≥ 1 := Nat.one_le_div_iff (by norm_num) |>.mpr (by omega)
      omega
    have hval : v % 0x8 + v / 0x8 * 2 ^ 3 = v := by
      have := Nat.div_add_mod v 0x8
      norm_num
      omega
    rw [hmod, hdiv]
    norm_num at hval ⊢
    rw [hval]
  · rw [nibValue_head_lt v hv, List.cons_append, nibVarint]
    rw [nibVarintGo.eq_def]
    simp only [hv, if_neg, not_false_iff]
    have : v % 0x8 = v := Nat.mod_eq_of_lt (by omega)
    rw [this]
    rfl

/-- `last ≤ t₀ ≤ t₁ ≤ ...`: the tail of a monotonically non-decreasing tag
vector, relative to the last emitted value. -/
def chainLE (last : Nat) : List Nat → Prop
  | [] => True
  | t :: ts => last ≤ t ∧ chainLE t ts

instance instDecidableChainLE (a : Nat) (l : List Nat) : Decidable (chainLE a l) :=
  match l with
  | [] => isTrue trivial
  | t :: ts =>
      have : Decidable (chainLE t ts) := instDecidableChainLE t ts
      by unfold chainLE; infer_instance

/-- A monotonically non-decreasing tag vector. -/
def tagsOrdered : List Nat → Prop
  | [] => True
  | t :: ts => chainLE t ts

instance (l : List Nat) : Decidable (tagsOrdered l) := by
  unfold tagsOrdered
  cases l <;> infer_instance

/-- `chainLE` survives dropping a leading run of copies of `last`. -/
theorem chainLE_dropWhile (last : Nat) (l : List Nat) (h : chainLE last l) :
    chainLE last (l.dropWhile (· = last)) := by
  induction l with
  | nil => simpa using h
  | cons x xs ih =>
      by_cases hx : x = last
      · have hd : decide (x = last) = true := by simp [hx]
        rw [List.dropWhile]
        simp only [hd]
        subst hx
        exact ih h.2
      · have hd : decide (x = last) = false := by simp [hx]
        rw [List.dropWhile]
        simp only [hd]
        exact h


/-- The reader loop undoes the writer loop: starting from `last` with the
result `res` already accumulated, reading the nibbles the writer emits for
the remaining (non-decreasing) tags `ts` appends exactly `ts`. -/
theorem readTagsGo_loop (n : Nat) : ∀ (ts : List Nat), ts.length ≤ n →
    ∀ (last : Nat) (res pad : List Nat) (L : Nat),
    chainLE last ts → res.length + ts.length = L →
    readTagsGo L (tagNibblesLoop last ts ++ pad) res (some last) false =
      .ok (res ++ ts, pad) := by
  induction n with
  | zero =>
      intro ts hlen last res pad L hchain hL
      have hts : ts = [] := List.length_eq_zero.mp (by omega)
      subst hts
      rw [tagNibblesLoop.eq_def]
      simp only [List.nil_append, List.append_nil]
      rw [readTagsGo.eq_def]
      rw [if_neg (by omega)]
      rfl
  | succ n ih =>
      intro ts hlen last res pad L hchain hL
      match ts with
      | [] =>
          rw [tagNibblesLoop.eq_def]
          simp only [List.nil_append, List.append_nil]
          rw [readTagsGo.eq_def]
          rw [if_neg (by simp at hL; omega)]
          rfl
      | t :: ts' =>
          by_cases ht : t = last
          · subst ht
            have hsplit : ts'.takeWhile (· = t) ++ ts'.dropWhile (· = t) = ts' :=
              List.takeWhile_append_dropWhile (fun x => decide (x = t)) ts'
            have hrep : ts'.takeWhile (· = t) =
                List.replicate (ts'.takeWhile (· = t)).length t := by
              apply List.eq_replicate_of_mem
              intro b hb
              have := List.mem_takeWhile_imp hb
              simpa using this
            set k := (ts'.takeWhile (· = t)).length with hk
            set ts'' := ts'.dropWhile (· = t) with hts''
            have hlen'' : k + ts''.length = ts'.length := by
              conv_rhs => rw [← hsplit]
              simp
            have hns1 : tagNibblesLoop t (t :: ts') ++ pad =
                nibValue 0 ++ (nibValue (1 + k) ++ (tagNibblesLoop t ts'' ++ pad)) := by
              rw [tagNibblesLoop.eq_def]
              simp only [if_pos rfl]
              simp
            rw [hns1]
            rw [readTagsGo.eq_def]
            rw [if_pos (by simp at hL ⊢; omega)]
            rw [nibVarint_nibValue 0 _]
            simp only [if_pos rfl, Bool.false_eq_true, if_false]
            simp only [if_true]
            rw [readTagsGo.eq_def]
            rw [if_pos (by simp at hL ⊢; omega)]
            rw [nibVarint_nibValue (1 + k) _]
            simp only [if_pos rfl]
            simp only [if_true]
            have hchain'' : chainLE t ts'' := chainLE_dropWhile t ts' hchain.2
            have hres : (res ++ List.replicate (1 + k) t).length + ts''.length = L := by
              simp at hL ⊢
              omega
            rw [ih ts'' (by simp at hlen; omega) t _ pad L hchain'' hres]
            have hfinal : res ++ List.replicate (1 + k) t ++ ts'' = res ++ t :: ts' := by
              rw [List.append_assoc]
              congr 1
              calc List.replicate (1 + k) t ++ ts''
                  = t :: (List.replicate k t ++ ts'') := by
                    rw [show 1 + k = k + 1 by omega, List.replicate_succ,
                      List.cons_append]
                _ = t :: (ts'.takeWhile (· = t) ++ ts'') := by rw [hrep]
                _ = t :: ts' := by rw [hsplit]
            rw [hfinal]
          · have hd1 : last ≤ t := hchain.1
            have hdelta : ¬ (t - last = 0) := by omega
            have hns1 : tagNibblesLoop last (t :: ts') ++ pad =
                nibValue (t - last) ++ (tagNibblesLoop t ts' ++ pad) := by
              rw [tagNibblesLoop.eq_def]
              simp only [if_neg ht]
              simp
            rw [hns1]
            rw [readTagsGo.eq_def]
            rw [if_pos (by simp at hL ⊢; omega)]
            rw [nibVarint_nibValue (t - last) _]
            simp only [Bool.false_eq_true, if_false, if_neg hdelta]
            have hlt : last + (t - last) = t := by omega
            rw [hlt]
            have hres : (res ++ [t]).length + ts'.length = L := by
              simp at hL ⊢
              omega
            rw [ih ts' (by simp at hlen; omega) t _ pad L hchain.2 hres]
            simp

/-- Reading the whole nibble stream of a non-empty non-decreasing tag
vector returns the vector and leaves everything after its nibbles. -/
theorem readTagsGo_tagNibbles (tags : List Nat) (h1 : tags ≠ [])
    (h2 : tagsOrdered tags) (pad : List Nat) :
    readTagsGo tags.length (tagNibbles tags ++ pad) [] none false =
      .ok (tags, pad) := by
  match tags with
  | t :: ts =>
      show readTagsGo (t :: ts).length
        ((nibValue t ++ tagNibblesLoop t ts) ++ pad) [] none false = _
      rw [readTagsGo.eq_def]
      rw [if_pos (by simp)]
      rw [List.append_assoc, nibVarint_nibValue t _]
      simp only [List.nil_append]
      exact readTagsGo_loop ts.length ts le_rfl t [t] pad (t :: ts).length h2
        (by simp [Nat.add_comm])

theorem splitNibs_cons (b : Nat) (l : List Nat) :
    splitNibs (b :: l) = b / 16 % 16 :: b % 16 :: splitNibs l := by
  simp [splitNibs]

theorem splitNibs_length (l : List Nat) :
    (splitNibs l).length = 2 * l.length := by
  induction l with
  | nil => rfl
  | cons b l ih =>
      rw [splitNibs_cons]
      simp [ih]
      omega

/-- Splitting packed nibble pairs recovers the nibbles (for nibble values
below 16 and an even-length stream). -/
theorem splitNibs_packNibs (n : Nat) : ∀ (ns : List Nat), ns.length ≤ n →
    (∀ x ∈ ns, x < 16) → ns.length % 2 = 0 → ∀ (follow : List Nat),
    splitNibs (packNibs ns ++ follow) = ns ++ splitNibs follow := by
  induction n with
  | zero =>
      intro ns hn _ _ follow
      have : ns = [] := List.length_eq_zero.mp (by omega)
      subst this
      simp [packNibs]
  | succ n ih =>
      intro ns hn h16 heven follow
      match ns with
      | [] => simp [packNibs]
      | [a] => simp at heven
      | a :: b :: r =>
          rw [show packNibs (a :: b :: r) = (a * 16 + b) :: packNibs r from rfl]
          rw [List.cons_append, splitNibs_cons]
          have ha : a < 16 := h16 a (by simp)
          have hb : b < 16 := h16 b (by simp)
          rw [ih r (by simp at hn; omega) (fun x hx => h16 x (by simp [hx]))
            (by simp at heven ⊢; omega) follow]
          have h1 : (a * 16 + b) / 16 % 16 = a := by omega
          have h2 : (a * 16 + b) % 16 = b := by omega
          rw [h1, h2]
          rfl

/-- A lone nibble appended after an even-length stream never reaches the
output (it stays in `top_nibble`). -/
theorem packNibs_append_single (n : Nat) : ∀ (ns : List Nat), ns.length ≤ n →
    ns.length % 2 = 0 → ∀ (x : Nat), packNibs (ns ++ [x]) = packNibs ns := by
  induction n with
  | zero =>
      intro ns hn _ x
      have : ns = [] := List.length_eq_zero.mp (by omega)
      subst this
      rfl
  | succ n ih =>
      intro ns hn heven x
      match ns with
      | [] => rfl
      | [a] => simp at heven
      | a :: b :: r =>
          show packNibs (a :: b :: (r ++ [x])) = _
          rw [show packNibs (a :: b :: (r ++ [x])) =
            (a * 16 + b) :: packNibs (r ++ [x]) from rfl]
          rw [ih r (by simp at hn; omega) (by simp at heven ⊢; omega) x]
          rfl

theorem packNibs_length (n : Nat) : ∀ (ns : List Nat), ns.length ≤ n →
    (packNibs ns).length = ns.length / 2 := by
  induction n with
  | zero =>
      intro ns hn
      have : ns = [] := List.length_eq_zero.mp (by omega)
      subst this
      rfl
  | succ n ih =>
      intro ns hn
      match ns with
      | [] => rfl
      | [a] => simp [packNibs]
      | a :: b :: r =>
          rw [show packNibs (a :: b :: r) = (a * 16 + b) :: packNibs r from rfl]
          simp only [List.length_cons]
          rw [ih r (by simp at hn; omega)]
          omega

theorem tagNibblesLoop_cons (last t : Nat) (ts' : List Nat) :
    tagNibblesLoop last (t :: ts') =
      if t = last then
        nibValue 0 ++ nibValue (1 + (ts'.takeWhile (· = last)).length) ++
          tagNibblesLoop last (ts'.dropWhile (· = last))
      else
        nibValue (t - last) ++ tagNibblesLoop t ts' := by
  rw [tagNibblesLoop.eq_def]

/-- Every nibble emitted by the writer loop is below 16. -/
theorem tagNibblesLoop_lt_16 (n : Nat) : ∀ (ts : List Nat), ts.length ≤ n →
    ∀ (last : Nat) (x : Nat), x ∈ tagNibblesLoop last ts → x < 16 := by
  induction n with
  | zero =>
      intro ts hn last x hx
      have : ts = [] := List.length_eq_zero.mp (by omega)
      subst this
      rw [tagNibblesLoop.eq_def] at hx
      simp at hx
  | succ n ih =>
      intro ts hn last x hx
      match ts with
      | [] =>
          rw [tagNibblesLoop.eq_def] at hx
          simp at hx
      | t :: ts' =>
          rw [tagNibblesLoop_cons] at hx
          by_cases ht : t = last
          · rw [if_pos ht] at hx
            simp only [List.mem_append] at hx
            rcases hx with (hx | hx) | hx
            · exact nibValue_lt_16 0 x hx
            · exact nibValue_lt_16 _ x hx
            · refine ih _ ?_ last x hx
              have := dropWhile_length_le (fun y => decide (y = last)) ts'
              simp at hn
              omega
          · rw [if_neg ht] at hx
            simp only [List.mem_append] at hx
            rcases hx with hx | hx
            · exact nibValue_lt_16 _ x hx
            · refine ih _ ?_ t x hx
              simp at hn
              omega

theorem tagNibbles_lt_16 (tags : List Nat) : ∀ x ∈ tagNibbles tags, x < 16 := by
  intro x hx
  match tags with
  | [] => simp [tagNibbles] at hx
  | t :: ts =>
      rw [show tagNibbles (t :: ts) = nibValue t ++ tagNibblesLoop t ts from rfl] at hx
      rcases List.mem_append.mp hx with h | h
      · exact nibValue_lt_16 t x h
      · exact tagNibblesLoop_lt_16 ts.length ts le_rfl t x h

theorem tagNibbles_ne_nil (tags : List Nat) (h : tags ≠ []) :
    tagNibbles tags ≠ [] := by
  match tags with
  | t :: ts =>
      show nibValue t ++ tagNibblesLoop t ts ≠ []
      simp [nibValue_ne_nil t]

/-- The struct-tag nibble codec round-trips at the byte level: reading back
the packed stream written for a non-empty, monotonically non-decreasing tag
vector (given its length) returns the vector, consumes exactly the written
bytes and leaves the cursor on the first following byte. -/
theorem readStructTags_writeStructTags (tags : List Nat) (h1 : tags ≠ [])
    (h2 : tagsOrdered tags) (follow : List Nat) (nr : Nat) :
    readStructTags (mkSt (writeStructTags tags ++ follow) nr) tags.length =
      .ok (tags, mkSt follow nr) := by
  have hlen0 : tags.length ≠ 0 := by
    cases tags
    · exact absurd rfl h1
    · simp
  have htn : tagNibbles tags ≠ [] := tagNibbles_ne_nil tags h1
  have htn16 : ∀ x ∈ tagNibbles tags, x < 16 := tagNibbles_lt_16 tags
  set tn := tagNibbles tags with htndef
  have hwst : writeStructTags tags = packNibs (tn ++ [0]) := by
    rw [writeStructTags, if_neg h1]
  have hwstlen : (writeStructTags tags).length = (tn.length + 1) / 2 := by
    rw [hwst, packNibs_length (tn ++ [0]).length _ le_rfl]
    simp
  have hwstpos : (writeStructTags tags).length ≥ 1 := by
    rw [hwstlen]
    have : tn.length ≥ 1 := by
      cases h : tn
      · exact absurd h htn
      · simp [h]
    omega
  -- expose the head of the stream
  obtain ⟨c, rest, hstream⟩ :
      ∃ c rest, writeStructTags tags ++ follow = c :: rest := by
    cases h : writeStructTags tags ++ follow with
    | nil =>
        exfalso
        obtain ⟨hA, hB⟩ := List.append_eq_nil.mp h
        rw [hA] at hwstpos
        simp at hwstpos
    | cons c rest => exact ⟨c, rest, rfl⟩
  rw [hstream, mkSt_cons, readStructTags]
  rw [if_neg hlen0]
  simp only [← hstream]
  -- the nibble view of the stream
  have hsplit : splitNibs (writeStructTags tags ++ follow) =
      tn ++ ((if tn.length % 2 = 0 then [] else [0]) ++ splitNibs follow) := by
    by_cases hpar : tn.length % 2 = 0
    · rw [if_pos hpar]
      rw [hwst, packNibs_append_single tn.length tn le_rfl hpar 0]
      rw [splitNibs_packNibs tn.length tn le_rfl htn16 hpar follow]
      simp
    · rw [if_neg hpar]
      rw [hwst]
      rw [splitNibs_packNibs (tn ++ [0]).length (tn ++ [0]) le_rfl
        (by intro x hx
            rcases List.mem_append.mp hx with h | h
            · exact htn16 x h
            · simp at h
              omega)
        (by simp; omega) follow]
      simp
  rw [hsplit]
  rw [readTagsGo_tagNibbles tags h1 h2 _]
  simp only
  -- byte-consumption arithmetic
  have hfollow : (splitNibs follow).length = 2 * follow.length := splitNibs_length follow
  have hslen : (writeStructTags tags ++ follow).length =
      (tn.length + 1) / 2 + follow.length := by
    simp [hwstlen]
  have hdrop : (writeStructTags tags ++ follow).drop
      ((writeStructTags tags).length) = follow := List.drop_left _ _
  have hcons : (2 * (writeStructTags tags ++ follow).length -
      ((if tn.length % 2 = 0 then [] else [0]) ++ splitNibs follow).length + 1) / 2 =
      (writeStructTags tags).length := by
    by_cases hpar : tn.length % 2 = 0
    · rw [if_pos hpar]
      simp only [List.nil_append]
      rw [hfollow, hslen, hwstlen]
      omega
    · rw [if_neg hpar]
      simp only [List.cons_append, List.nil_append, List.length_cons]
      rw [hfollow, hslen, hwstlen]
      omega
  rw [hcons, hdrop]
  rfl

/-! ## The value data model (`_types.py`, `_object.py`)

Tree-shaped plankton values.  Maps and seed field maps are insertion-ordered
association lists (Python `OrderedDict`); a struct is an ordered list of
`(tag, value)` pairs. -/

inductive Value where
  | vint (i : Int)
  | vnull
  | vbool (b : Bool)
  | vfloat (bits : Nat)
  | vid (bytes : List Nat)
  | vstring (bytes : List Nat)
  | vblob (bytes : List Nat)
  | varray (elems : List Value)
  | vmap (entries : List (Value × Value))
  | vseed (header : Value) (fields : List (Value × Value))
  | vstruct (fields : List (Nat × Value))
  deriving Repr

theorem sizeOf_fst_lt_pair (e : Value × Value) : sizeOf e.1 < sizeOf e := by
  cases e <;> simp <;> omega

theorem sizeOf_snd_lt_pair (e : Value × Value) : sizeOf e.2 < sizeOf e := by
  cases e <;> simp <;> omega

theorem sizeOf_snd_lt_tagged (e : Nat × Value) : sizeOf e.2 < sizeOf e := by
  cases e <;> simp <;> omega

/-- Structural induction for the nested `Value` type. -/
theorem Value.inductionOn (P : Value → Prop)
    (hint : ∀ i, P (.vint i)) (hnull : P .vnull) (hbool : ∀ b, P (.vbool b))
    (hfloat : ∀ b, P (.vfloat b)) (hid : ∀ bs, P (.vid bs))
    (hstring : ∀ bs, P (.vstring bs)) (hblob : ∀ bs, P (.vblob bs))
    (harray : ∀ vs, (∀ v ∈ vs, P v) → P (.varray vs))
    (hmap : ∀ es, (∀ e ∈ es, P e.1 ∧ P e.2) → P (.vmap es))
    (hseed : ∀ h fs, P h → (∀ e ∈ fs, P e.1 ∧ P e.2) → P (.vseed h fs))
    (hstruct : ∀ fs, (∀ f ∈ fs, P f.2) → P (.vstruct fs)) :
    ∀ v, P v
  | .vint i => hint i
  | .vnull => hnull
  | .vbool b => hbool b
  | .vfloat b => hfloat b
  | .vid bs => hid bs
  | .vstring bs => hstring bs
  | .vblob bs => hblob bs
  | .varray vs =>
      harray vs fun v hv =>
        have : sizeOf v < 1 + sizeOf vs := by
          have := List.sizeOf_lt_of_mem hv
          omega
        Value.inductionOn P hint hnull hbool hfloat hid hstring hblob harray
          hmap hseed hstruct v
  | .vmap es =>
      hmap es fun e he =>
        have h1 : sizeOf e < sizeOf es := List.sizeOf_lt_of_mem he
        have hf : sizeOf e.1 < 1 + sizeOf es := by
          have := sizeOf_fst_lt_pair e
          omega
        have hs : sizeOf e.2 < 1 + sizeOf es := by
          have := sizeOf_snd_lt_pair e
          omega
        ⟨Value.inductionOn P hint hnull hbool hfloat hid hstring hblob harray
            hmap hseed hstruct e.1,
          Value.inductionOn P hint hnull hbool hfloat hid hstring hblob harray
            hmap hseed hstruct e.2⟩
  | .vseed h fs =>
      hseed h fs
        (have : sizeOf h < 1 + sizeOf h + sizeOf fs := by
          omega
        Value.inductionOn P hint hnull hbool hfloat hid hstring hblob harray
          hmap hseed hstruct h)
        (fun e he =>
          have h1 : sizeOf e < sizeOf fs := List.sizeOf_lt_of_mem he
          have hf : sizeOf e.1 < 1 + sizeOf h + sizeOf fs := by
            have := sizeOf_fst_lt_pair e
            omega
          have hs : sizeOf e.2 < 1 + sizeOf h + sizeOf fs := by
            have := sizeOf_snd_lt_pair e
            omega
          ⟨Value.inductionOn P hint hnull hbool hfloat hid hstring hblob harray
              hmap hseed hstruct e.1,
            Value.inductionOn P hint hnull hbool hfloat hid hstring hblob harray
              hmap hseed hstruct e.2⟩)
  | .vstruct fs =>
      hstruct fs fun f hf =>
        have h1 : sizeOf f < sizeOf fs := List.sizeOf_lt_of_mem hf
        have : sizeOf f.2 < 1 + sizeOf fs := by
          have := sizeOf_snd_lt_tagged f
          omega
        Value.inductionOn P hint hnull hbool hfloat hid hstring hblob harray
          hmap hseed hstruct f.2
termination_by v => sizeOf v

mutual

/-- Structural equality of values (cf. §8 of the documentation: atoms by
value, floats by bit pattern, composites element-wise in order). -/
def vbeq : Value → Value → Bool
  | .vint a, .vint b => a == b
  | .vnull, .vnull => true
  | .vbool a, .vbool b => a == b
  | .vfloat a, .vfloat b => a == b
  | .vid a, .vid b => a == b
  | .vstring a, .vstring b => a == b
  | .vblob a, .vblob b => a == b
  | .varray a, .varray b => vbeqList a b
  | .vmap a, .vmap b => vbeqPairs a b
  | .vseed h1 f1, .vseed h2 f2 => vbeq h1 h2 && vbeqPairs f1 f2
  | .vstruct f1, .vstruct f2 => vbeqTagged f1 f2
  | _, _ => false

def vbeqList : List Value → List Value → Bool
  | [], [] => true
  | a :: as, b :: bs => vbeq a b && vbeqList as bs
  | _, _ => false

def vbeqPairs : List (Value × Value) → List (Value × Value) → Bool
  | [], [] => true
  | (k1, v1) :: as, (k2, v2) :: bs => vbeq k1 k2 && vbeq v1 v2 && vbeqPairs as bs
  | _, _ => false

def vbeqTagged : List (Nat × Value) → List (Nat × Value) → Bool
  | [], [] => true
  | (t1, v1) :: as, (t2, v2) :: bs => t1 == t2 && vbeq v1 v2 && vbeqTagged as bs
  | _, _ => false

end

theorem vbeqList_iff (vs : List Value)
    (ih : ∀ v ∈ vs, ∀ b, vbeq v b = true ↔ v = b) (vs' : List Value) :
    vbeqList vs vs' = true ↔ vs = vs' := by
  induction vs generalizing vs' with
  | nil => cases vs' <;> simp [vbeqList]
  | cons a as ihl =>
      cases vs' with
      | nil => simp [vbeqList]
      | cons b bs =>
          simp only [vbeqList]
          rw [Bool.and_eq_true, ih a (by simp) b,
            ihl (fun v hv => ih v (by simp [hv])) bs]
          simp

theorem vbeqPairs_iff (es : List (Value × Value))
    (ih : ∀ e ∈ es, (∀ b, vbeq e.1 b = true ↔ e.1 = b) ∧
      (∀ b, vbeq e.2 b = true ↔ e.2 = b)) (es' : List (Value × Value)) :
    vbeqPairs es es' = true ↔ es = es' := by
  induction es generalizing es' with
  | nil => cases es' <;> simp [vbeqPairs]
  | cons a as ihl =>
      cases es' with
      | nil =>
          obtain ⟨k, v⟩ := a
          simp [vbeqPairs]
      | cons b bs =>
          obtain ⟨k1, v1⟩ := a
          obtain ⟨k2, v2⟩ := b
          simp only [vbeqPairs, Bool.and_eq_true,
            (ih (k1, v1) (by simp)).1 k2, (ih (k1, v1) (by simp)).2 v2,
            ihl (fun e he => ih e (by simp [he])) bs,
            Prod.mk.injEq, List.cons.injEq]

theorem vbeqTagged_iff (fs : List (Nat × Value))
    (ih : ∀ f ∈ fs, ∀ b, vbeq f.2 b = true ↔ f.2 = b)
    (fs' : List (Nat × Value)) :
    vbeqTagged fs fs' = true ↔ fs = fs' := by
  induction fs generalizing fs' with
  | nil => cases fs' <;> simp [vbeqTagged]
  | cons a as ihl =>
      cases fs' with
      | nil =>
          obtain ⟨t, v⟩ := a
          simp [vbeqTagged]
      | cons b bs =>
          obtain ⟨t1, v1⟩ := a
          obtain ⟨t2, v2⟩ := b
          simp only [vbeqTagged, Bool.and_eq_true,
            (ih (t1, v1) (by simp)) v2,
            ihl (fun f hf => ih f (by simp [hf])) bs,
            Prod.mk.injEq, List.cons.injEq, beq_iff_eq]

theorem vbeq_iff : ∀ a b : Value, vbeq a b = true ↔ a = b := by
  intro a
  induction a using Value.inductionOn with
  | hint i => intro b; cases b <;> simp [vbeq]
  | hnull => intro b; cases b <;> simp [vbeq]
  | hbool x => intro b; cases b <;> simp [vbeq]
  | hfloat x => intro b; cases b <;> simp [vbeq]
  | hid x => intro b; cases b <;> simp [vbeq]
  | hstring x => intro b; cases b <;> simp [vbeq]
  | hblob x => intro b; cases b <;> simp [vbeq]
  | harray vs ih =>
      intro b
      cases b <;> simp [vbeq, vbeqList_iff vs ih]
  | hmap es ih =>
      intro b
      cases b <;>
        simp [vbeq, vbeqPairs_iff es (fun e he => ⟨(ih e he).1, (ih e he).2⟩)]
  | hseed h fs ihh ihf =>
      intro b
      cases b <;>
        simp [vbeq, ihh,
          vbeqPairs_iff fs (fun e he => ⟨(ihf e he).1, (ihf e he).2⟩)]
  | hstruct fs ih =>
      intro b
      cases b <;> simp [vbeq, vbeqTagged_iff fs ih]

instance : DecidableEq Value := fun a b => decidable_of_iff _ (vbeq_iff a b)

/-- Python hashability of the decoded representations: lists (`new_array`),
`OrderedDict`s (`new_map`) and `bytearray`s (blobs) are unhashable and raise
`TypeError` when used as dict keys; everything else (including `Seed` and
`Struct` objects, which Python hashes by identity) is fine. -/
def hashable : Value → Bool
  | .varray _ => false
  | .vmap _ => false
  | .vblob _ => false
  | _ => true

/-- `OrderedDict` insertion `d[k] = v` on an association list: update in
place if the (structurally compared) key is present, else append.  Python
compares keys with `==`; on the hashable values that can actually coexist
as keys of one factory-produced map this agrees with structural equality
(the cross-type numeric equalities between ints, floats and bools never
arise there, and identity-distinct `Seed`/`Struct` keys are handled under
the distinct-keys well-formedness hypothesis). -/
def odInsert (d : List (Value × Value)) (k v : Value) : List (Value × Value) :=
  match d with
  | [] => [(k, v)]
  | (k', v') :: d' => if k' = k then (k', v) :: d' else (k', v') :: odInsert d' k v

/-- Fill a fresh `OrderedDict` from key/value pairs in order
(`_end_map` / `_end_seed`). -/
def odFromPairs (d : List (Value × Value)) (entries : List (Value × Value)) :
    List (Value × Value) :=
  match entries with
  | [] => d
  | (k, v) :: es => odFromPairs (odInsert d k v) es

/-! ## Encoder byte fragments (`BinaryEncoder`) -/

/-- `BinaryEncoder.on_int`: literal tags for `0..5` and `-1..-3`, otherwise
`INT_P`/`INT_M` with a biased varint. -/
def intInstr (i : Int) : List Nat :=
  if i = 0 then [0x00]
  else if i = 1 then [0x01]
  else if i = 2 then [0x02]
  else if i = 3 then [0x03]
  else if i = 4 then [0x04]
  else if i = 5 then [0x05]
  else if i = -1 then [0x0f]
  else if i = -2 then [0x0e]
  else if i = -3 then [0x0d]
  else if i < 0 then 0x09 :: writeUInt (-(i + 1)).toNat
  else 0x08 :: writeUInt i.toNat

/-- `BinaryEncoder.on_id`: width selected from the big-endian 128-bit value,
emitting only the least-significant bytes. -/
def idInstr (bs : List Nat) : List Nat :=
  let ivalue := beNat bs
  if ivalue ≥ 2 ^ 64 then 0x17 :: bs
  else if ivalue ≥ 2 ^ 32 then 0x16 :: bs.drop 8
  else if ivalue ≥ 2 ^ 16 then 0x15 :: bs.drop 12
  else 0x14 :: bs.drop 14

/-- `BinaryEncoder.on_string` (default encoding): the eight
`DEFAULT_STRING_k_TAG` branches collapse to `0x50 + k`; longer strings use
`DEFAULT_STRING_N_TAG` with a varint length before the bytes. -/
def stringInstr (bs : List Nat) : List Nat :=
  if bs.length ≤ 7 then (0x50 + bs.length) :: bs
  else 0x58 :: (writeUInt bs.length ++ bs)

/-- `BinaryEncoder.on_blob`. -/
def blobInstr (bs : List Nat) : List Nat :=
  0x48 :: (writeUInt bs.length ++ bs)

/-- `BinaryEncoder.on_begin_array` (without the `ADD_REF` prefix). -/
def beginArrayBytes (len : Nat) : List Nat :=
  if len = 0 then [0x20]
  else if len = 1 then [0x21]
  else if len = 2 then [0x22]
  else if len = 3 then [0x23]
  else 0x28 :: writeUInt len

/-- `BinaryEncoder.on_begin_map` (without the `ADD_REF` prefix). -/
def beginMapBytes (len : Nat) : List Nat :=
  if len = 0 then [0x30]
  else if len = 1 then [0x31]
  else if len = 2 then [0x32]
  else if len = 3 then [0x33]
  else 0x38 :: writeUInt len

/-- `BinaryEncoder.on_begin_seed` (without the `ADD_REF` prefix). -/
def beginSeedBytes (len : Nat) : List Nat :=
  if len = 0 then [0x60]
  else if len = 1 then [0x61]
  else if len = 2 then [0x62]
  else if len = 3 then [0x63]
  else 0x68 :: writeUInt len

/-- `BinaryEncoder.on_begin_struct` (without the `ADD_REF` prefix): the
linear short forms, else `STRUCT_N` with field count and nibble stream. -/
def beginStructBytes (tags : List Nat) : List Nat :=
  if tags = [] then [0x80]
  else if tags = [0] then [0x81]
  else if tags = [0, 1] then [0x82]
  else if tags = [0, 1, 2] then [0x83]
  else if tags = [0, 1, 2, 3] then [0x84]
  else if tags = [0, 1, 2, 3, 4] then [0x85]
  else if tags = [0, 1, 2, 3, 4, 5] then [0x86]
  else if tags = [0, 1, 2, 3, 4, 5, 6] then [0x87]
  else 0x88 :: (writeUInt tags.length ++ writeStructTags tags)

mutual

/-- Tree encoding of a value: the byte stream produced by
`ObjectTreeDecoder._decode` driving `BinaryEncoder` on a value without
shared substructure.  On such a value `_should_add_ref` is constantly false
and `_get_backref` records fresh identities without ever finding a repeat,
so no `ADD_REF`/`GET_REF` instruction appears and the traversal is the
plain structural recursion below (children in `_traverse_composite` order). -/
def encodeValue : Value → List Nat
  | .vint i => intInstr i
  | .vnull => [0x10]
  | .vbool true => [0x11]
  | .vbool false => [0x12]
  | .vfloat b => floatInstr b
  | .vid bs => idInstr bs
  | .vstring bs => stringInstr bs
  | .vblob bs => blobInstr bs
  | .varray vs => beginArrayBytes vs.length ++ encodeList vs
  | .vmap es => beginMapBytes es.length ++ encodePairs es
  | .vseed h fs => beginSeedBytes fs.length ++ (encodeValue h ++ encodePairs fs)
  | .vstruct fs => beginStructBytes (fs.map Prod.fst) ++ encodeTagged fs

/-- Encode the elements of an array in order. -/
def encodeList : List Value → List Nat
  | [] => []
  | v :: vs => encodeValue v ++ encodeList vs

/-- Encode map / seed-field entries, keys and values alternating
(`_traverse_composite`). -/
def encodePairs : List (Value × Value) → List Nat
  | [] => []
  | (k, v) :: es => encodeValue k ++ (encodeValue v ++ encodePairs es)

/-- Encode struct field values in order (tags travel in the header). -/
def encodeTagged : List (Nat × Value) → List Nat
  | [] => []
  | (_, v) :: fs => encodeValue v ++ encodeTagged fs

end

/-! ## The object builder (`ObjectBuilder` in `_object.py`)

The builder is a visitor that reconstructs values from the instruction
stream.  `pends` is the `_pending_ends` stack (head = top, where Python
appends at the end of its list); a frame is `[total_count, added_count,
callback, open_result, data]` with the callback and its captured data
represented by `FrameKind`.  The mutable factory objects of the source
become pure values assembled when a frame completes; consequently a
reference slot attached to a composite is bound when the composite
completes rather than when it begins (`_maybe_add_ref` binds the in-place
mutated object at `on_begin_*`).  The two behaviours agree on every stream
in which a `GET_REF` only names composites that are already complete —
in particular on everything the tree encoder emits; the identity-faithful
heap builder below models the begin-time publication needed for cycles. -/

inductive FrameKind where
  /-- the `_schedule_end(2, 1, None, None)` bottom sentinel (its callback,
  the literal `1`, is never invoked because the frame never completes) -/
  | fbottom
  /-- `_store_result` -/
  | fresult
  /-- `_end_array` -/
  | farr
  /-- `_end_map` -/
  | fmap
  /-- `_end_seed_header`, carrying the pending field count -/
  | fseedHead (fieldCount : Nat)
  /-- `_end_seed`, with the header already set on the seed -/
  | fseedFields (header : Value)
  /-- `_end_struct`, carrying the tag vector -/
  | fstruct (tags : List Nat)
  deriving Repr, DecidableEq

structure Frame where
  total : Nat
  got : Nat
  kind : FrameKind
  refKey : Option Nat
  deriving Repr, DecidableEq

structure Builder where
  stack : List Value
  pends : List Frame
  result : Value
  refs : List (Nat × Value)
  deriving Repr, DecidableEq

/-- `ObjectBuilder.__init__` / `_init`: the bottom sentinel below the
result-storing frame; `_result` starts as Python `None`. -/
def initBuilder : Builder :=
  { stack := [], pends := [⟨1, 0, .fresult, none⟩, ⟨2, 0, .fbottom, none⟩],
    result := .vnull, refs := [] }

/-- `has_result`: only the bottom sentinel remains. -/
def Builder.hasResult (b : Builder) : Bool := b.pends.length == 1

/-- `_maybe_add_ref`: record the completed composite under its slot. -/
def bindRef (b : Builder) (rk : Option Nat) (v : Value) : Builder :=
  match rk with
  | none => b
  | some k => { b with refs := b.refs ++ [(k, v)] }

/-- Group an alternating key/value list into pairs (the
`for i in range(0, total, 2)` loops of `_end_map` / `_end_seed`; the
length is always even there by construction). -/
def pairUp : List Value → List (Value × Value)
  | k :: v :: rest => (k, v) :: pairUp rest
  | _ => []

mutual

/-- `ObjectBuilder._push`: append to the value stack, bump the top frame,
and when it is complete pop it, slice its values off the stack and run its
callback (which may push and cascade further). -/
def pushValue (b : Builder) (v : Value) : Except DErr Builder :=
  match h : b.pends with
  | [] => throw .internal
  | fr :: ps =>
      let stack' := b.stack ++ [v]
      if fr.got + 1 = fr.total then
        let vals := stack'.drop (stack'.length - fr.total)
        let remaining := stack'.take (stack'.length - fr.total)
        finishFrame { b with stack := remaining, pends := ps } fr.kind
          fr.refKey vals
      else
        let fr' := { fr with got := fr.got + 1 }
        pure { b with stack := stack', pends := fr' :: ps }
termination_by 2 * b.pends.length + 1
decreasing_by
  simp [h]
  omega

/-- Run a completed frame's callback (determined by its kind `k` and its
ref key `r`) on its collected values. -/
def finishFrame (b : Builder) (k : FrameKind) (r : Option Nat)
    (vals : List Value) : Except DErr Builder :=
  match k with
  | .fbottom => throw .internal
  | .fresult =>
      match vals with
      | [v] => pushValue { b with result := v } .vnull
      | _ => throw .internal
  | .farr =>
      pushValue (bindRef b r (.varray vals)) (.varray vals)
  | .fmap =>
      let es := pairUp vals
      if es.all fun e => hashable e.1 then
        pushValue (bindRef b r (.vmap (odFromPairs [] es)))
          (.vmap (odFromPairs [] es))
      else throw .unhashableKey
  | .fseedHead n =>
      match vals with
      | [h] =>
          if n = 0 then
            pushValue (bindRef b r (.vseed h [])) (.vseed h [])
          else
            pure { b with pends := ⟨2 * n, 0, .fseedFields h, r⟩ :: b.pends }
      | _ => throw .internal
  | .fseedFields h =>
      let es := pairUp vals
      if es.all fun e => hashable e.1 then
        pushValue (bindRef b r (.vseed h (odFromPairs [] es)))
          (.vseed h (odFromPairs [] es))
      else throw .unhashableKey
  | .fstruct tags =>
      pushValue (bindRef b r (.vstruct (tags.zip vals)))
        (.vstruct (tags.zip vals))
termination_by 2 * b.pends.length + 2
decreasing_by
  all_goals simp [bindRef]
  all_goals split <;> simp

end

/-! ## The instruction stream decoder (`BinaryDecoder`) -/

/-- The visitor interface of `_types.Visitor`, over a visitor state `σ`.
`on_singleton` takes `none` for Python `None` and `some b` for booleans;
the string-encoding argument is omitted (the binary decoder always passes
`None` and the builder then uses its default encoding, which the byte-level
model leaves uninterpreted). -/
structure Visitor (σ : Type) where
  onInt : σ → Int → Except DErr σ
  onSingleton : σ → Option Bool → Except DErr σ
  onId : σ → List Nat → Except DErr σ
  onFloat : σ → Nat → Except DErr σ
  onString : σ → List Nat → Except DErr σ
  onBlob : σ → List Nat → Except DErr σ
  onBeginArray : σ → Nat → Option Nat → Except DErr σ
  onBeginMap : σ → Nat → Option Nat → Except DErr σ
  onBeginSeed : σ → Nat → Option Nat → Except DErr σ
  onBeginStruct : σ → List Nat → Option Nat → Except DErr σ
  onGetRef : σ → Int → Except DErr σ
  onInvalid : σ → Nat → Except DErr σ

/-- `BinaryDecoder._advance_and_read_block`: read `count` bytes straight
from the input (the cursor still holds the opcode), then `_advance`.
Exhausted input is reported as `unexpectedEnd` (in the source the
downstream `struct.unpack` / `uuid.UUID` call fails on the short read). -/
def advanceAndReadBlock (s : DecSt) (count : Nat) :
    Except DErr (List Nat × DecSt) :=
  if s.rest.length < count then throw .unexpectedEnd
  else pure (s.rest.take count, mkSt (s.rest.drop count) s.nextRef)

/-- `BinaryDecoder._read_block`: `count` bytes of which the first is the
cursor byte, then `_advance`; zero bytes return immediately without
advancing. -/
def readBlock (s : DecSt) (count : Nat) : Except DErr (List Nat × DecSt) :=
  if count = 0 then pure ([], s)
  else
    match s.cur with
    | none => throw .unexpectedEnd
    | some c =>
        if s.rest.length < count - 1 then throw .unexpectedEnd
        else pure (c :: s.rest.take (count - 1),
          mkSt (s.rest.drop (count - 1)) s.nextRef)

/-- `BinaryDecoder.decode_next`: dispatch on the cursor opcode through the
`_INSTRUCTION_DECODERS` table.  Each handler advances past its opcode,
reads its operands and invokes exactly one visitor call; `ADD_REF`
allocates the next reference slot and recurses with it as `ref_key`;
unassigned opcodes go to `on_invalid_instruction` without advancing. -/
def decodeNext {σ : Type} (V : Visitor σ) (s : DecSt) (rk : Option Nat)
    (st : σ) : Except DErr (DecSt × σ) :=
  match hc : s.cur with
  | none => throw .unexpectedEnd
  | some op =>
      if op = 0x00 then (V.onInt st 0).map (s.advance, ·)
      else if op = 0x01 then (V.onInt st 1).map (s.advance, ·)
      else if op = 0x02 then (V.onInt st 2).map (s.advance, ·)
      else if op = 0x03 then (V.onInt st 3).map (s.advance, ·)
      else if op = 0x04 then (V.onInt st 4).map (s.advance, ·)
      else if op = 0x05 then (V.onInt st 5).map (s.advance, ·)
      else if op = 0x08 then do
        let (n, s2) ← readUInt s.advance
        (V.onInt st n).map (s2, ·)
      else if op = 0x09 then do
        let (n, s2) ← readUInt s.advance
        (V.onInt st (-(n + 1 : Int))).map (s2, ·)
      else if op = 0x0d then (V.onInt st (-3)).map (s.advance, ·)
      else if op = 0x0e then (V.onInt st (-2)).map (s.advance, ·)
      else if op = 0x0f then (V.onInt st (-1)).map (s.advance, ·)
      else if op = 0x10 then (V.onSingleton st none).map (s.advance, ·)
      else if op = 0x11 then (V.onSingleton st (some true)).map (s.advance, ·)
      else if op = 0x12 then (V.onSingleton st (some false)).map (s.advance, ·)
      else if op = 0x14 then do
        let (data, s2) ← advanceAndReadBlock s 2
        (V.onId st (List.replicate 14 0 ++ data)).map (s2, ·)
      else if op = 0x15 then do
        let (data, s2) ← advanceAndReadBlock s 4
        (V.onId st (List.replicate 12 0 ++ data)).map (s2, ·)
      else if op = 0x16 then do
        let (data, s2) ← advanceAndReadBlock s 8
        (V.onId st (List.replicate 8 0 ++ data)).map (s2, ·)
      else if op = 0x17 then do
        let (data, s2) ← advanceAndReadBlock s 16
        (V.onId st data).map (s2, ·)
      else if op = 0x1a then do
        let (data, s2) ← advanceAndReadBlock s 4
        (V.onFloat st (f32ToF64 (fromLE data))).map (s2, ·)
      else if op = 0x1b then do
        let (data, s2) ← advanceAndReadBlock s 8
        (V.onFloat st (fromLE data)).map (s2, ·)
      else if op = 0x20 then (V.onBeginArray st 0 rk).map (s.advance, ·)
      else if op = 0x21 then (V.onBeginArray st 1 rk).map (s.advance, ·)
      else if op = 0x22 then (V.onBeginArray st 2 rk).map (s.advance, ·)
      else if op = 0x23 then (V.onBeginArray st 3 rk).map (s.advance, ·)
      else if op = 0x28 then do
        let (n, s2) ← readUInt s.advance
        (V.onBeginArray st n rk).map (s2, ·)
      else if op = 0x30 then (V.onBeginMap st 0 rk).map (s.advance, ·)
      else if op = 0x31 then (V.onBeginMap st 1 rk).map (s.advance, ·)
      else if op = 0x32 then (V.onBeginMap st 2 rk).map (s.advance, ·)
      else if op = 0x33 then (V.onBeginMap st 3 rk).map (s.advance, ·)
      else if op = 0x38 then do
        let (n, s2) ← readUInt s.advance
        (V.onBeginMap st n rk).map (s2, ·)
      else if op = 0x48 then do
        let (n, s2) ← readUInt s.advance
        let (data, s3) ← readBlock s2 n
        (V.onBlob st data).map (s3, ·)
      else if op = 0x50 then (V.onString st []).map (s.advance, ·)
      else if op = 0x51 then do
        let (data, s2) ← advanceAndReadBlock s 1
        (V.onString st data).map (s2, ·)
      else if op = 0x52 then do
        let (data, s2) ← advanceAndReadBlock s 2
        (V.onString st data).map (s2, ·)
      else if op = 0x53 then do
        let (data, s2) ← advanceAndReadBlock s 3
        (V.onString st data).map (s2, ·)
      else if op = 0x54 then do
        let (data, s2) ← advanceAndReadBlock s 4
        (V.onString st data).map (s2, ·)
      else if op = 0x55 then do
        let (data, s2) ← advanceAndReadBlock s 5
        (V.onString st data).map (s2, ·)
      else if op = 0x56 then do
        let (data, s2) ← advanceAndReadBlock s 6
        (V.onString st data).map (s2, ·)
      else if op = 0x57 then do
        let (data, s2) ← advanceAndReadBlock s 7
        (V.onString st data).map (s2, ·)
      else if op = 0x58 then do
        let (n, s2) ← readUInt s.advance
        let (data, s3) ← readBlock s2 n
        (V.onString st data).map (s3, ·)
      else if op = 0x60 then (V.onBeginSeed st 0 rk).map (s.advance, ·)
      else if op = 0x61 then (V.onBeginSeed st 1 rk).map (s.advance, ·)
      else if op = 0x62 then (V.onBeginSeed st 2 rk).map (s.advance, ·)
      else if op = 0x63 then (V.onBeginSeed st 3 rk).map (s.advance, ·)
      else if op = 0x68 then do
        let (n, s2) ← readUInt s.advance
        (V.onBeginSeed st n rk).map (s2, ·)
      else if op = 0x80 then (V.onBeginStruct st [] rk).map (s.advance, ·)
      else if op = 0x81 then (V.onBeginStruct st [0] rk).map (s.advance, ·)
      else if op = 0x82 then (V.onBeginStruct st [0, 1] rk).map (s.advance, ·)
      else if op = 0x83 then (V.onBeginStruct st [0, 1, 2] rk).map (s.advance, ·)
      else if op = 0x84 then
        (V.onBeginStruct st [0, 1, 2, 3] rk).map (s.advance, ·)
      else if op = 0x85 then
        (V.onBeginStruct st [0, 1, 2, 3, 4] rk).map (s.advance, ·)
      else if op = 0x86 then
        (V.onBeginStruct st [0, 1, 2, 3, 4, 5] rk).map (s.advance, ·)
      else if op = 0x87 then
        (V.onBeginStruct st [0, 1, 2, 3, 4, 5, 6] rk).map (s.advance, ·)
      else if op = 0x88 then do
        let (n, s2) ← readUInt s.advance
        let (tags, s3) ← readStructTags s2 n
        (V.onBeginStruct st tags rk).map (s3, ·)
      else if op = 0xa0 then
        let offset := s.nextRef
        decodeNext V { s.advance with nextRef := s.nextRef + 1 } (some offset) st
      else if op = 0xa1 then do
        let (offset, s2) ← readUInt s.advance
        (V.onGetRef st ((s2.nextRef : Int) - offset - 1)).map (s2, ·)
      else
        (V.onInvalid st op).map (s, ·)
termination_by s.meas
decreasing_by
  have h1 : s.advance.meas < s.meas := advance_meas_lt s (by simp [hc])
  simp only [DecSt.meas, DecSt.advance] at h1 ⊢
  omega

/-- The `while not builder.has_result: decoder.decode_next()` loop of
`decode_binary`, with explicit fuel (each `decode_next` consumes at least
one byte, so `input.length + 1` is always enough). -/
def runLoop {σ : Type} (V : Visitor σ) (hasRes : σ → Bool) :
    Nat → DecSt → σ → Except DErr (σ × DecSt)
  | 0, _, _ => throw .fuelExhausted
  | fuel + 1, s, st =>
      if hasRes st then pure (st, s)
      else do
        let (s', st') ← decodeNext V s none st
        runLoop V hasRes fuel s' st'

/-- The visitor instance of `ObjectBuilder`: atoms push their value,
`on_begin_*` schedules a pending end (or pushes the empty composite
immediately), `on_get_ref` resolves a previously recorded slot, and an
invalid instruction raises. -/
def builderVisitor : Visitor Builder where
  onInt b i := pushValue b (.vint i)
  onSingleton b v :=
    pushValue b (match v with | none => .vnull | some x => .vbool x)
  onId b bs := pushValue b (.vid bs)
  onFloat b bits := pushValue b (.vfloat bits)
  onString b bs := pushValue b (.vstring bs)
  onBlob b bs := pushValue b (.vblob bs)
  onBeginArray b len rk :=
    if len = 0 then pushValue (bindRef b rk (.varray [])) (.varray [])
    else pure { b with pends := ⟨len, 0, .farr, rk⟩ :: b.pends }
  onBeginMap b len rk :=
    if len = 0 then pushValue (bindRef b rk (.vmap [])) (.vmap [])
    else pure { b with pends := ⟨2 * len, 0, .fmap, rk⟩ :: b.pends }
  onBeginSeed b n rk :=
    pure { b with pends := ⟨1, 0, .fseedHead n, rk⟩ :: b.pends }
  onBeginStruct b tags rk :=
    if tags.length = 0 then pushValue (bindRef b rk (.vstruct [])) (.vstruct [])
    else pure { b with pends := ⟨tags.length, 0, .fstruct tags, rk⟩ :: b.pends }
  onGetRef b key :=
    match b.refs.find? fun e => (e.1 : Int) == key with
    | some e => pushValue b e.2
    | none => throw .invalidReference
  onInvalid _ op := throw (.invalidInstruction op)

/-- `decode_binary`, also reporting how many bytes were read from the
input (the cursor byte counts as read). -/
def decodeBinaryCount (input : List Nat) : Except DErr (Value × Nat) :=
  (runLoop builderVisitor Builder.hasResult (input.length + 1)
      (mkSt input 0) initBuilder).map
    fun p => (p.1.result, input.length - p.2.rest.length)

/-- `decode_binary(input) → value`. -/
def decodeBinaryValue (input : List Nat) : Except DErr Value :=
  (decodeBinaryCount input).map Prod.fst

/-! ## Byte-block and big-endian helper lemmas -/

theorem advanceAndReadBlock_exact (c : Nat) (bs l : List Nat) (nr : Nat) :
    advanceAndReadBlock (mkSt (c :: (bs ++ l)) nr) bs.length =
      .ok (bs, mkSt l nr) := by
  rw [advanceAndReadBlock, mkSt]
  simp only [List.head?_cons, List.tail_cons]
  rw [if_neg (by simp)]
  rw [List.take_left, List.drop_left]
  rfl

theorem readBlock_exact (bs l : List Nat) (nr : Nat) :
    readBlock (mkSt (bs ++ l) nr) bs.length = .ok (bs, mkSt l nr) := by
  match bs with
  | [] =>
      simp only [List.length_nil, List.nil_append]
      rw [readBlock, if_pos rfl]
      rfl
  | b :: bs' =>
      rw [readBlock, if_neg (by simp), mkSt]
      simp only [List.cons_append, List.head?_cons, List.tail_cons,
        List.length_cons, Nat.add_sub_cancel]
      rw [if_neg (by simp)]
      rw [List.take_left, List.drop_left]
      rfl

/-- `beNat` with an explicit accumulator (the `foldl` of `uuid`'s
big-endian interpretation). -/
theorem beNat_aux (l : List Nat) : ∀ (acc : Nat),
    l.foldl (fun acc b => acc * 256 + b) acc =
      acc * 256 ^ l.length + beNat l := by
  induction l with
  | nil => intro acc; simp [beNat]
  | cons b t ih =>
      intro acc
      rw [List.foldl_cons, ih (acc * 256 + b)]
      rw [show beNat (b :: t) = (b :: t).foldl (fun acc b => acc * 256 + b) 0 from rfl]
      rw [List.foldl_cons, ih (0 * 256 + b)]
      simp [List.length_cons, pow_succ]
      ring

theorem beNat_cons (b : Nat) (t : List Nat) :
    beNat (b :: t) = b * 256 ^ t.length + beNat t := by
  rw [show beNat (b :: t) = (b :: t).foldl (fun acc b => acc * 256 + b) 0 from rfl]
  rw [List.foldl_cons, beNat_aux]
  simp

theorem beNat_lt (l : List Nat) (h : ∀ x ∈ l, x < 256) :
    beNat l < 256 ^ l.length := by
  induction l with
  | nil => simp [beNat]
  | cons b t ih =>
      rw [beNat_cons]
      have hb : b < 256 := h b (by simp)
      have ht := ih fun x hx => h x (by simp [hx])
      have : b * 256 ^ t.length ≤ 255 * 256 ^ t.length :=
        Nat.mul_le_mul_right _ (by omega)
      simp only [List.length_cons, pow_succ]
      have h2 : 256 ^ t.length * 256 = 256 * 256 ^ t.length := by ring
      rw [h2]
      omega

theorem beNat_append (l1 l2 : List Nat) :
    beNat (l1 ++ l2) = beNat l1 * 256 ^ l2.length + beNat l2 := by
  induction l1 with
  | nil => simp [beNat]
  | cons b t ih =>
      rw [List.cons_append, beNat_cons, ih, beNat_cons]
      simp only [List.length_append]
      rw [pow_add]
      ring

theorem beNat_eq_zero (l : List Nat) (h : ∀ x ∈ l, x < 256)
    (hz : beNat l = 0) : l = List.replicate l.length 0 := by
  induction l with
  | nil => rfl
  | cons b t ih =>
      rw [beNat_cons] at hz
      have hpow : 0 < 256 ^ t.length := Nat.pos_pow_of_pos _ (by norm_num)
      have hb : b = 0 := by
        by_contra hb
        have : b * 256 ^ t.length ≥ 256 ^ t.length :=
          Nat.le_mul_of_pos_left _ (by omega)
        omega
      have ht : beNat t = 0 := by omega
      rw [List.length_cons, List.replicate_succ, hb,
        ih (fun x hx => h x (by simp [hx])) ht]
      simp

/-- If the big-endian value fits in the low `n` bytes, the leading bytes
are zero. -/
theorem beNat_take_zero (bs : List Nat) (k : Nat) (hk : k ≤ bs.length)
    (h256 : ∀ x ∈ bs, x < 256)
    (hlt : beNat bs < 256 ^ (bs.length - k)) :
    bs.take k = List.replicate k 0 := by
  have hsplit : bs = bs.take k ++ bs.drop k := (List.take_append_drop k bs).symm
  have hlen : (bs.take k).length = k := List.length_take_of_le hk
  have hdlen : (bs.drop k).length = bs.length - k := List.length_drop _ _
  have heq : beNat bs =
      beNat (bs.take k) * 256 ^ (bs.length - k) + beNat (bs.drop k) := by
    conv_lhs => rw [hsplit]
    rw [beNat_append, hdlen]
  have hz : beNat (bs.take k) = 0 := by
    by_contra hz
    have hpow : 0 < 256 ^ (bs.length - k) := Nat.pos_pow_of_pos _ (by norm_num)
    have hge : beNat (bs.take k) * 256 ^ (bs.length - k) ≥ 256 ^ (bs.length - k) :=
      Nat.le_mul_of_pos_left _ (by omega)
    omega
  have := beNat_eq_zero (bs.take k)
    (fun x hx => h256 x (List.take_subset k bs hx)) hz
  rw [hlen] at this
  exact this

theorem advance_mkSt_cons (b : Nat) (l : List Nat) (nr : Nat) :
    DecSt.advance (mkSt (b :: l) nr) = mkSt l nr := by
  simp [DecSt.advance, mkSt]

theorem advanceAndReadBlock_count (c : Nat) (bs l : List Nat) (nr count : Nat)
    (h : bs.length = count) :
    advanceAndReadBlock (mkSt (c :: (bs ++ l)) nr) count = .ok (bs, mkSt l nr) :=
  h ▸ advanceAndReadBlock_exact c bs l nr

theorem readBlock_count (bs l : List Nat) (nr count : Nat)
    (h : bs.length = count) :
    readBlock (mkSt (bs ++ l) nr) count = .ok (bs, mkSt l nr) :=
  h ▸ readBlock_exact bs l nr

/-! Per-opcode behaviour of `decode_next`, for any visitor. -/

theorem dnInt0 {σ : Type} (V : Visitor σ) (l : List Nat) (nr : Nat)
    (rk : Option Nat) (st : σ) :
    decodeNext V (mkSt (0x00 :: l) nr) rk st =
      (V.onInt st 0).map (mkSt l nr, ·) := by
  rw [decodeNext.eq_def]
  split
  · rename_i heq
    simp [mkSt] at heq
  · rename_i op heq
    simp [mkSt] at heq
    subst heq
    norm_num
    rw [advance_mkSt_cons]

theorem dnInt1 {σ : Type} (V : Visitor σ) (l : List Nat) (nr : Nat)
    (rk : Option Nat) (st : σ) :
    decodeNext V (mkSt (0x01 :: l) nr) rk st =
      (V.onInt st 1).map (mkSt l nr, ·) := by
  rw [decodeNext.eq_def]
  split
  · rename_i heq
    simp [mkSt] at heq
  · rename_i op heq
    simp [mkSt] at heq
    subst heq
    norm_num
    rw [advance_mkSt_cons]

theorem dnInt2 {σ : Type} (V : Visitor σ) (l : List Nat) (nr : Nat)
    (rk : Option Nat) (st : σ) :
    decodeNext V (mkSt (0x02 :: l) nr) rk st =
      (V.onInt st 2).map (mkSt l nr, ·) := by
  rw [decodeNext.eq_def]
  split
  · rename_i heq
    simp [mkSt] at heq
  · rename_i op heq
    simp [mkSt] at heq
    subst heq
    norm_num
    rw [advance_mkSt_cons]

theorem dnInt3 {σ : Type} (V : Visitor σ) (l : List Nat) (nr : Nat)
    (rk : Option Nat) (st : σ) :
    decodeNext V (mkSt (0x03 :: l) nr) rk st =
      (V.onInt st 3).map (mkSt l nr, ·) := by
  rw [decodeNext.eq_def]
  split
  · rename_i heq
    simp [mkSt] at heq
  · rename_i op heq
    simp [mkSt] at heq
    subst heq
    norm_num
    rw [advance_mkSt_cons]

theorem dnInt4 {σ : Type} (V : Visitor σ) (l : List Nat) (nr : Nat)
    (rk : Option Nat) (st : σ) :
    decodeNext V (mkSt (0x04 :: l) nr) rk st =
      (V.onInt st 4).map (mkSt l nr, ·) := by
  rw [decodeNext.eq_def]
  split
  · rename_i heq
    simp [mkSt] at heq
  · rename_i op heq
    simp [mkSt] at heq
    subst heq
    norm_num
    rw [advance_mkSt_cons]

theorem dnInt5 {σ : Type} (V : Visitor σ) (l : List Nat) (nr : Nat)
    (rk : Option Nat) (st : σ) :
    decodeNext V (mkSt (0x05 :: l) nr) rk st =
      (V.onInt st 5).map (mkSt l nr, ·) := by
  rw [decodeNext.eq_def]
  split
  · rename_i heq
    simp [mkSt] at heq
  · rename_i op heq
    simp [mkSt] at heq
    subst heq
    norm_num
    rw [advance_mkSt_cons]

theorem dnIntM3 {σ : Type} (V : Visitor σ) (l : List Nat) (nr : Nat)
    (rk : Option Nat) (st : σ) :
    decodeNext V (mkSt (0x0d :: l) nr) rk st =
      (V.onInt st (-3)).map (mkSt l nr, ·) := by
  rw [decodeNext.eq_def]
  split
  · rename_i heq
    simp [mkSt] at heq
  · rename_i op heq
    simp [mkSt] at heq
    subst heq
    norm_num
    rw [advance_mkSt_cons]

theorem dnIntM2 {σ : Type} (V : Visitor σ) (l : List Nat) (nr : Nat)
    (rk : Option Nat) (st : σ) :
    decodeNext V (mkSt (0x0e :: l) nr) rk st =
      (V.onInt st (-2)).map (mkSt l nr, ·) := by
  rw [decodeNext.eq_def]
  split
  · rename_i heq
    simp [mkSt] at heq
  · rename_i op heq
    simp [mkSt] at heq
    subst heq
    norm_num
    rw [advance_mkSt_cons]

theorem dnIntM1 {σ : Type} (V : Visitor σ) (l : List Nat) (nr : Nat)
    (rk : Option Nat) (st : σ) :
    decodeNext V (mkSt (0x0f :: l) nr) rk st =
      (V.onInt st (-1)).map (mkSt l nr, ·) := by
  rw [decodeNext.eq_def]
  split
  · rename_i heq
    simp [mkSt] at heq
  · rename_i op heq
    simp [mkSt] at heq
    subst heq
    norm_num
    rw [advance_mkSt_cons]

theorem dnNull {σ : Type} (V : Visitor σ) (l : List Nat) (nr : Nat)
    (rk : Option Nat) (st : σ) :
    decodeNext V (mkSt (0x10 :: l) nr) rk st =
      (V.onSingleton st none).map (mkSt l nr, ·) := by
  rw [decodeNext.eq_def]
  split
  · rename_i heq
    simp [mkSt] at heq
  · rename_i op heq
    simp [mkSt] at heq
    subst heq
    norm_num
    rw [advance_mkSt_cons]

theorem dnTrue {σ : Type} (V : Visitor σ) (l : List Nat) (nr : Nat)
    (rk : Option Nat) (st : σ) :
    decodeNext V (mkSt (0x11 :: l) nr) rk st =
      (V.onSingleton st (some true)).map (mkSt l nr, ·) := by
  rw [decodeNext.eq_def]
  split
  · rename_i heq
    simp [mkSt] at heq
  · rename_i op heq
    simp [mkSt] at heq
    subst heq
    norm_num
    rw [advance_mkSt_cons]

theorem dnFalse {σ : Type} (V : Visitor σ) (l : List Nat) (nr : Nat)
    (rk : Option Nat) (st : σ) :
    decodeNext V (mkSt (0x12 :: l) nr) rk st =
      (V.onSingleton st (some false)).map (mkSt l nr, ·) := by
  rw [decodeNext.eq_def]
  split
  · rename_i heq
    simp [mkSt] at heq
  · rename_i op heq
    simp [mkSt] at heq
    subst heq
    norm_num
    rw [advance_mkSt_cons]

theorem dnArray0 {σ : Type} (V : Visitor σ) (l : List Nat) (nr : Nat)
    (rk : Option Nat) (st : σ) :
    decodeNext V (mkSt (0x20 :: l) nr) rk st =
      (V.onBeginArray st 0 rk).map (mkSt l nr, ·) := by
  rw [decodeNext.eq_def]
  split
  · rename_i heq
    simp [mkSt] at heq
  · rename_i op heq
    simp [mkSt] at heq
    subst heq
    norm_num
    rw [advance_mkSt_cons]

theorem dnArray1 {σ : Type} (V : Visitor σ) (l : List Nat) (nr : Nat)
    (rk : Option Nat) (st : σ) :
    decodeNext V (mkSt (0x21 :: l) nr) rk st =
      (V.onBeginArray st 1 rk).map (mkSt l nr, ·) := by
  rw [decodeNext.eq_def]
  split
  · rename_i heq
    simp [mkSt] at heq
  · rename_i op heq
    simp [mkSt] at heq
    subst heq
    norm_num
    rw [advance_mkSt_cons]

theorem dnArray2 {σ : Type} (V : Visitor σ) (l : List Nat) (nr : Nat)
    (rk : Option Nat) (st : σ) :
    decodeNext V (mkSt (0x22 :: l) nr) rk st =
      (V.onBeginArray st 2 rk).map (mkSt l nr, ·) := by
  rw [decodeNext.eq_def]
  split
  · rename_i heq
    simp [mkSt] at heq
  · rename_i op heq
    simp [mkSt] at heq
    subst heq
    norm_num
    rw [advance_mkSt_cons]

theorem dnArray3 {σ : Type} (V : Visitor σ) (l : List Nat) (nr : Nat)
    (rk : Option Nat) (st : σ) :
    decodeNext V (mkSt (0x23 :: l) nr) rk st =
      (V.onBeginArray st 3 rk).map (mkSt l nr, ·) := by
  rw [decodeNext.eq_def]
  split
  · rename_i heq
    simp [mkSt] at heq
  · rename_i op heq
    simp [mkSt] at heq
    subst heq
    norm_num
    rw [advance_mkSt_cons]

theorem dnMap0 {σ : Type} (V : Visitor σ) (l : List Nat) (nr : Nat)
    (rk : Option Nat) (st : σ) :
    decodeNext V (mkSt (0x30 :: l) nr) rk st =
      (V.onBeginMap st 0 rk).map (mkSt l nr, ·) := by
  rw [decodeNext.eq_def]
  split
  · rename_i heq
    simp [mkSt] at heq
  · rename_i op heq
    simp [mkSt] at heq
    subst heq
    norm_num
    rw [advance_mkSt_cons]

theorem dnMap1 {σ : Type} (V : Visitor σ) (l : List Nat) (nr : Nat)
    (rk : Option Nat) (st : σ) :
    decodeNext V (mkSt (0x31 :: l) nr) rk st =
      (V.onBeginMap st 1 rk).map (mkSt l nr, ·) := by
  rw [decodeNext.eq_def]
  split
  · rename_i heq
    simp [mkSt] at heq
  · rename_i op heq
    simp [mkSt] at heq
    subst heq
    norm_num
    rw [advance_mkSt_cons]

theorem dnMap2 {σ : Type} (V : Visitor σ) (l : List Nat) (nr : Nat)
    (rk : Option Nat) (st : σ) :
    decodeNext V (mkSt (0x32 :: l) nr) rk st =
      (V.onBeginMap st 2 rk).map (mkSt l nr, ·) := by
  rw [decodeNext.eq_def]
  split
  · rename_i heq
    simp [mkSt] at heq
  · rename_i op heq
    simp [mkSt] at heq
    subst heq
    norm_num
    rw [advance_mkSt_cons]

theorem dnMap3 {σ : Type} (V : Visitor σ) (l : List Nat) (nr : Nat)
    (rk : Option Nat) (st : σ) :
    decodeNext V (mkSt (0x33 :: l) nr) rk st =
      (V.onBeginMap st 3 rk).map (mkSt l nr, ·) := by
  rw [decodeNext.eq_def]
  split
  · rename_i heq
    simp [mkSt] at heq
  · rename_i op heq
    simp [mkSt] at heq
    subst heq
    norm_num
    rw [advance_mkSt_cons]

theorem dnString0 {σ : Type} (V : Visitor σ) (l : List Nat) (nr : Nat)
    (rk : Option Nat) (st : σ) :
    decodeNext V (mkSt (0x50 :: l) nr) rk st =
      (V.onString st []).map (mkSt l nr, ·) := by
  rw [decodeNext.eq_def]
  split
  · rename_i heq
    simp [mkSt] at heq
  · rename_i op heq
    simp [mkSt] at heq
    subst heq
    norm_num
    rw [advance_mkSt_cons]

theorem dnSeed0 {σ : Type} (V : Visitor σ) (l : List Nat) (nr : Nat)
    (rk : Option Nat) (st : σ) :
    decodeNext V (mkSt (0x60 :: l) nr) rk st =
      (V.onBeginSeed st 0 rk).map (mkSt l nr, ·) := by
  rw [decodeNext.eq_def]
  split
  · rename_i heq
    simp [mkSt] at heq
  · rename_i op heq
    simp [mkSt] at heq
    subst heq
    norm_num
    rw [advance_mkSt_cons]

theorem dnSeed1 {σ : Type} (V : Visitor σ) (l : List Nat) (nr : Nat)
    (rk : Option Nat) (st : σ) :
    decodeNext V (mkSt (0x61 :: l) nr) rk st =
      (V.onBeginSeed st 1 rk).map (mkSt l nr, ·) := by
  rw [decodeNext.eq_def]
  split
  · rename_i heq
    simp [mkSt] at heq
  · rename_i op heq
    simp [mkSt] at heq
    subst heq
    norm_num
    rw [advance_mkSt_cons]

theorem dnSeed2 {σ : Type} (V : Visitor σ) (l : List Nat) (nr : Nat)
    (rk : Option Nat) (st : σ) :
    decodeNext V (mkSt (0x62 :: l) nr) rk st =
      (V.onBeginSeed st 2 rk).map (mkSt l nr, ·) := by
  rw [decodeNext.eq_def]
  split
  · rename_i heq
    simp [mkSt] at heq
  · rename_i op heq
    simp [mkSt] at heq
    subst heq
    norm_num
    rw [advance_mkSt_cons]

theorem dnSeed3 {σ : Type} (V : Visitor σ) (l : List Nat) (nr : Nat)
    (rk : Option Nat) (st : σ) :
    decodeNext V (mkSt (0x63 :: l) nr) rk st =
      (V.onBeginSeed st 3 rk).map (mkSt l nr, ·) := by
  rw [decodeNext.eq_def]
  split
  · rename_i heq
    simp [mkSt] at heq
  · rename_i op heq
    simp [mkSt] at heq
    subst heq
    norm_num
    rw [advance_mkSt_cons]

theorem dnStructL0 {σ : Type} (V : Visitor σ) (l : List Nat) (nr : Nat)
    (rk : Option Nat) (st : σ) :
    decodeNext V (mkSt (0x80 :: l) nr) rk st =
      (V.onBeginStruct st [] rk).map (mkSt l nr, ·) := by
  rw [decodeNext.eq_def]
  split
  · rename_i heq
    simp [mkSt] at heq
  · rename_i op heq
    simp [mkSt] at heq
    subst heq
    norm_num
    rw [advance_mkSt_cons]

theorem dnStructL1 {σ : Type} (V : Visitor σ) (l : List Nat) (nr : Nat)
    (rk : Option Nat) (st : σ) :
    decodeNext V (mkSt (0x81 :: l) nr) rk st =
      (V.onBeginStruct st [0] rk).map (mkSt l nr, ·) := by
  rw [decodeNext.eq_def]
  split
  · rename_i heq
    simp [mkSt] at heq
  · rename_i op heq
    simp [mkSt] at heq
    subst heq
    norm_num
    rw [advance_mkSt_cons]

theorem dnStructL2 {σ : Type} (V : Visitor σ) (l : List Nat) (nr : Nat)
    (rk : Option Nat) (st : σ) :
    decodeNext V (mkSt (0x82 :: l) nr) rk st =
      (V.onBeginStruct st [0, 1] rk).map (mkSt l nr, ·) := by
  rw [decodeNext.eq_def]
  split
  · rename_i heq
    simp [mkSt] at heq
  · rename_i op heq
    simp [mkSt] at heq
    subst heq
    norm_num
    rw [advance_mkSt_cons]

theorem dnStructL3 {σ : Type} (V : Visitor σ) (l : List Nat) (nr : Nat)
    (rk : Option Nat) (st : σ) :
    decodeNext V (mkSt (0x83 :: l) nr) rk st =
      (V.onBeginStruct st [0, 1, 2] rk).map (mkSt l nr, ·) := by
  rw [decodeNext.eq_def]
  split
  · rename_i heq
    simp [mkSt] at heq
  · rename_i op heq
    simp [mkSt] at heq
    subst heq
    norm_num
    rw [advance_mkSt_cons]

theorem dnStructL4 {σ : Type} (V : Visitor σ) (l : List Nat) (nr : Nat)
    (rk : Option Nat) (st : σ) :
    decodeNext V (mkSt (0x84 :: l) nr) rk st =
      (V.onBeginStruct st [0, 1, 2, 3] rk).map (mkSt l nr, ·) := by
  rw [decodeNext.eq_def]
  split
  · rename_i heq
    simp [mkSt] at heq
  · rename_i op heq
    simp [mkSt] at heq
    subst heq
    norm_num
    rw [advance_mkSt_cons]

theorem dnStructL5 {σ : Type} (V : Visitor σ) (l : List Nat) (nr : Nat)
    (rk : Option Nat) (st : σ) :
    decodeNext V (mkSt (0x85 :: l) nr) rk st =
      (V.onBeginStruct st [0, 1, 2, 3, 4] rk).map (mkSt l nr, ·) := by
  rw [decodeNext.eq_def]
  split
  · rename_i heq
    simp [mkSt] at heq
  · rename_i op heq
    simp [mkSt] at heq
    subst heq
    norm_num
    rw [advance_mkSt_cons]

theorem dnStructL6 {σ : Type} (V : Visitor σ) (l : List Nat) (nr : Nat)
    (rk : Option Nat) (st : σ) :
    decodeNext V (mkSt (0x86 :: l) nr) rk st =
      (V.onBeginStruct st [0, 1, 2, 3, 4, 5] rk).map (mkSt l nr, ·) := by
  rw [decodeNext.eq_def]
  split
  · rename_i heq
    simp [mkSt] at heq
  · rename_i op heq
    simp [mkSt] at heq
    subst heq
    norm_num
    rw [advance_mkSt_cons]

theorem dnStructL7 {σ : Type} (V : Visitor σ) (l : List Nat) (nr : Nat)
    (rk : Option Nat) (st : σ) :
    decodeNext V (mkSt (0x87 :: l) nr) rk st =
      (V.onBeginStruct st [0, 1, 2, 3, 4, 5, 6] rk).map (mkSt l nr, ·) := by
  rw [decodeNext.eq_def]
  split
  · rename_i heq
    simp [mkSt] at heq
  · rename_i op heq
    simp [mkSt] at heq
    subst heq
    norm_num
    rw [advance_mkSt_cons]

theorem dnIntP {σ : Type} (V : Visitor σ) (n : Nat) (l : List Nat)
    (nr : Nat) (rk : Option Nat) (st : σ) :
    decodeNext V (mkSt (0x08 :: (writeUInt n ++ l)) nr) rk st =
      (V.onInt st n).map (mkSt l nr, ·) := by
  rw [decodeNext.eq_def]
  split
  · rename_i heq
    simp [mkSt] at heq
  · rename_i op heq
    simp [mkSt] at heq
    subst heq
    norm_num
    rw [advance_mkSt_cons, readUInt_writeUInt]
    rfl

theorem dnIntM {σ : Type} (V : Visitor σ) (n : Nat) (l : List Nat)
    (nr : Nat) (rk : Option Nat) (st : σ) :
    decodeNext V (mkSt (0x09 :: (writeUInt n ++ l)) nr) rk st =
      (V.onInt st (-(n + 1 : Int))).map (mkSt l nr, ·) := by
  rw [decodeNext.eq_def]
  split
  · rename_i heq
    simp [mkSt] at heq
  · rename_i op heq
    simp [mkSt] at heq
    subst heq
    norm_num
    rw [advance_mkSt_cons, readUInt_writeUInt]
    rfl

theorem dnArrayN {σ : Type} (V : Visitor σ) (n : Nat) (l : List Nat)
    (nr : Nat) (rk : Option Nat) (st : σ) :
    decodeNext V (mkSt (0x28 :: (writeUInt n ++ l)) nr) rk st =
      (V.onBeginArray st n rk).map (mkSt l nr, ·) := by
  rw [decodeNext.eq_def]
  split
  · rename_i heq
    simp [mkSt] at heq
  · rename_i op heq
    simp [mkSt] at heq
    subst heq
    norm_num
    rw [advance_mkSt_cons, readUInt_writeUInt]
    rfl

theorem dnMapN {σ : Type} (V : Visitor σ) (n : Nat) (l : List Nat)
    (nr : Nat) (rk : Option Nat) (st : σ) :
    decodeNext V (mkSt (0x38 :: (writeUInt n ++ l)) nr) rk st =
      (V.onBeginMap st n rk).map (mkSt l nr, ·) := by
  rw [decodeNext.eq_def]
  split
  · rename_i heq
    simp [mkSt] at heq
  · rename_i op heq
    simp [mkSt] at heq
    subst heq
    norm_num
    rw [advance_mkSt_cons, readUInt_writeUInt]
    rfl

theorem dnSeedN {σ : Type} (V : Visitor σ) (n : Nat) (l : List Nat)
    (nr : Nat) (rk : Option Nat) (st : σ) :
    decodeNext V (mkSt (0x68 :: (writeUInt n ++ l)) nr) rk st =
      (V.onBeginSeed st n rk).map (mkSt l nr, ·) := by
  rw [decodeNext.eq_def]
  split
  · rename_i heq
    simp [mkSt] at heq
  · rename_i op heq
    simp [mkSt] at heq
    subst heq
    norm_num
    rw [advance_mkSt_cons, readUInt_writeUInt]
    rfl

theorem dnId16 {σ : Type} (V : Visitor σ) (bs l : List Nat) (nr : Nat)
    (rk : Option Nat) (st : σ) (hlen : bs.length = 2) :
    decodeNext V (mkSt (0x14 :: (bs ++ l)) nr) rk st =
      (V.onId st (List.replicate 14 0 ++ bs)).map (mkSt l nr, ·) := by
  rw [decodeNext.eq_def]
  split
  · rename_i heq
    simp [mkSt] at heq
  · rename_i op heq
    simp [mkSt] at heq
    subst heq
    norm_num
    rw [advanceAndReadBlock_count 0x14 bs l nr 2 hlen]
    rfl

theorem dnId32 {σ : Type} (V : Visitor σ) (bs l : List Nat) (nr : Nat)
    (rk : Option Nat) (st : σ) (hlen : bs.length = 4) :
    decodeNext V (mkSt (0x15 :: (bs ++ l)) nr) rk st =
      (V.onId st (List.replicate 12 0 ++ bs)).map (mkSt l nr, ·) := by
  rw [decodeNext.eq_def]
  split
  · rename_i heq
    simp [mkSt] at heq
  · rename_i op heq
    simp [mkSt] at heq
    subst heq
    norm_num
    rw [advanceAndReadBlock_count 0x15 bs l nr 4 hlen]
    rfl

theorem dnId64 {σ : Type} (V : Visitor σ) (bs l : List Nat) (nr : Nat)
    (rk : Option Nat) (st : σ) (hlen : bs.length = 8) :
    decodeNext V (mkSt (0x16 :: (bs ++ l)) nr) rk st =
      (V.onId st (List.replicate 8 0 ++ bs)).map (mkSt l nr, ·) := by
  rw [decodeNext.eq_def]
  split
  · rename_i heq
    simp [mkSt] at heq
  · rename_i op heq
    simp [mkSt] at heq
    subst heq
    norm_num
    rw [advanceAndReadBlock_count 0x16 bs l nr 8 hlen]
    rfl

theorem dnId128 {σ : Type} (V : Visitor σ) (bs l : List Nat) (nr : Nat)
    (rk : Option Nat) (st : σ) (hlen : bs.length = 16) :
    decodeNext V (mkSt (0x17 :: (bs ++ l)) nr) rk st =
      (V.onId st bs).map (mkSt l nr, ·) := by
  rw [decodeNext.eq_def]
  split
  · rename_i heq
    simp [mkSt] at heq
  · rename_i op heq
    simp [mkSt] at heq
    subst heq
    norm_num
    rw [advanceAndReadBlock_count 0x17 bs l nr 16 hlen]
    rfl

theorem dnFloat32 {σ : Type} (V : Visitor σ) (bs l : List Nat) (nr : Nat)
    (rk : Option Nat) (st : σ) (hlen : bs.length = 4) :
    decodeNext V (mkSt (0x1a :: (bs ++ l)) nr) rk st =
      (V.onFloat st (f32ToF64 (fromLE bs))).map (mkSt l nr, ·) := by
  rw [decodeNext.eq_def]
  split
  · rename_i heq
    simp [mkSt] at heq
  · rename_i op heq
    simp [mkSt] at heq
    subst heq
    norm_num
    rw [advanceAndReadBlock_count 0x1a bs l nr 4 hlen]
    rfl

theorem dnFloat64 {σ : Type} (V : Visitor σ) (bs l : List Nat) (nr : Nat)
    (rk : Option Nat) (st : σ) (hlen : bs.length = 8) :
    decodeNext V (mkSt (0x1b :: (bs ++ l)) nr) rk st =
      (V.onFloat st (fromLE bs)).map (mkSt l nr, ·) := by
  rw [decodeNext.eq_def]
  split
  · rename_i heq
    simp [mkSt] at heq
  · rename_i op heq
    simp [mkSt] at heq
    subst heq
    norm_num
    rw [advanceAndReadBlock_count 0x1b bs l nr 8 hlen]
    rfl

theorem dnString1 {σ : Type} (V : Visitor σ) (bs l : List Nat) (nr : Nat)
    (rk : Option Nat) (st : σ) (hlen : bs.length = 1) :
    decodeNext V (mkSt (0x51 :: (bs ++ l)) nr) rk st =
      (V.onString st bs).map (mkSt l nr, ·) := by
  rw [decodeNext.eq_def]
  split
  · rename_i heq
    simp [mkSt] at heq
  · rename_i op heq
    simp [mkSt] at heq
    subst heq
    norm_num
    rw [advanceAndReadBlock_count 0x51 bs l nr 1 hlen]
    rfl

theorem dnString2 {σ : Type} (V : Visitor σ) (bs l : List Nat) (nr : Nat)
    (rk : Option Nat) (st : σ) (hlen : bs.length = 2) :
    decodeNext V (mkSt (0x52 :: (bs ++ l)) nr) rk st =
      (V.onString st bs).map (mkSt l nr, ·) := by
  rw [decodeNext.eq_def]
  split
  · rename_i heq
    simp [mkSt] at heq
  · rename_i op heq
    simp [mkSt] at heq
    subst heq
    norm_num
    rw [advanceAndReadBlock_count 0x52 bs l nr 2 hlen]
    rfl

theorem dnString3 {σ : Type} (V : Visitor σ) (bs l : List Nat) (nr : Nat)
    (rk : Option Nat) (st : σ) (hlen : bs.length = 3) :
    decodeNext V (mkSt (0x53 :: (bs ++ l)) nr) rk st =
      (V.onString st bs).map (mkSt l nr, ·) := by
  rw [decodeNext.eq_def]
  split
  · rename_i heq
    simp [mkSt] at heq
  · rename_i op heq
    simp [mkSt] at heq
    subst heq
    norm_num
    rw [advanceAndReadBlock_count 0x53 bs l nr 3 hlen]
    rfl

theorem dnString4 {σ : Type} (V : Visitor σ) (bs l : List Nat) (nr : Nat)
    (rk : Option Nat) (st : σ) (hlen : bs.length = 4) :
    decodeNext V (mkSt (0x54 :: (bs ++ l)) nr) rk st =
      (V.onString st bs).map (mkSt l nr, ·) := by
  rw [decodeNext.eq_def]
  split
  · rename_i heq
    simp [mkSt] at heq
  · rename_i op heq
    simp [mkSt] at heq
    subst heq
    norm_num
    rw [advanceAndReadBlock_count 0x54 bs l nr 4 hlen]
    rfl

theorem dnString5 {σ : Type} (V : Visitor σ) (bs l : List Nat) (nr : Nat)
    (rk : Option Nat) (st : σ) (hlen : bs.length = 5) :
    decodeNext V (mkSt (0x55 :: (bs ++ l)) nr) rk st =
      (V.onString st bs).map (mkSt l nr, ·) := by
  rw [decodeNext.eq_def]
  split
  · rename_i heq
    simp [mkSt] at heq
  · rename_i op heq
    simp [mkSt] at heq
    subst heq
    norm_num
    rw [advanceAndReadBlock_count 0x55 bs l nr 5 hlen]
    rfl

theorem dnString6 {σ : Type} (V : Visitor σ) (bs l : List Nat) (nr : Nat)
    (rk : Option Nat) (st : σ) (hlen : bs.length = 6) :
    decodeNext V (mkSt (0x56 :: (bs ++ l)) nr) rk st =
      (V.onString st bs).map (mkSt l nr, ·) := by
  rw [decodeNext.eq_def]
  split
  · rename_i heq
    simp [mkSt] at heq
  · rename_i op heq
    simp [mkSt] at heq
    subst heq
    norm_num
    rw [advanceAndReadBlock_count 0x56 bs l nr 6 hlen]
    rfl

theorem dnString7 {σ : Type} (V : Visitor σ) (bs l : List Nat) (nr : Nat)
    (rk : Option Nat) (st : σ) (hlen : bs.length = 7) :
    decodeNext V (mkSt (0x57 :: (bs ++ l)) nr) rk st =
      (V.onString st bs).map (mkSt l nr, ·) := by
  rw [decodeNext.eq_def]
  split
  · rename_i heq
    simp [mkSt] at heq
  · rename_i op heq
    simp [mkSt] at heq
    subst heq
    norm_num
    rw [advanceAndReadBlock_count 0x57 bs l nr 7 hlen]
    rfl

theorem dnBlob {σ : Type} (V : Visitor σ) (bs l : List Nat) (nr : Nat)
    (rk : Option Nat) (st : σ) :
    decodeNext V (mkSt (0x48 :: (writeUInt bs.length ++ (bs ++ l))) nr) rk st =
      (V.onBlob st bs).map (mkSt l nr, ·) := by
  rw [decodeNext.eq_def]
  split
  · rename_i heq
    simp [mkSt] at heq
  · rename_i op heq
    simp [mkSt] at heq
    subst heq
    norm_num
    rw [advance_mkSt_cons, readUInt_writeUInt]
    show (readBlock (mkSt (bs ++ l) nr) bs.length).bind
      (fun d => Except.map (fun x => (d.2, x)) (V.onBlob st d.1)) = _
    rw [readBlock_count bs l nr bs.length rfl]
    rfl

theorem dnStringN {σ : Type} (V : Visitor σ) (bs l : List Nat) (nr : Nat)
    (rk : Option Nat) (st : σ) :
    decodeNext V (mkSt (0x58 :: (writeUInt bs.length ++ (bs ++ l))) nr) rk st =
      (V.onString st bs).map (mkSt l nr, ·) := by
  rw [decodeNext.eq_def]
  split
  · rename_i heq
    simp [mkSt] at heq
  · rename_i op heq
    simp [mkSt] at heq
    subst heq
    norm_num
    rw [advance_mkSt_cons, readUInt_writeUInt]
    show (readBlock (mkSt (bs ++ l) nr) bs.length).bind
      (fun d => Except.map (fun x => (d.2, x)) (V.onString st d.1)) = _
    rw [readBlock_count bs l nr bs.length rfl]
    rfl

theorem dnStructN {σ : Type} (V : Visitor σ) (tags : List Nat)
    (h1 : tags ≠ []) (h2 : tagsOrdered tags) (l : List Nat) (nr : Nat)
    (rk : Option Nat) (st : σ) :
    decodeNext V
      (mkSt (0x88 :: (writeUInt tags.length ++ (writeStructTags tags ++ l))) nr)
      rk st =
      (V.onBeginStruct st tags rk).map (mkSt l nr, ·) := by
  rw [decodeNext.eq_def]
  split
  · rename_i heq
    simp [mkSt] at heq
  · rename_i op heq
    simp [mkSt] at heq
    subst heq
    norm_num
    rw [advance_mkSt_cons, readUInt_writeUInt]
    show (readStructTags (mkSt (writeStructTags tags ++ l) nr) tags.length).bind
      (fun d => Except.map (fun x => (d.2, x)) (V.onBeginStruct st d.1 rk)) = _
    rw [readStructTags_writeStructTags tags h1 h2 l nr]
    rfl

/-! ## Decoding the encoder's fragments -/

theorem dnAddRef {σ : Type} (V : Visitor σ) (l : List Nat) (nr : Nat)
    (rk : Option Nat) (st : σ) :
    decodeNext V (mkSt (0xa0 :: l) nr) rk st =
      decodeNext V (mkSt l (nr + 1)) (some nr) st := by
  rw [decodeNext.eq_def]
  split
  · rename_i heq
    simp [mkSt] at heq
  · rename_i op heq
    simp [mkSt] at heq
    subst heq
    norm_num
    rw [advance_mkSt_cons]
    rfl

theorem dnGetRef {σ : Type} (V : Visitor σ) (off : Nat) (l : List Nat)
    (nr : Nat) (rk : Option Nat) (st : σ) :
    decodeNext V (mkSt (0xa1 :: (writeUInt off ++ l)) nr) rk st =
      (V.onGetRef st ((nr : Int) - off - 1)).map (mkSt l nr, ·) := by
  rw [decodeNext.eq_def]
  split
  · rename_i heq
    simp [mkSt] at heq
  · rename_i op heq
    simp [mkSt] at heq
    subst heq
    norm_num
    rw [advance_mkSt_cons, readUInt_writeUInt]
    rfl

theorem decode_intInstr {σ : Type} (V : Visitor σ) (i : Int) (l : List Nat)
    (nr : Nat) (rk : Option Nat) (st : σ) :
    decodeNext V (mkSt (intInstr i ++ l) nr) rk st =
      (V.onInt st i).map (mkSt l nr, ·) := by
  rw [intInstr]
  by_cases h0 : i = 0
  · subst h0; simp only [if_pos rfl]; exact dnInt0 V l nr rk st
  · rw [if_neg h0]
    by_cases h1 : i = 1
    · subst h1; simp only [if_pos rfl]; exact dnInt1 V l nr rk st
    · rw [if_neg h1]
      by_cases h2 : i = 2
      · subst h2; simp only [if_pos rfl]; exact dnInt2 V l nr rk st
      · rw [if_neg h2]
        by_cases h3 : i = 3
        · subst h3; simp only [if_pos rfl]; exact dnInt3 V l nr rk st
        · rw [if_neg h3]
          by_cases h4 : i = 4
          · subst h4; simp only [if_pos rfl]; exact dnInt4 V l nr rk st
          · rw [if_neg h4]
            by_cases h5 : i = 5
            · subst h5; simp only [if_pos rfl]; exact dnInt5 V l nr rk st
            · rw [if_neg h5]
              by_cases hm1 : i = -1
              · subst hm1; simp only [if_pos rfl]; exact dnIntM1 V l nr rk st
              · rw [if_neg hm1]
                by_cases hm2 : i = -2
                · subst hm2; simp only [if_pos rfl]; exact dnIntM2 V l nr rk st
                · rw [if_neg hm2]
                  by_cases hm3 : i = -3
                  · subst hm3; simp only [if_pos rfl]
                    exact dnIntM3 V l nr rk st
                  · rw [if_neg hm3]
                    by_cases hneg : i < 0
                    · rw [if_pos hneg, List.cons_append]
                      have h := dnIntM V (-(i + 1)).toNat l nr rk st
                      rw [h]
                      have : -(((-(i + 1)).toNat : Int) + 1) = i := by
                        rw [Int.toNat_of_nonneg (by omega)]
                        omega
                      rw [this]
                    · rw [if_neg hneg, List.cons_append]
                      have h := dnIntP V i.toNat l nr rk st
                      rw [h]
                      have : (i.toNat : Int) = i :=
                        Int.toNat_of_nonneg (by omega)
                      rw [this]

theorem decode_idInstr {σ : Type} (V : Visitor σ) (bs : List Nat)
    (hlen : bs.length = 16) (h256 : ∀ x ∈ bs, x < 256) (l : List Nat)
    (nr : Nat) (rk : Option Nat) (st : σ) :
    decodeNext V (mkSt (idInstr bs ++ l) nr) rk st =
      (V.onId st bs).map (mkSt l nr, ·) := by
  rw [idInstr]
  by_cases h64 : beNat bs ≥ 2 ^ 64
  · rw [if_pos h64, List.cons_append]
    exact dnId128 V bs l nr rk st hlen
  · rw [if_neg h64]
    have hpad : ∀ k : Nat, k ≤ 16 → beNat bs < 256 ^ (16 - k) →
        bs.take k = List.replicate k 0 := by
      intro k hk hlt
      exact beNat_take_zero bs k (by omega) h256 (by rw [hlen]; exact hlt)
    by_cases h32 : beNat bs ≥ 2 ^ 32
    · rw [if_pos h32, List.cons_append]
      rw [dnId64 V (bs.drop 8) l nr rk st (by simp [hlen])]
      have h8 : bs.take 8 = List.replicate 8 0 :=
        hpad 8 (by omega) (by norm_num; omega)
      have : List.replicate 8 0 ++ bs.drop 8 = bs := by
        rw [← h8, List.take_append_drop]
      rw [this]
    · rw [if_neg h32]
      by_cases h16 : beNat bs ≥ 2 ^ 16
      · rw [if_pos h16, List.cons_append]
        rw [dnId32 V (bs.drop 12) l nr rk st (by simp [hlen])]
        have h12 : bs.take 12 = List.replicate 12 0 :=
          hpad 12 (by omega) (by norm_num; omega)
        have : List.replicate 12 0 ++ bs.drop 12 = bs := by
          rw [← h12, List.take_append_drop]
        rw [this]
      · rw [if_neg h16, List.cons_append]
        rw [dnId16 V (bs.drop 14) l nr rk st (by simp [hlen])]
        have h14 : bs.take 14 = List.replicate 14 0 :=
          hpad 14 (by omega) (by norm_num; omega)
        have : List.replicate 14 0 ++ bs.drop 14 = bs := by
          rw [← h14, List.take_append_drop]
        rw [this]

theorem decode_floatInstr {σ : Type} (V : Visitor σ) (b : Nat)
    (hwf : floatWf b) (l : List Nat) (nr : Nat) (rk : Option Nat) (st : σ) :
    decodeNext V (mkSt (floatInstr b ++ l) nr) rk st =
      (V.onFloat st b).map (mkSt l nr, ·) := by
  obtain ⟨hb, hnan⟩ := hwf
  rw [floatInstr]
  by_cases hsel : f32Selected b
  · rw [encodeFloatBytes_of_selected b hsel]
    rw [if_pos (toLE_length 4 _)]
    rw [List.cons_append]
    rw [dnFloat32 V (toLE 4 (f64ToF32 b)) l nr rk st (toLE_length 4 _)]
    rw [fromLE_toLE 4 _ (by norm_num; exact f64ToF32_lt b hb hsel)]
    rw [f32ToF64_f64ToF32 b hb hnan hsel]
  · rw [encodeFloatBytes_of_not_selected b hsel]
    rw [if_neg (by rw [toLE_length]; omega)]
    rw [List.cons_append]
    rw [dnFloat64 V (toLE 8 b) l nr rk st (toLE_length 8 _)]
    rw [fromLE_toLE 8 _ (by norm_num; omega)]

theorem decode_stringInstr {σ : Type} (V : Visitor σ) (bs l : List Nat)
    (nr : Nat) (rk : Option Nat) (st : σ) :
    decodeNext V (mkSt (stringInstr bs ++ l) nr) rk st =
      (V.onString st bs).map (mkSt l nr, ·) := by
  rw [stringInstr]
  by_cases hl : bs.length ≤ 7
  · rw [if_pos hl]
    have h8 : bs.length = 0 ∨ bs.length = 1 ∨ bs.length = 2 ∨ bs.length = 3 ∨
        bs.length = 4 ∨ bs.length = 5 ∨ bs.length = 6 ∨ bs.length = 7 := by
      omega
    rcases h8 with h | h | h | h | h | h | h | h
    · have : bs = [] := List.length_eq_zero.mp h
      subst this
      rw [List.cons_append]
      exact dnString0 V l nr rk st
    · rw [h, List.cons_append]
      exact dnString1 V bs l nr rk st h
    · rw [h, List.cons_append]
      exact dnString2 V bs l nr rk st h
    · rw [h, List.cons_append]
      exact dnString3 V bs l nr rk st h
    · rw [h, List.cons_append]
      exact dnString4 V bs l nr rk st h
    · rw [h, List.cons_append]
      exact dnString5 V bs l nr rk st h
    · rw [h, List.cons_append]
      exact dnString6 V bs l nr rk st h
    · rw [h, List.cons_append]
      exact dnString7 V bs l nr rk st h
  · rw [if_neg hl, List.cons_append, List.append_assoc]
    exact dnStringN V bs l nr rk st

theorem decode_blobInstr {σ : Type} (V : Visitor σ) (bs l : List Nat)
    (nr : Nat) (rk : Option Nat) (st : σ) :
    decodeNext V (mkSt (blobInstr bs ++ l) nr) rk st =
      (V.onBlob st bs).map (mkSt l nr, ·) := by
  rw [blobInstr, List.cons_append, List.append_assoc]
  exact dnBlob V bs l nr rk st

theorem decode_beginArrayBytes {σ : Type} (V : Visitor σ) (len : Nat)
    (l : List Nat) (nr : Nat) (rk : Option Nat) (st : σ) :
    decodeNext V (mkSt (beginArrayBytes len ++ l) nr) rk st =
      (V.onBeginArray st len rk).map (mkSt l nr, ·) := by
  rw [beginArrayBytes]
  by_cases h0 : len = 0
  · subst h0; simp only [if_pos rfl]; exact dnArray0 V l nr rk st
  · rw [if_neg h0]
    by_cases h1 : len = 1
    · subst h1; simp only [if_pos rfl]; exact dnArray1 V l nr rk st
    · rw [if_neg h1]
      by_cases h2 : len = 2
      · subst h2; simp only [if_pos rfl]; exact dnArray2 V l nr rk st
      · rw [if_neg h2]
        by_cases h3 : len = 3
        · subst h3; simp only [if_pos rfl]; exact dnArray3 V l nr rk st
        · rw [if_neg h3, List.cons_append]
          exact dnArrayN V len l nr rk st

theorem decode_beginMapBytes {σ : Type} (V : Visitor σ) (len : Nat)
    (l : List Nat) (nr : Nat) (rk : Option Nat) (st : σ) :
    decodeNext V (mkSt (beginMapBytes len ++ l) nr) rk st =
      (V.onBeginMap st len rk).map (mkSt l nr, ·) := by
  rw [beginMapBytes]
  by_cases h0 : len = 0
  · subst h0; simp only [if_pos rfl]; exact dnMap0 V l nr rk st
  · rw [if_neg h0]
    by_cases h1 : len = 1
    · subst h1; simp only [if_pos rfl]; exact dnMap1 V l nr rk st
    · rw [if_neg h1]
      by_cases h2 : len = 2
      · subst h2; simp only [if_pos rfl]; exact dnMap2 V l nr rk st
      · rw [if_neg h2]
        by_cases h3 : len = 3
        · subst h3; simp only [if_pos rfl]; exact dnMap3 V l nr rk st
        · rw [if_neg h3, List.cons_append]
          exact dnMapN V len l nr rk st

theorem decode_beginSeedBytes {σ : Type} (V : Visitor σ) (len : Nat)
    (l : List Nat) (nr : Nat) (rk : Option Nat) (st : σ) :
    decodeNext V (mkSt (beginSeedBytes len ++ l) nr) rk st =
      (V.onBeginSeed st len rk).map (mkSt l nr, ·) := by
  rw [beginSeedBytes]
  by_cases h0 : len = 0
  · subst h0; simp only [if_pos rfl]; exact dnSeed0 V l nr rk st
  · rw [if_neg h0]
    by_cases h1 : len = 1
    · subst h1; simp only [if_pos rfl]; exact dnSeed1 V l nr rk st
    · rw [if_neg h1]
      by_cases h2 : len = 2
      · subst h2; simp only [if_pos rfl]; exact dnSeed2 V l nr rk st
      · rw [if_neg h2]
        by_cases h3 : len = 3
        · subst h3; simp only [if_pos rfl]; exact dnSeed3 V l nr rk st
        · rw [if_neg h3, List.cons_append]
          exact dnSeedN V len l nr rk st

theorem decode_beginStructBytes {σ : Type} (V : Visitor σ) (tags : List Nat)
    (hord : tagsOrdered tags) (l : List Nat) (nr : Nat) (rk : Option Nat)
    (st : σ) :
    decodeNext V (mkSt (beginStructBytes tags ++ l) nr) rk st =
      (V.onBeginStruct st tags rk).map (mkSt l nr, ·) := by
  rw [beginStructBytes]
  by_cases h0 : tags = []
  · subst h0; simp only [if_pos rfl]; exact dnStructL0 V l nr rk st
  · rw [if_neg h0]
    by_cases h1 : tags = [0]
    · subst h1; simp only [if_pos rfl]; exact dnStructL1 V l nr rk st
    · rw [if_neg h1]
      by_cases h2 : tags = [0, 1]
      · subst h2; simp only [if_pos rfl]; exact dnStructL2 V l nr rk st
      · rw [if_neg h2]
        by_cases h3 : tags = [0, 1, 2]
        · subst h3; simp only [if_pos rfl]; exact dnStructL3 V l nr rk st
        · rw [if_neg h3]
          by_cases h4 : tags = [0, 1, 2, 3]
          · subst h4; simp only [if_pos rfl]; exact dnStructL4 V l nr rk st
          · rw [if_neg h4]
            by_cases h5 : tags = [0, 1, 2, 3, 4]
            · subst h5; simp only [if_pos rfl]; exact dnStructL5 V l nr rk st
            · rw [if_neg h5]
              by_cases h6 : tags = [0, 1, 2, 3, 4, 5]
              · subst h6; simp only [if_pos rfl]
                exact dnStructL6 V l nr rk st
              · rw [if_neg h6]
                by_cases h7 : tags = [0, 1, 2, 3, 4, 5, 6]
                · subst h7; simp only [if_pos rfl]
                  exact dnStructL7 V l nr rk st
                · rw [if_neg h7, List.cons_append, List.append_assoc]
                  exact dnStructN V tags h0 hord l nr rk st

/-! ## Well-formed values

`wfB` carves out exactly the values the default data factory can produce
and hold: byte payloads are real bytes, ids are 16 bytes, map and
seed-field keys are hashable and pairwise distinct (an `OrderedDict` cannot
hold duplicates, and unhashable keys raise on insertion), struct tag vectors
are monotonically non-decreasing (both the linear short forms and the
delta/RLE nibble stream produce only such vectors), and every NaN float
survives the Float32 narrowing (`floatWf`). -/

mutual

def wfB : Value → Bool
  | .vint _ => true
  | .vnull => true
  | .vbool _ => true
  | .vfloat b => decide (floatWf b)
  | .vid bs => bs.length == 16 && bs.all (· < 256)
  | .vstring bs => bs.all (· < 256)
  | .vblob bs => bs.all (· < 256)
  | .varray vs => wfBList vs
  | .vmap es =>
      (es.map Prod.fst).all hashable && decide (es.map Prod.fst).Nodup &&
        wfBPairs es
  | .vseed h fs =>
      wfB h && (fs.map Prod.fst).all hashable &&
        decide (fs.map Prod.fst).Nodup && wfBPairs fs
  | .vstruct fs => decide (tagsOrdered (fs.map Prod.fst)) && wfBTagged fs

def wfBList : List Value → Bool
  | [] => true
  | v :: vs => wfB v && wfBList vs

def wfBPairs : List (Value × Value) → Bool
  | [] => true
  | (k, v) :: es => wfB k && wfB v && wfBPairs es

def wfBTagged : List (Nat × Value) → Bool
  | [] => true
  | (_, v) :: fs => wfB v && wfBTagged fs

end

theorem wfBList_mem (vs : List Value) (h : wfBList vs = true) :
    ∀ v ∈ vs, wfB v = true := by
  induction vs with
  | nil => simp
  | cons a t ih =>
      rw [wfBList] at h
      rw [Bool.and_eq_true] at h
      intro v hv
      rcases List.mem_cons.mp hv with h' | h'
      · subst h'; exact h.1
      · exact ih h.2 v h'

theorem wfBPairs_mem (es : List (Value × Value)) (h : wfBPairs es = true) :
    ∀ e ∈ es, wfB e.1 = true ∧ wfB e.2 = true := by
  induction es with
  | nil => simp
  | cons a t ih =>
      obtain ⟨k, v⟩ := a
      rw [wfBPairs] at h
      rw [Bool.and_eq_true, Bool.and_eq_true] at h
      intro e he
      rcases List.mem_cons.mp he with h' | h'
      · subst h'; exact ⟨h.1.1, h.1.2⟩
      · exact ih h.2 e h'

theorem wfBTagged_mem (fs : List (Nat × Value)) (h : wfBTagged fs = true) :
    ∀ f ∈ fs, wfB f.2 = true := by
  induction fs with
  | nil => simp
  | cons a t ih =>
      obtain ⟨tg, v⟩ := a
      rw [wfBTagged] at h
      rw [Bool.and_eq_true] at h
      intro f hf
      rcases List.mem_cons.mp hf with h' | h'
      · subst h'; exact h.1
      · exact ih h.2 f h'

/-! ## Instruction counts

`stepsValue V` is the number of `decode_next` loop iterations a tree value
occupies (one per instruction; `ADD_REF` never appears in tree output). -/

mutual

def stepsValue : Value → Nat
  | .varray vs => 1 + stepsList vs
  | .vmap es => 1 + stepsPairs es
  | .vseed h fs => 1 + stepsValue h + stepsPairs fs
  | .vstruct fs => 1 + stepsTagged fs
  | _ => 1

def stepsList : List Value → Nat
  | [] => 0
  | v :: vs => stepsValue v + stepsList vs

def stepsPairs : List (Value × Value) → Nat
  | [] => 0
  | (k, v) :: es => stepsValue k + stepsValue v + stepsPairs es

def stepsTagged : List (Nat × Value) → Nat
  | [] => 0
  | (_, v) :: fs => stepsValue v + stepsTagged fs

end

/-! ## Builder-stack lemmas -/

theorem hasResult_false (b : Builder) (h : 2 ≤ b.pends.length) :
    b.hasResult = false := by
  simp [Builder.hasResult]
  omega

theorem ok_bind {α β : Type} (a : α) (f : α → Except DErr β) :
    (Except.ok a : Except DErr α) >>= f = f a := rfl

theorem pushValue_silent (b : Builder) (v : Value) (fr : Frame)
    (ps : List Frame) (hp : b.pends = fr :: ps) (hlt : fr.got + 1 ≠ fr.total) :
    pushValue b v =
      .ok { b with stack := b.stack ++ [v],
                   pends := (⟨fr.total, fr.got + 1, fr.kind, fr.refKey⟩ : Frame) :: ps } := by
  rw [pushValue.eq_def]
  split
  · rename_i heq
    rw [hp] at heq
    exact absurd heq (by simp)
  · rename_i fr' ps' heq
    rw [hp] at heq
    injection heq with h1 h2
    subst h1
    subst h2
    rw [if_neg hlt]
    rfl

theorem pushValue_complete (b : Builder) (v : Value) (fr : Frame)
    (ps : List Frame) (hp : b.pends = fr :: ps) (heq : fr.got + 1 = fr.total) :
    pushValue b v =
      finishFrame
        { b with
            stack := (b.stack ++ [v]).take ((b.stack ++ [v]).length - fr.total),
            pends := ps }
        fr.kind fr.refKey
        ((b.stack ++ [v]).drop ((b.stack ++ [v]).length - fr.total)) := by
  rw [pushValue.eq_def]
  split
  · rename_i h
    rw [hp] at h
    exact absurd h (by simp)
  · rename_i fr' ps' h
    rw [hp] at h
    injection h with h1 h2
    subst h1
    subst h2
    rw [if_pos heq]

/-- `vs.foldlM pushValue`: pushing several values in sequence. -/
def pushList (b : Builder) (vs : List Value) : Except DErr Builder :=
  vs.foldlM pushValue b

/-- Pushing exactly the values a frame still expects pops it and runs its
callback on them (with the values the frame had already collected in
front); the pushes before the last are silent. -/
theorem pushList_complete (vs : List Value) : ∀ (b : Builder) (fr : Frame)
    (ps : List Frame), vs ≠ [] → b.pends = fr :: ps →
    fr.got + vs.length = fr.total → fr.got ≤ b.stack.length →
    pushList b vs =
      finishFrame
        { b with stack := b.stack.take (b.stack.length - fr.got), pends := ps }
        fr.kind fr.refKey (b.stack.drop (b.stack.length - fr.got) ++ vs) := by
  induction vs with
  | nil => intro _ _ _ hne; exact absurd rfl hne
  | cons v vs' ih =>
      intro b fr ps _ hp htot hgot
      by_cases hvs : vs' = []
      · subst hvs
        rw [pushList]
        rw [List.foldlM_cons, pushValue_complete b v fr ps hp (by simp at htot; omega)]
        simp only [List.foldlM_nil]
        have hlen : (b.stack ++ [v]).length = b.stack.length + 1 := by simp
        have hsub : b.stack.length + 1 - fr.total = b.stack.length - fr.got := by
          simp at htot
          omega
        have htake : (b.stack ++ [v]).take ((b.stack ++ [v]).length - fr.total) =
            b.stack.take (b.stack.length - fr.got) := by
          rw [hlen, hsub]
          rw [List.take_append_of_le_length (by omega)]
        have hdrop : (b.stack ++ [v]).drop ((b.stack ++ [v]).length - fr.total) =
            b.stack.drop (b.stack.length - fr.got) ++ [v] := by
          rw [hlen, hsub]
          rw [List.drop_append_of_le_length (by omega)]
        rw [htake, hdrop]
        cases hres : finishFrame
            { b with stack := b.stack.take (b.stack.length - fr.got), pends := ps }
            fr.kind fr.refKey (b.stack.drop (b.stack.length - fr.got) ++ [v]) <;>
          simp [hres, Except.bind]
      · rw [pushList, List.foldlM_cons]
        have hne : fr.got + 1 ≠ fr.total := by
          have : vs'.length ≥ 1 := by
            cases hv : vs'
            · exact absurd hv hvs
            · simp [hv]
          simp at htot
          omega
        rw [pushValue_silent b v fr ps hp hne, ok_bind]
        rw [show List.foldlM pushValue
            { b with stack := b.stack ++ [v],
                     pends := (⟨fr.total, fr.got + 1, fr.kind, fr.refKey⟩ : Frame) :: ps }
            vs' =
          pushList
            { b with stack := b.stack ++ [v],
                     pends := (⟨fr.total, fr.got + 1, fr.kind, fr.refKey⟩ : Frame) :: ps }
            vs' from rfl]
        rw [ih _ ⟨fr.total, fr.got + 1, fr.kind, fr.refKey⟩ ps hvs rfl
          (by simp at htot ⊢; omega) (by simp; omega)]
        have hlen : (b.stack ++ [v]).length = b.stack.length + 1 := by simp
        have hsub : b.stack.length + 1 - (fr.got + 1) = b.stack.length - fr.got := by
          omega
        congr 1
        · congr 1
          rw [hlen, hsub]
          rw [List.take_append_of_le_length (by omega)]
        · rw [hlen, hsub]
          rw [List.drop_append_of_le_length (by omega)]
          simp


/-! ## Round trip of the decode loop on tree-encoder output -/

/-- Keys and values interleaved, as `_traverse_composite` visits a map's
items. -/
def flattenPairs : List (Value × Value) → List Value
  | [] => []
  | (k, v) :: es => k :: v :: flattenPairs es

theorem flattenPairs_length (es : List (Value × Value)) :
    (flattenPairs es).length = 2 * es.length := by
  induction es with
  | nil => rfl
  | cons e es ih =>
      obtain ⟨k, v⟩ := e
      simp only [flattenPairs, List.length_cons, ih]
      omega

theorem pairUp_flattenPairs (es : List (Value × Value)) :
    pairUp (flattenPairs es) = es := by
  induction es with
  | nil => rfl
  | cons e es ih =>
      obtain ⟨k, v⟩ := e
      simp only [flattenPairs, pairUp, ih]

theorem mem_flattenPairs (es : List (Value × Value)) (v : Value)
    (hv : v ∈ flattenPairs es) : ∃ e ∈ es, v = e.1 ∨ v = e.2 := by
  induction es with
  | nil => simp [flattenPairs] at hv
  | cons e es ih =>
      obtain ⟨k, w⟩ := e
      rw [flattenPairs.eq_def] at hv
      rcases List.mem_cons.mp hv with h | h
      · exact ⟨(k, w), by simp, Or.inl h⟩
      · rcases List.mem_cons.mp h with h | h
        · exact ⟨(k, w), by simp, Or.inr h⟩
        · obtain ⟨e, he, h⟩ := ih h
          exact ⟨e, by simp [he], h⟩

theorem encodePairs_flatten (es : List (Value × Value)) :
    encodePairs es = encodeList (flattenPairs es) := by
  induction es with
  | nil => simp [encodePairs, flattenPairs, encodeList]
  | cons e es ih =>
      obtain ⟨k, v⟩ := e
      simp only [encodePairs, flattenPairs, encodeList, ih]

theorem encodeTagged_map (fs : List (Nat × Value)) :
    encodeTagged fs = encodeList (fs.map Prod.snd) := by
  induction fs with
  | nil => simp [encodeTagged, encodeList]
  | cons f fs ih =>
      obtain ⟨t, v⟩ := f
      simp only [List.map_cons, encodeTagged, encodeList, ih]

theorem stepsPairs_flatten (es : List (Value × Value)) :
    stepsPairs es = stepsList (flattenPairs es) := by
  induction es with
  | nil => simp [stepsPairs, flattenPairs, stepsList]
  | cons e es ih =>
      obtain ⟨k, v⟩ := e
      simp only [stepsPairs, flattenPairs, stepsList, ih]
      omega

theorem stepsTagged_map (fs : List (Nat × Value)) :
    stepsTagged fs = stepsList (fs.map Prod.snd) := by
  induction fs with
  | nil => simp [stepsTagged, stepsList]
  | cons f fs ih =>
      obtain ⟨t, v⟩ := f
      simp only [List.map_cons, stepsTagged, stepsList, ih]

theorem zip_fst_snd {α β : Type} (fs : List (α × β)) :
    (fs.map Prod.fst).zip (fs.map Prod.snd) = fs := by
  induction fs with
  | nil => rfl
  | cons f fs ih =>
      obtain ⟨t, v⟩ := f
      simp [ih]

/-- When `k` is not yet a key, `OrderedDict` insertion appends. -/
theorem odInsert_not_mem (d : List (Value × Value)) (k v : Value)
    (h : k ∉ d.map Prod.fst) : odInsert d k v = d ++ [(k, v)] := by
  induction d with
  | nil => rfl
  | cons e d ih =>
      obtain ⟨k2, v2⟩ := e
      simp only [List.map_cons, List.mem_cons, not_or] at h
      simp only [odInsert]
      rw [if_neg (fun hh => h.1 hh.symm), ih h.2]
      rfl

theorem odFromPairs_append (es : List (Value × Value)) :
    ∀ d : List (Value × Value), (es.map Prod.fst).Nodup →
    (∀ a ∈ es.map Prod.fst, a ∉ d.map Prod.fst) →
    odFromPairs d es = d ++ es := by
  induction es with
  | nil => intro d _ _; simp [odFromPairs]
  | cons e es ih =>
      intro d hnd hdis
      obtain ⟨k, v⟩ := e
      simp only [List.map_cons] at hnd hdis
      rw [List.nodup_cons] at hnd
      have hdis2 : ∀ a ∈ es.map Prod.fst, a ∉ (d ++ [(k, v)]).map Prod.fst := by
        intro a ha hmem
        rw [List.map_append] at hmem
        rcases List.mem_append.mp hmem with hm | hm
        · exact hdis a (by simp [ha]) hm
        · simp at hm
          subst hm
          exact hnd.1 ha
      simp only [odFromPairs]
      rw [odInsert_not_mem d k v (hdis k (by simp)),
        ih (d ++ [(k, v)]) hnd.2 hdis2]
      simp

/-- Filling a fresh `OrderedDict` from distinct keys reproduces the pair
list unchanged. -/
theorem odFromPairs_self (es : List (Value × Value))
    (h : (es.map Prod.fst).Nodup) : odFromPairs [] es = es := by
  rw [odFromPairs_append es [] h (by simp)]
  simp

/-! ## Every instruction occupies at least one byte -/

set_option maxHeartbeats 800000 in
theorem intInstr_length (i : Int) : 1 ≤ (intInstr i).length := by
  rw [intInstr.eq_def]
  split_ifs <;> simp only [List.length_cons, List.length_nil] <;> omega

theorem floatInstr_length (b : Nat) : 1 ≤ (floatInstr b).length := by
  rw [floatInstr.eq_def]
  simp only [List.length_cons]
  omega

theorem idInstr_length (bs : List Nat) : 1 ≤ (idInstr bs).length := by
  rw [idInstr.eq_def]
  dsimp only
  split_ifs <;> simp only [List.length_cons, List.length_nil] <;> omega

theorem stringInstr_length (bs : List Nat) : 1 ≤ (stringInstr bs).length := by
  rw [stringInstr.eq_def]
  split_ifs <;> simp only [List.length_cons, List.length_nil] <;> omega

theorem blobInstr_length (bs : List Nat) : 1 ≤ (blobInstr bs).length := by
  simp [blobInstr]

theorem beginArrayBytes_length (n : Nat) : 1 ≤ (beginArrayBytes n).length := by
  rw [beginArrayBytes.eq_def]
  split_ifs <;> simp only [List.length_cons, List.length_nil] <;> omega

theorem beginMapBytes_length (n : Nat) : 1 ≤ (beginMapBytes n).length := by
  rw [beginMapBytes.eq_def]
  split_ifs <;> simp only [List.length_cons, List.length_nil] <;> omega

theorem beginSeedBytes_length (n : Nat) : 1 ≤ (beginSeedBytes n).length := by
  rw [beginSeedBytes.eq_def]
  split_ifs <;> simp only [List.length_cons, List.length_nil] <;> omega

set_option maxHeartbeats 800000 in
theorem beginStructBytes_length (tags : List Nat) :
    1 ≤ (beginStructBytes tags).length := by
  rw [beginStructBytes.eq_def]
  split_ifs <;> simp only [List.length_cons, List.length_nil] <;> omega

theorem stepsList_le (vs : List Value)
    (ih : ∀ v ∈ vs, stepsValue v ≤ (encodeValue v).length) :
    stepsList vs ≤ (encodeList vs).length := by
  induction vs with
  | nil => simp [stepsList, encodeList]
  | cons v vs ihl =>
      simp only [stepsList, encodeList, List.length_append]
      have h1 := ih v (by simp)
      have h2 := ihl fun w hw => ih w (by simp [hw])
      omega

/-- A tree value needs no more loop iterations than it has encoded bytes
(each instruction is at least one byte long). -/
theorem stepsValue_le (v : Value) : stepsValue v ≤ (encodeValue v).length := by
  induction v using Value.inductionOn with
  | hint i =>
      simp only [stepsValue, encodeValue]
      exact intInstr_length i
  | hnull => simp [stepsValue, encodeValue]
  | hbool b => cases b <;> simp [stepsValue, encodeValue]
  | hfloat b =>
      simp only [stepsValue, encodeValue]
      exact floatInstr_length b
  | hid bs =>
      simp only [stepsValue, encodeValue]
      exact idInstr_length bs
  | hstring bs =>
      simp only [stepsValue, encodeValue]
      exact stringInstr_length bs
  | hblob bs =>
      simp only [stepsValue, encodeValue]
      exact blobInstr_length bs
  | harray vs ih =>
      simp only [stepsValue, encodeValue, List.length_append]
      have h1 := beginArrayBytes_length vs.length
      have h2 := stepsList_le vs ih
      omega
  | hmap es ih =>
      simp only [stepsValue, encodeValue, List.length_append]
      have h1 := beginMapBytes_length es.length
      have h2 : stepsPairs es ≤ (encodePairs es).length := by
        rw [stepsPairs_flatten, encodePairs_flatten]
        apply stepsList_le
        intro v hv
        obtain ⟨e, he, h⟩ := mem_flattenPairs es v hv
        rcases h with h | h <;> subst h
        · exact (ih e he).1
        · exact (ih e he).2
      omega
  | hseed h fs ihh ihf =>
      simp only [stepsValue, encodeValue, List.length_append]
      have h1 := beginSeedBytes_length fs.length
      have h2 : stepsPairs fs ≤ (encodePairs fs).length := by
        rw [stepsPairs_flatten, encodePairs_flatten]
        apply stepsList_le
        intro v hv
        obtain ⟨e, he, h⟩ := mem_flattenPairs fs v hv
        rcases h with h | h <;> subst h
        · exact (ihf e he).1
        · exact (ihf e he).2
      omega
  | hstruct fs ih =>
      simp only [stepsValue, encodeValue, List.length_append]
      have h1 := beginStructBytes_length (fs.map Prod.fst)
      have h2 : stepsTagged fs ≤ (encodeTagged fs).length := by
        rw [stepsTagged_map, encodeTagged_map]
        apply stepsList_le
        intro v hv
        obtain ⟨f, hf, h⟩ := List.mem_map.mp hv
        subst h
        exact ih f hf
      omega



/-! ## The decode loop consumes exactly one value at a time -/

theorem runLoop_succ {σ : Type} (V : Visitor σ) (hasRes : σ → Bool)
    (f : Nat) (s : DecSt) (st : σ) :
    runLoop V hasRes (f + 1) s st =
      if hasRes st then pure (st, s)
      else
        decodeNext V s none st >>= fun p => runLoop V hasRes f p.1 p.2 := by
  rw [runLoop]

theorem runLoop_step {σ : Type} (V : Visitor σ) (hasRes : σ → Bool)
    (f : Nat) (s : DecSt) (st : σ) (h : hasRes st = false) :
    runLoop V hasRes (f + 1) s st =
      decodeNext V s none st >>= fun p => runLoop V hasRes f p.1 p.2 := by
  rw [runLoop_succ, if_neg (by simp [h])]

/-- The equation a value's encoding satisfies against the decode loop: the
bytes of `v` followed by anything act on the builder exactly as one
`_push` of `v`. -/
def PushEq (v : Value) : Prop :=
  ∀ (f : Nat) (l : List Nat) (nr : Nat) (b : Builder), 2 ≤ b.pends.length →
    runLoop builderVisitor Builder.hasResult (stepsValue v + f)
        (mkSt (encodeValue v ++ l) nr) b =
      pushValue b v >>= fun b2 =>
        runLoop builderVisitor Builder.hasResult f (mkSt l nr) b2

theorem runLoop_push_step (f : Nat) (l : List Nat) (nr : Nat) (b : Builder)
    (v : Value) (s : DecSt) (hb : 2 ≤ b.pends.length)
    (hd : decodeNext builderVisitor s none b =
      (pushValue b v).map (mkSt l nr, ·)) :
    runLoop builderVisitor Builder.hasResult (1 + f) s b =
      pushValue b v >>= fun b2 =>
        runLoop builderVisitor Builder.hasResult f (mkSt l nr) b2 := by
  rw [Nat.add_comm 1 f, runLoop_step _ _ _ _ _ (hasResult_false b hb), hd]
  cases pushValue b v <;> rfl

theorem runLoop_begin_step (f : Nat) (b b1 : Builder) (s : DecSt)
    (l : List Nat) (nr : Nat) (hb : 2 ≤ b.pends.length)
    (hd : decodeNext builderVisitor s none b = .ok (mkSt l nr, b1)) :
    runLoop builderVisitor Builder.hasResult (f + 1) s b =
      runLoop builderVisitor Builder.hasResult f (mkSt l nr) b1 := by
  rw [runLoop_step _ _ _ _ _ (hasResult_false b hb), hd]
  rfl

/-- Decoding the concatenated encodings of several values acts as pushing
them in order, as long as the receiving frame can absorb them all. -/
theorem runLoop_encodeList (vs : List Value)
    (hPeq : ∀ v ∈ vs, PushEq v) :
    ∀ (f : Nat) (l : List Nat) (nr : Nat) (b : Builder) (fr : Frame)
      (ps : List Frame), b.pends = fr :: ps → 2 ≤ ps.length →
      fr.got + vs.length ≤ fr.total →
      runLoop builderVisitor Builder.hasResult (stepsList vs + f)
          (mkSt (encodeList vs ++ l) nr) b =
        pushList b vs >>= fun b2 =>
          runLoop builderVisitor Builder.hasResult f (mkSt l nr) b2 := by
  induction vs with
  | nil =>
      intro f l nr b fr ps hp hps htot
      simp only [stepsList, encodeList, List.nil_append, Nat.zero_add]
      rw [pushList]
      simp only [List.foldlM_nil]
      rfl
  | cons v vs2 ih =>
      intro f l nr b fr ps hp hps htot
      simp only [stepsList, encodeList]
      rw [List.append_assoc, Nat.add_assoc]
      rw [hPeq v (by simp) (stepsList vs2 + f) (encodeList vs2 ++ l) nr b
        (by rw [hp]; simp only [List.length_cons]; omega)]
      by_cases hvs : vs2 = []
      · subst hvs
        simp only [stepsList, encodeList, Nat.zero_add, List.nil_append]
        rw [pushList]
        simp only [List.foldlM_cons, List.foldlM_nil]
        cases pushValue b v <;> rfl
      · have hne : fr.got + 1 ≠ fr.total := by
          have h1 : 1 ≤ vs2.length := by
            cases h2 : vs2
            · exact absurd h2 hvs
            · simp [h2]
          simp only [List.length_cons] at htot
          omega
        rw [pushValue_silent b v fr ps hp hne, ok_bind]
        rw [pushList, List.foldlM_cons, pushValue_silent b v fr ps hp hne,
          ok_bind]
        rw [show List.foldlM pushValue
            { b with stack := b.stack ++ [v],
                     pends := (⟨fr.total, fr.got + 1, fr.kind, fr.refKey⟩ : Frame) :: ps }
            vs2 =
          pushList
            { b with stack := b.stack ++ [v],
                     pends := (⟨fr.total, fr.got + 1, fr.kind, fr.refKey⟩ : Frame) :: ps }
            vs2 from rfl]
        exact ih (fun w hw => hPeq w (by simp [hw])) f l nr _
          ⟨fr.total, fr.got + 1, fr.kind, fr.refKey⟩ ps rfl hps
          (by
            simp only [List.length_cons] at htot
            show fr.got + 1 + vs2.length ≤ fr.total
            omega)



/-! ## The callbacks of the completed frames -/

theorem finishFrame_fresult (b : Builder) (r : Option Nat) (v : Value) :
    finishFrame b .fresult r [v] = pushValue { b with result := v } .vnull := by
  simp [finishFrame]

theorem finishFrame_farr (b : Builder) (r : Option Nat) (vals : List Value) :
    finishFrame b .farr r vals =
      pushValue (bindRef b r (.varray vals)) (.varray vals) := by
  simp [finishFrame]

theorem finishFrame_fmap (b : Builder) (r : Option Nat) (vals : List Value)
    (h : ((pairUp vals).all fun e => hashable e.1) = true) :
    finishFrame b .fmap r vals =
      pushValue (bindRef b r (.vmap (odFromPairs [] (pairUp vals))))
        (.vmap (odFromPairs [] (pairUp vals))) := by
  simp [finishFrame, h]

theorem finishFrame_fseedHead_zero (b : Builder) (r : Option Nat)
    (h : Value) :
    finishFrame b (.fseedHead 0) r [h] =
      pushValue (bindRef b r (.vseed h [])) (.vseed h []) := by
  simp [finishFrame]

theorem finishFrame_fseedHead_pos (b : Builder) (r : Option Nat) (n : Nat)
    (hn : n ≠ 0) (h : Value) :
    finishFrame b (.fseedHead n) r [h] =
      .ok { b with
              pends := (⟨2 * n, 0, .fseedFields h, r⟩ : Frame) :: b.pends } := by
  simp [finishFrame, hn]
  rfl

theorem finishFrame_fseedFields (b : Builder) (r : Option Nat) (h : Value)
    (vals : List Value)
    (hh : ((pairUp vals).all fun e => hashable e.1) = true) :
    finishFrame b (.fseedFields h) r vals =
      pushValue (bindRef b r (.vseed h (odFromPairs [] (pairUp vals))))
        (.vseed h (odFromPairs [] (pairUp vals))) := by
  simp [finishFrame, hh]

theorem finishFrame_fstruct (b : Builder) (r : Option Nat) (tags : List Nat)
    (vals : List Value) :
    finishFrame b (.fstruct tags) r vals =
      pushValue (bindRef b r (.vstruct (tags.zip vals)))
        (.vstruct (tags.zip vals)) := by
  simp [finishFrame]



theorem take_last (st : List Value) (h : Value) :
    (st ++ [h]).take ((st ++ [h]).length - 1) = st := by
  have hl : (st ++ [h]).length - 1 = st.length := by simp
  rw [hl, List.take_left]

theorem drop_last (st : List Value) (h : Value) :
    (st ++ [h]).drop ((st ++ [h]).length - 1) = [h] := by
  have hl : (st ++ [h]).length - 1 = st.length := by simp
  rw [hl, List.drop_left]

/-- Main invariant of the round trip: on a well-formed tree value the
decode loop consumes exactly the value's encoding and performs one
`_push`. -/
theorem pushEq_of_wf (v : Value) : wfB v = true → PushEq v := by
  induction v using Value.inductionOn with
  | hint i =>
      intro _
      simp only [PushEq]
      intro f l nr b hb
      simp only [stepsValue, encodeValue]
      exact runLoop_push_step f l nr b (.vint i) _ hb
        (by rw [decode_intInstr]; rfl)
  | hnull =>
      intro _
      simp only [PushEq]
      intro f l nr b hb
      simp only [stepsValue, encodeValue]
      exact runLoop_push_step f l nr b .vnull _ hb
        (by
          rw [show (([0x10] : List Nat) ++ l) = 0x10 :: l from rfl, dnNull]
          rfl)
  | hbool bb =>
      intro _
      simp only [PushEq]
      intro f l nr b hb
      cases bb
      · simp only [stepsValue, encodeValue]
        exact runLoop_push_step f l nr b (.vbool false) _ hb
          (by
            rw [show (([0x12] : List Nat) ++ l) = 0x12 :: l from rfl, dnFalse]
            rfl)
      · simp only [stepsValue, encodeValue]
        exact runLoop_push_step f l nr b (.vbool true) _ hb
          (by
            rw [show (([0x11] : List Nat) ++ l) = 0x11 :: l from rfl, dnTrue]
            rfl)
  | hfloat bb =>
      intro hwf
      simp only [wfB, decide_eq_true_eq] at hwf
      simp only [PushEq]
      intro f l nr b hb
      simp only [stepsValue, encodeValue]
      exact runLoop_push_step f l nr b (.vfloat bb) _ hb
        (by rw [decode_floatInstr builderVisitor bb hwf]; rfl)
  | hid bs =>
      intro hwf
      simp only [wfB, Bool.and_eq_true, beq_iff_eq, List.all_eq_true,
        decide_eq_true_eq] at hwf
      simp only [PushEq]
      intro f l nr b hb
      simp only [stepsValue, encodeValue]
      exact runLoop_push_step f l nr b (.vid bs) _ hb
        (by rw [decode_idInstr builderVisitor bs hwf.1 hwf.2]; rfl)
  | hstring bs =>
      intro _
      simp only [PushEq]
      intro f l nr b hb
      simp only [stepsValue, encodeValue]
      exact runLoop_push_step f l nr b (.vstring bs) _ hb
        (by rw [decode_stringInstr]; rfl)
  | hblob bs =>
      intro _
      simp only [PushEq]
      intro f l nr b hb
      simp only [stepsValue, encodeValue]
      exact runLoop_push_step f l nr b (.vblob bs) _ hb
        (by rw [decode_blobInstr]; rfl)
  | harray vs ih =>
      intro hwf
      simp only [wfB] at hwf
      have hPeq : ∀ w ∈ vs, PushEq w := fun w hw =>
        ih w hw (wfBList_mem vs hwf w hw)
      simp only [PushEq]
      intro f l nr b hb
      simp only [stepsValue, encodeValue]
      by_cases hv : vs = []
      · subst hv
        simp only [encodeList, stepsList, List.append_nil, Nat.add_zero,
          List.length_nil]
        exact runLoop_push_step f l nr b (.varray []) _ hb
          (by rw [decode_beginArrayBytes]; rfl)
      · rw [List.append_assoc,
          show 1 + stepsList vs + f = (stepsList vs + f) + 1 from by omega]
        rw [runLoop_begin_step (stepsList vs + f) b
          { b with
              pends := (⟨vs.length, 0, .farr, none⟩ : Frame) :: b.pends }
          _ (encodeList vs ++ l) nr hb
          (by
            rw [decode_beginArrayBytes]
            simp only [builderVisitor]
            rw [if_neg (by simp [hv])]
            rfl)]
        rw [runLoop_encodeList vs hPeq f l nr
          { b with
              pends := (⟨vs.length, 0, .farr, none⟩ : Frame) :: b.pends }
          ⟨vs.length, 0, .farr, none⟩ b.pends rfl hb
          (by show 0 + vs.length ≤ vs.length; omega)]
        rw [pushList_complete vs
          { b with
              pends := (⟨vs.length, 0, .farr, none⟩ : Frame) :: b.pends }
          ⟨vs.length, 0, .farr, none⟩ b.pends hv rfl
          (by show 0 + vs.length = vs.length; omega)
          (by show 0 ≤ _; omega)]
        simp only [Nat.sub_zero, List.take_length, List.drop_length,
          List.nil_append]
        rw [show ({ stack := b.stack, pends := b.pends, result := b.result,
                    refs := b.refs } : Builder) = b from rfl]
        rw [finishFrame_farr]
        rfl
  | hmap es ih =>
      intro hwf
      simp only [wfB, Bool.and_eq_true, decide_eq_true_eq] at hwf
      obtain ⟨⟨hhash, hnodup⟩, hpairs⟩ := hwf
      have hPeq : ∀ w ∈ flattenPairs es, PushEq w := by
        intro w hw
        obtain ⟨e, he, hcase⟩ := mem_flattenPairs es w hw
        have hwfe := wfBPairs_mem es hpairs e he
        rcases hcase with hc | hc <;> subst hc
        · exact (ih e he).1 hwfe.1
        · exact (ih e he).2 hwfe.2
      have hcheck : (es.all fun e => hashable e.1) = true := by
        rw [List.all_eq_true] at hhash ⊢
        intro e he
        exact hhash e.1 (List.mem_map_of_mem Prod.fst he)
      simp only [PushEq]
      intro f l nr b hb
      simp only [stepsValue, encodeValue]
      by_cases hv : es = []
      · subst hv
        simp only [encodePairs, stepsPairs, List.append_nil, Nat.add_zero,
          List.length_nil]
        exact runLoop_push_step f l nr b (.vmap []) _ hb
          (by rw [decode_beginMapBytes]; rfl)
      · have hfne : flattenPairs es ≠ [] := by
          intro hfe
          have hfl := flattenPairs_length es
          rw [hfe] at hfl
          simp only [List.length_nil] at hfl
          have : es.length = 0 := by omega
          exact hv (List.eq_nil_of_length_eq_zero this)
        rw [stepsPairs_flatten, encodePairs_flatten, List.append_assoc,
          show 1 + stepsList (flattenPairs es) + f =
            (stepsList (flattenPairs es) + f) + 1 from by omega]
        rw [runLoop_begin_step (stepsList (flattenPairs es) + f) b
          { b with
              pends := (⟨2 * es.length, 0, .fmap, none⟩ : Frame) :: b.pends }
          _ (encodeList (flattenPairs es) ++ l) nr hb
          (by
            rw [decode_beginMapBytes]
            simp only [builderVisitor]
            rw [if_neg (by simp [hv])]
            rfl)]
        rw [runLoop_encodeList (flattenPairs es) hPeq f l nr
          { b with
              pends := (⟨2 * es.length, 0, .fmap, none⟩ : Frame) :: b.pends }
          ⟨2 * es.length, 0, .fmap, none⟩ b.pends rfl hb
          (by
            show 0 + (flattenPairs es).length ≤ 2 * es.length
            rw [flattenPairs_length]
            omega)]
        rw [pushList_complete (flattenPairs es)
          { b with
              pends := (⟨2 * es.length, 0, .fmap, none⟩ : Frame) :: b.pends }
          ⟨2 * es.length, 0, .fmap, none⟩ b.pends hfne rfl
          (by
            show 0 + (flattenPairs es).length = 2 * es.length
            rw [flattenPairs_length]
            omega)
          (by show 0 ≤ _; omega)]
        simp only [Nat.sub_zero, List.take_length, List.drop_length,
          List.nil_append]
        rw [show ({ stack := b.stack, pends := b.pends, result := b.result,
                    refs := b.refs } : Builder) = b from rfl]
        rw [finishFrame_fmap b none (flattenPairs es)
          (by rw [pairUp_flattenPairs]; exact hcheck)]
        rw [pairUp_flattenPairs, odFromPairs_self es hnodup]
        rfl
  | hseed hd fs ihh ihf =>
      intro hwf
      simp only [wfB, Bool.and_eq_true, decide_eq_true_eq] at hwf
      obtain ⟨⟨⟨hwd, hhash⟩, hnodup⟩, hpairs⟩ := hwf
      have hPhd : PushEq hd := ihh hwd
      have hPeq : ∀ w ∈ flattenPairs fs, PushEq w := by
        intro w hw
        obtain ⟨e, he, hcase⟩ := mem_flattenPairs fs w hw
        have hwfe := wfBPairs_mem fs hpairs e he
        rcases hcase with hc | hc <;> subst hc
        · exact (ihf e he).1 hwfe.1
        · exact (ihf e he).2 hwfe.2
      have hcheck : (fs.all fun e => hashable e.1) = true := by
        rw [List.all_eq_true] at hhash ⊢
        intro e he
        exact hhash e.1 (List.mem_map_of_mem Prod.fst he)
      simp only [PushEq]
      intro f l nr b hb
      simp only [stepsValue, encodeValue]
      rw [List.append_assoc, List.append_assoc,
        show 1 + stepsValue hd + stepsPairs fs + f =
          (stepsValue hd + (stepsPairs fs + f)) + 1 from by omega]
      rw [runLoop_begin_step (stepsValue hd + (stepsPairs fs + f)) b
        { b with
            pends := (⟨1, 0, .fseedHead fs.length, none⟩ : Frame) :: b.pends }
        _ (encodeValue hd ++ (encodePairs fs ++ l)) nr hb
        (by rw [decode_beginSeedBytes]; rfl)]
      rw [hPhd (stepsPairs fs + f) (encodePairs fs ++ l) nr
        { b with
            pends := (⟨1, 0, .fseedHead fs.length, none⟩ : Frame) :: b.pends }
        (by
          show 2 ≤ ((⟨1, 0, .fseedHead fs.length, none⟩ : Frame) ::
            b.pends).length
          rw [List.length_cons]
          omega)]
      rw [pushValue_complete
        { b with
            pends := (⟨1, 0, .fseedHead fs.length, none⟩ : Frame) :: b.pends }
        hd ⟨1, 0, .fseedHead fs.length, none⟩ b.pends rfl rfl]
      simp only [take_last, drop_last]
      rw [show ({ stack := b.stack, pends := b.pends, result := b.result,
                  refs := b.refs } : Builder) = b from rfl]
      by_cases hv : fs = []
      · subst hv
        simp only [List.length_nil]
        rw [finishFrame_fseedHead_zero b none hd]
        simp only [stepsPairs, encodePairs, List.nil_append, Nat.zero_add]
        rfl
      · rw [finishFrame_fseedHead_pos b none fs.length
          (by simp [hv]) hd, ok_bind]
        have hfne : flattenPairs fs ≠ [] := by
          intro hfe
          have hfl := flattenPairs_length fs
          rw [hfe] at hfl
          simp only [List.length_nil] at hfl
          have : fs.length = 0 := by omega
          exact hv (List.eq_nil_of_length_eq_zero this)
        rw [stepsPairs_flatten, encodePairs_flatten]
        rw [runLoop_encodeList (flattenPairs fs) hPeq f l nr
          { b with
              pends := (⟨2 * fs.length, 0, .fseedFields hd, none⟩ : Frame) ::
                b.pends }
          ⟨2 * fs.length, 0, .fseedFields hd, none⟩ b.pends rfl hb
          (by
            show 0 + (flattenPairs fs).length ≤ 2 * fs.length
            rw [flattenPairs_length]
            omega)]
        rw [pushList_complete (flattenPairs fs)
          { b with
              pends := (⟨2 * fs.length, 0, .fseedFields hd, none⟩ : Frame) ::
                b.pends }
          ⟨2 * fs.length, 0, .fseedFields hd, none⟩ b.pends hfne rfl
          (by
            show 0 + (flattenPairs fs).length = 2 * fs.length
            rw [flattenPairs_length]
            omega)
          (by show 0 ≤ _; omega)]
        simp only [Nat.sub_zero, List.take_length, List.drop_length,
          List.nil_append]
        rw [show ({ stack := b.stack, pends := b.pends, result := b.result,
                    refs := b.refs } : Builder) = b from rfl]
        rw [finishFrame_fseedFields b none hd (flattenPairs fs)
          (by rw [pairUp_flattenPairs]; exact hcheck)]
        rw [pairUp_flattenPairs, odFromPairs_self fs hnodup]
        rfl
  | hstruct fs ih =>
      intro hwf
      simp only [wfB, Bool.and_eq_true, decide_eq_true_eq] at hwf
      obtain ⟨hord, htag⟩ := hwf
      have hPeq : ∀ w ∈ fs.map Prod.snd, PushEq w := by
        intro w hw
        obtain ⟨e, he, hc⟩ := List.mem_map.mp hw
        subst hc
        exact ih e he (wfBTagged_mem fs htag e he)
      simp only [PushEq]
      intro f l nr b hb
      simp only [stepsValue, encodeValue]
      by_cases hv : fs = []
      · subst hv
        simp only [encodeTagged, stepsTagged, List.append_nil, Nat.add_zero,
          List.map_nil]
        exact runLoop_push_step f l nr b (.vstruct []) _ hb
          (by
            rw [decode_beginStructBytes builderVisitor [] hord]
            rfl)
      · have hmne : fs.map Prod.snd ≠ [] := by
          intro hh
          exact hv (by simpa using hh)
        rw [stepsTagged_map, encodeTagged_map, List.append_assoc,
          show 1 + stepsList (fs.map Prod.snd) + f =
            (stepsList (fs.map Prod.snd) + f) + 1 from by omega]
        rw [runLoop_begin_step (stepsList (fs.map Prod.snd) + f) b
          { b with
              pends := (⟨(fs.map Prod.fst).length, 0,
                .fstruct (fs.map Prod.fst), none⟩ : Frame) :: b.pends }
          _ (encodeList (fs.map Prod.snd) ++ l) nr hb
          (by
            rw [decode_beginStructBytes builderVisitor (fs.map Prod.fst) hord]
            simp only [builderVisitor]
            rw [if_neg (by simp [hv])]
            rfl)]
        rw [runLoop_encodeList (fs.map Prod.snd) hPeq f l nr
          { b with
              pends := (⟨(fs.map Prod.fst).length, 0,
                .fstruct (fs.map Prod.fst), none⟩ : Frame) :: b.pends }
          ⟨(fs.map Prod.fst).length, 0, .fstruct (fs.map Prod.fst), none⟩
          b.pends rfl hb
          (by
            show 0 + (fs.map Prod.snd).length ≤ (fs.map Prod.fst).length
            simp [List.length_map])]
        rw [pushList_complete (fs.map Prod.snd)
          { b with
              pends := (⟨(fs.map Prod.fst).length, 0,
                .fstruct (fs.map Prod.fst), none⟩ : Frame) :: b.pends }
          ⟨(fs.map Prod.fst).length, 0, .fstruct (fs.map Prod.fst), none⟩
          b.pends hmne rfl
          (by
            show 0 + (fs.map Prod.snd).length = (fs.map Prod.fst).length
            simp [List.length_map])
          (by show 0 ≤ _; omega)]
        simp only [Nat.sub_zero, List.take_length, List.drop_length,
          List.nil_append]
        rw [show ({ stack := b.stack, pends := b.pends, result := b.result,
                    refs := b.refs } : Builder) = b from rfl]
        rw [finishFrame_fstruct b none (fs.map Prod.fst) (fs.map Prod.snd)]
        rw [zip_fst_snd]
        rfl



/-- Pushing the root value into a fresh builder stores it as the result
(`_store_result` then pushes `None` into the bottom sentinel). -/
theorem pushValue_init (v : Value) :
    pushValue initBuilder v =
      .ok { stack := [.vnull], pends := [⟨2, 1, .fbottom, none⟩],
            result := v, refs := [] } := by
  simp [pushValue, initBuilder, finishFrame, pure, Except.pure]

/-- `decode_binary` on a well-formed tree encoding followed by arbitrary
trailing bytes returns the value; the bytes read are the encoding plus the
one lookahead byte `_advance` fetches when trailing input exists. -/
theorem decodeBinaryCount_encode (v : Value) (rest : List Nat)
    (hwf : wfB v = true) :
    decodeBinaryCount (encodeValue v ++ rest) =
      .ok (v, (encodeValue v).length + min 1 rest.length) := by
  rw [decodeBinaryCount]
  have hle := stepsValue_le v
  rw [show (encodeValue v ++ rest).length + 1 =
    stepsValue v + ((encodeValue v).length + rest.length + 1 - stepsValue v)
    from by rw [List.length_append]; omega]
  rw [pushEq_of_wf v hwf
    ((encodeValue v).length + rest.length + 1 - stepsValue v) rest 0
    initBuilder (by simp [initBuilder])]
  rw [pushValue_init, ok_bind]
  rw [show (encodeValue v).length + rest.length + 1 - stepsValue v =
    ((encodeValue v).length + rest.length - stepsValue v) + 1 from by omega]
  rw [runLoop_succ]
  rw [if_pos (show ({ stack := [Value.vnull],
                      pends := [⟨2, 1, .fbottom, none⟩], result := v,
                      refs := [] } : Builder).hasResult = true from rfl)]
  cases rest with
  | nil => simp [mkSt, Except.map, pure, Except.pure]
  | cons r rs =>
      simp only [mkSt, Except.map, pure, Except.pure, List.tail_cons,
        List.length_append, List.length_cons]
      rw [show (encodeValue v).length + (rs.length + 1) - rs.length =
        (encodeValue v).length + 1 from by omega]
      rw [show min 1 (rs.length + 1) = 1 from by omega]



/-! ## Identity-aware model of shared and cyclic structure

Python's traversers compare objects by identity (`id(value)`) and the
factory's composites are mutated in place, so shared and cyclic object
graphs need identities the pure `Value` tree above cannot express.  They
are modelled by an explicit heap: node `i` of the heap is the array object
with identity `i`, and `HVal.hobj i` plays the role of a pointer to it.
The embedding covers atoms and arrays — the fragment of the dispatch in
`AbstractObjectDecoder._decode` that the shared/cyclic examples exercise;
the byte fragments emitted are the same `intInstr`/`beginArrayBytes`/...
as above. -/

inductive HVal where
  | hint (i : Int)
  | hnull
  | hbool (b : Bool)
  | hfloat (bits : Nat)
  | hid (bs : List Nat)
  | hstring (bs : List Nat)
  | hblob (bs : List Nat)
  | hobj (idx : Nat)
  deriving Repr, DecidableEq

/-- Errors of the encoding traversers.  `sharedStructure` is
`SharedStructureDetected`; `badRef` stands for a dangling heap index,
which cannot happen for heaps obtained from live Python objects. -/
inductive EErr where
  | sharedStructure
  | badRef
  | fuelOut
  deriving Repr, DecidableEq

/-- State of `ObjectTreeDecoder`: the identities seen so far
(`ids_seen`) and the bytes written by the `BinaryEncoder` it drives. -/
structure TreeSt where
  idsSeen : List Nat
  out : List Nat
  deriving Repr, DecidableEq

mutual

/-- `ObjectTreeDecoder._decode` driving `BinaryEncoder`: atoms emit their
instruction; an array first consults `_should_add_ref` (constantly false)
and `_get_backref`, which raises `SharedStructureDetected` on a repeated
identity and records fresh ones, then emits its begin tag and recurses.
The fuel only bounds the recursion depth. -/
def treeDecodeV (heap : List (List HVal)) :
    Nat → TreeSt → HVal → Except EErr TreeSt
  | 0, _, _ => throw .fuelOut
  | _ + 1, st, .hint i => pure { st with out := st.out ++ intInstr i }
  | _ + 1, st, .hnull => pure { st with out := st.out ++ [0x10] }
  | _ + 1, st, .hbool true => pure { st with out := st.out ++ [0x11] }
  | _ + 1, st, .hbool false => pure { st with out := st.out ++ [0x12] }
  | _ + 1, st, .hfloat b => pure { st with out := st.out ++ floatInstr b }
  | _ + 1, st, .hid bs => pure { st with out := st.out ++ idInstr bs }
  | _ + 1, st, .hstring bs => pure { st with out := st.out ++ stringInstr bs }
  | _ + 1, st, .hblob bs => pure { st with out := st.out ++ blobInstr bs }
  | fuel + 1, st, .hobj idx =>
      if idx ∈ st.idsSeen then throw .sharedStructure
      else
        match heap[idx]? with
        | none => throw .badRef
        | some elems =>
            treeDecodeList heap fuel
              { st with idsSeen := st.idsSeen ++ [idx],
                        out := st.out ++ beginArrayBytes elems.length }
              elems

def treeDecodeList (heap : List (List HVal)) :
    Nat → TreeSt → List HVal → Except EErr TreeSt
  | _, st, [] => pure st
  | 0, _, _ :: _ => throw .fuelOut
  | fuel + 1, st, v :: vs => do
      let st2 ← treeDecodeV heap fuel st v
      treeDecodeList heap (fuel + 1) st2 vs

end

/-- State of `ObjectGraphDecoder._look_for_shared_structure`:
`has_seen_once` and `has_seen_twice`. -/
structure SeenSt where
  once : List Nat
  twice : List Nat
  deriving Repr, DecidableEq

mutual

/-- The preprocessing pass: mark every identity reached twice, without
descending into a composite a second time. -/
def lookSharedV (heap : List (List HVal)) :
    Nat → SeenSt → HVal → Except EErr SeenSt
  | 0, _, _ => throw .fuelOut
  | fuel + 1, st, .hobj idx =>
      if idx ∈ st.once then
        pure { st with
                 twice := if idx ∈ st.twice then st.twice
                          else st.twice ++ [idx] }
      else
        match heap[idx]? with
        | none => throw .badRef
        | some elems =>
            lookSharedList heap fuel { st with once := st.once ++ [idx] }
              elems
  | _ + 1, st, _ => pure st

def lookSharedList (heap : List (List HVal)) :
    Nat → SeenSt → List HVal → Except EErr SeenSt
  | _, st, [] => pure st
  | 0, _, _ :: _ => throw .fuelOut
  | fuel + 1, st, v :: vs => do
      let st2 ← lookSharedV heap fuel st v
      lookSharedList heap (fuel + 1) st2 vs

end

/-- State of `ObjectGraphDecoder` driving `BinaryEncoder`: `ref_offsets`
with the traverser's `_ref_count`, `AbstractObjectDecoder`'s
`_next_ref_offset` (the source of `ref_key` values), the encoder's own
`_ref_count` (incremented per `ADD_REF` written and used to turn an
absolute ref offset into the relative distance `GET_REF` carries), and
the bytes written. -/
structure GraphSt where
  refOffsets : List (Nat × Nat)
  refCount : Nat
  nextRefOffset : Nat
  encRefCount : Nat
  out : List Nat
  deriving Repr, DecidableEq

mutual

/-- `ObjectGraphDecoder._decode` driving `BinaryEncoder`.  On an array:
`_should_add_ref` answers true exactly on the first encounter of an
identity the preprocessing marked as shared (allocating its ref offset);
when it answers false, `_get_backref` finds previously referenced
identities and `on_get_ref` emits `GET_REF` with the relative offset
`_ref_count - key - 1`; otherwise `on_begin_array` runs, prefixed by
`ADD_REF` when a ref key was allocated. -/
def graphDecodeV (heap : List (List HVal)) (twice : List Nat) :
    Nat → GraphSt → HVal → Except EErr GraphSt
  | 0, _, _ => throw .fuelOut
  | _ + 1, st, .hint i => pure { st with out := st.out ++ intInstr i }
  | _ + 1, st, .hnull => pure { st with out := st.out ++ [0x10] }
  | _ + 1, st, .hbool true => pure { st with out := st.out ++ [0x11] }
  | _ + 1, st, .hbool false => pure { st with out := st.out ++ [0x12] }
  | _ + 1, st, .hfloat b => pure { st with out := st.out ++ floatInstr b }
  | _ + 1, st, .hid bs => pure { st with out := st.out ++ idInstr bs }
  | _ + 1, st, .hstring bs => pure { st with out := st.out ++ stringInstr bs }
  | _ + 1, st, .hblob bs => pure { st with out := st.out ++ blobInstr bs }
  | fuel + 1, st, .hobj idx =>
      match heap[idx]? with
      | none => throw .badRef
      | some elems =>
          match st.refOffsets.find? fun e => e.1 == idx with
          | some e =>
              pure { st with
                       out := st.out ++
                         (0xa1 :: writeUInt (st.encRefCount - e.2 - 1)) }
          | none =>
              if idx ∈ twice then
                graphDecodeList heap twice fuel
                  { st with
                      refOffsets := st.refOffsets ++ [(idx, st.refCount)],
                      refCount := st.refCount + 1,
                      nextRefOffset := st.nextRefOffset + 1,
                      encRefCount := st.encRefCount + 1,
                      out := st.out ++
                        (0xa0 :: beginArrayBytes elems.length) }
                  elems
              else
                graphDecodeList heap twice fuel
                  { st with out := st.out ++ beginArrayBytes elems.length }
                  elems

def graphDecodeList (heap : List (List HVal)) (twice : List Nat) :
    Nat → GraphSt → List HVal → Except EErr GraphSt
  | _, st, [] => pure st
  | 0, _, _ :: _ => throw .fuelOut
  | fuel + 1, st, v :: vs => do
      let st2 ← graphDecodeV heap twice fuel st v
      graphDecodeList heap twice (fuel + 1) st2 vs

end

/-- Depth bound for the traversals: a chain of nested composites repeats
an identity after at most `heap.length + 1` steps, and each level costs
two fuel units (one for the value, one for the element list). -/
def encFuel (heap : List (List HVal)) : Nat := 2 * heap.length + 4

/-- `encode_binary`: try the tree traverser, and on
`SharedStructureDetected` restart with the reference-tracking graph
traverser (preprocessing pass first). -/
def encodeBinaryH (heap : List (List HVal)) (root : HVal) :
    Except EErr (List Nat) :=
  match treeDecodeV heap (encFuel heap) ⟨[], []⟩ root with
  | .ok st => pure st.out
  | .error .sharedStructure => do
      let seen ← lookSharedV heap (encFuel heap) ⟨[], []⟩ root
      let st ← graphDecodeV heap seen.twice (encFuel heap) ⟨[], 0, 0, 0, []⟩
        root
      pure st.out
  | .error e => throw e



/-! ## The identity-faithful builder (`ObjectBuilder` over the heap)

`ObjectBuilder.on_begin_array` creates the (empty, mutable) factory array
and `_maybe_add_ref` publishes it under its ref slot immediately — before
the payload is decoded — so a later `GET_REF` can name a composite whose
payload is still being filled in; `_end_array` then assigns the collected
elements into the same object (`array[:] = values`).  The heap makes this
in-place mutation explicit: begin allocates a fresh node, end overwrites
that node. -/

inductive HFrameKind where
  | hbottom
  | hresult
  | harrEnd (idx : Nat)
  deriving Repr, DecidableEq

structure HFrame where
  total : Nat
  got : Nat
  kind : HFrameKind
  deriving Repr, DecidableEq

structure HBuilder where
  heap : List (List HVal)
  stack : List HVal
  pends : List HFrame
  result : HVal
  refs : List (Nat × HVal)
  deriving Repr, DecidableEq

def initHBuilder : HBuilder :=
  { heap := [], stack := [],
    pends := [⟨1, 0, .hresult⟩, ⟨2, 0, .hbottom⟩],
    result := .hnull, refs := [] }

def HBuilder.hasResult (b : HBuilder) : Bool := b.pends.length == 1

mutual

/-- `ObjectBuilder._push` over the heap. -/
def hpush (b : HBuilder) (v : HVal) : Except DErr HBuilder :=
  match h : b.pends with
  | [] => throw .internal
  | fr :: ps =>
      let stack2 := b.stack ++ [v]
      if fr.got + 1 = fr.total then
        let vals := stack2.drop (stack2.length - fr.total)
        let remaining := stack2.take (stack2.length - fr.total)
        hfinish { b with stack := remaining, pends := ps } fr.kind vals
      else
        let fr2 : HFrame := ⟨fr.total, fr.got + 1, fr.kind⟩
        pure { b with stack := stack2, pends := fr2 :: ps }
termination_by 2 * b.pends.length + 1
decreasing_by
  simp [h]
  omega

/-- The callbacks: `_store_result`, and `_end_array` assigning the
collected values into the already-published heap node. -/
def hfinish (b : HBuilder) (k : HFrameKind) (vals : List HVal) :
    Except DErr HBuilder :=
  match k with
  | .hbottom => throw .internal
  | .hresult =>
      match vals with
      | [v] => hpush { b with result := v } .hnull
      | _ => throw .internal
  | .harrEnd idx => hpush { b with heap := b.heap.set idx vals } (.hobj idx)
termination_by 2 * b.pends.length + 2
decreasing_by
  all_goals simp

end

/-- The visitor instance of the heap builder.  Only the array composite
is populated (the fragment the shared/cyclic claims exercise); the other
begin handlers fall outside the modelled fragment. -/
def heapVisitor : Visitor HBuilder where
  onInt b i := hpush b (.hint i)
  onSingleton b v :=
    hpush b (match v with | none => .hnull | some x => .hbool x)
  onId b bs := hpush b (.hid bs)
  onFloat b bits := hpush b (.hfloat bits)
  onString b bs := hpush b (.hstring bs)
  onBlob b bs := hpush b (.hblob bs)
  onBeginArray b len rk :=
    let idx := b.heap.length
    let b2 : HBuilder :=
      { b with heap := b.heap ++ [[]],
               refs := match rk with
                       | none => b.refs
                       | some k => b.refs ++ [(k, .hobj idx)] }
    if len = 0 then hpush b2 (.hobj idx)
    else pure { b2 with pends := ⟨len, 0, .harrEnd idx⟩ :: b2.pends }
  onBeginMap b _ _ := throw .internal
  onBeginSeed b _ _ := throw .internal
  onBeginStruct b _ _ := throw .internal
  onGetRef b key :=
    match b.refs.find? fun e => (e.1 : Int) == key with
    | some e => hpush b e.2
    | none => throw .invalidReference
  onInvalid _ op := throw (.invalidInstruction op)

/-- `decode_binary` with the identity-faithful builder: the final heap
and the result value. -/
def decodeBinaryH (input : List Nat) :
    Except DErr (List (List HVal) × HVal) :=
  (runLoop heapVisitor HBuilder.hasResult (input.length + 1)
      (mkSt input 0) initHBuilder).map
    fun p => (p.1.heap, p.1.result)



/-! ## Single steps of the decode loop at concrete states -/

theorem runLoop_ok {σ : Type} (V : Visitor σ) (hasRes : σ → Bool) (f : Nat)
    (s s2 : DecSt) (st st2 : σ) (h : hasRes st = false)
    (hd : decodeNext V s none st = .ok (s2, st2)) :
    runLoop V hasRes (f + 1) s st = runLoop V hasRes f s2 st2 := by
  rw [runLoop_step V hasRes f s st h, hd]
  rfl

theorem runLoop_done {σ : Type} (V : Visitor σ) (hasRes : σ → Bool)
    (f : Nat) (s : DecSt) (st : σ) (h : hasRes st = true) :
    runLoop V hasRes (f + 1) s st = pure (st, s) := by
  rw [runLoop_succ, if_pos h]

theorem runLoop_err {σ : Type} (V : Visitor σ) (hasRes : σ → Bool) (f : Nat)
    (s : DecSt) (st : σ) (e : DErr) (h : hasRes st = false)
    (hd : decodeNext V s none st = .error e) :
    runLoop V hasRes (f + 1) s st = .error e := by
  rw [runLoop_step V hasRes f s st h, hd]
  rfl

/-! ## The claims -/

/-- C2: the unsigned-varint writer and reader are mutually inverse under
the bias-1 scheme: feeding the bytes `_write_unsigned_int` emits for `n`
(followed by anything) to `_read_unsigned_int` yields `n` back with the
following input untouched. -/
theorem c2_varint_round_trip (n : Nat) (l : List Nat) (nr : Nat) :
    readUInt (mkSt (writeUInt n ++ l) nr) = .ok (n, mkSt l nr) :=
  readUInt_writeUInt n l nr

/-- C3: on `[a, a]` with `a = []` the tree traverser raises
`SharedStructureDetected` at the second encounter of `a`, and the public
`encode_binary` falls back on the graph traverser, emitting exactly
`22 a0 20 a1 00` (array-2, add-ref, array-0, get-ref 0).  Node 1 of the
heap is the outer array, node 0 is `a`. -/
theorem c3_shared_structure_fallback :
    treeDecodeV [[], [.hobj 0, .hobj 0]] (encFuel [[], [.hobj 0, .hobj 0]])
        ⟨[], []⟩ (.hobj 1) = .error .sharedStructure ∧
    encodeBinaryH [[], [.hobj 0, .hobj 0]] (.hobj 1) =
      .ok [0x22, 0xa0, 0x20, 0xa1, 0x00] := by
  constructor
  · simp [treeDecodeV, treeDecodeList, encFuel, beginArrayBytes, Except.bind,
      bind, pure, Except.pure]
  · simp [encodeBinaryH, encFuel, treeDecodeV, treeDecodeList, lookSharedV,
      lookSharedList, graphDecodeV, graphDecodeList, beginArrayBytes,
      writeUInt, Except.bind, bind, pure, Except.pure, List.find?]

/-- C4: the cyclic `x = [x]` encodes to exactly `a0 21 a1 00`, and
decoding those bytes rebuilds the cycle with identity: the result is the
array object at heap address 0 whose single element is that same
address — the builder published the object's identity under its ref slot
at the begin instruction, before the payload existed. -/
theorem c4_cycle_identity :
    encodeBinaryH [[.hobj 0]] (.hobj 0) = .ok [0xa0, 0x21, 0xa1, 0x00] ∧
    decodeBinaryH [0xa0, 0x21, 0xa1, 0x00] = .ok ([[.hobj 0]], .hobj 0) := by
  constructor
  · simp [encodeBinaryH, encFuel, treeDecodeV, treeDecodeList, lookSharedV,
      lookSharedList, graphDecodeV, graphDecodeList, beginArrayBytes,
      writeUInt, Except.bind, bind, pure, Except.pure, List.find?]
  · rw [decodeBinaryH]
    rw [show ([0xa0, 0x21, 0xa1, 0x00] : List Nat).length + 1 = 4 + 1
      from rfl]
    rw [runLoop_ok heapVisitor HBuilder.hasResult 4
      (mkSt [0xa0, 0x21, 0xa1, 0x00] 0) (mkSt [0xa1, 0x00] 1) initHBuilder
      { heap := [[]], stack := [],
        pends := [⟨1, 0, .harrEnd 0⟩, ⟨1, 0, .hresult⟩, ⟨2, 0, .hbottom⟩],
        result := .hnull, refs := [(0, .hobj 0)] } rfl
      (by
        rw [dnAddRef, dnArray1]
        simp [heapVisitor, initHBuilder, Except.map, pure, Except.pure])]
    rw [show ([0xa1, 0x00] : List Nat) = 0xa1 :: (writeUInt 0 ++ []) from by
      simp [writeUInt]]
    rw [show (4 : Nat) = 3 + 1 from rfl]
    rw [runLoop_ok heapVisitor HBuilder.hasResult 3
      (mkSt (0xa1 :: (writeUInt 0 ++ [])) 1) (mkSt [] 1)
      { heap := [[]], stack := [],
        pends := [⟨1, 0, .harrEnd 0⟩, ⟨1, 0, .hresult⟩, ⟨2, 0, .hbottom⟩],
        result := .hnull, refs := [(0, .hobj 0)] }
      { heap := [[.hobj 0]], stack := [.hnull],
        pends := [⟨2, 1, .hbottom⟩],
        result := .hobj 0, refs := [(0, .hobj 0)] } rfl
      (by
        rw [dnGetRef]
        simp [heapVisitor, hpush, hfinish, Except.map, pure, Except.pure,
          List.find?])]
    rw [show (3 : Nat) = 2 + 1 from rfl]
    rw [runLoop_done heapVisitor HBuilder.hasResult 2 (mkSt [] 1)
      { heap := [[.hobj 0]], stack := [.hnull],
        pends := [⟨2, 1, .hbottom⟩],
        result := .hobj 0, refs := [(0, .hobj 0)] } rfl]
    rfl

/-- C7: the struct-tag nibble codec round-trips on every non-empty,
monotonically non-decreasing tag list: reading back the written
delta/RLE nibble stream (given the list's length) returns the list and
leaves the following bytes unread. -/
theorem c7_struct_tags_round_trip (tags : List Nat) (hne : tags ≠ [])
    (hord : tagsOrdered tags) (follow : List Nat) (nr : Nat) :
    readStructTags (mkSt (writeStructTags tags ++ follow) nr) tags.length =
      .ok (tags, mkSt follow nr) :=
  readStructTags_writeStructTags tags hne hord follow nr

/-- C7 witness: the round trip at the concrete tag list `[0, 0, 2]`. -/
theorem c7_struct_tags_round_trip_witness :
    readStructTags (mkSt (writeStructTags [0, 0, 2] ++ [9]) 5)
        ([0, 0, 2] : List Nat).length = .ok ([0, 0, 2], mkSt [9] 5) :=
  c7_struct_tags_round_trip [0, 0, 2] (by simp)
    (by simp [tagsOrdered, chainLE]) [9] 5

/-- C8 counterexample: the encoder emits nibbles `0, 0, 2` (run length =
remaining occurrences) for the tag vector `[0, 0, 0]`, so the third byte
pair is `00 20`, not the claimed `00 30`. -/
theorem c8_counterexample :
    beginStructBytes [0, 0, 0] = [0x88, 0x03, 0x00, 0x20] ∧
    ([0x88, 0x03, 0x00, 0x20] : List Nat) ≠ [0x88, 0x03, 0x00, 0x30] := by
  constructor
  · simp [beginStructBytes, writeUInt, writeStructTags, tagNibbles,
      tagNibblesLoop, nibValue, packNibs, nibVarint, nibVarintGo]
  · simp

/-- C9 counterexample: decoding `03 10` returns the int 3 whose encoding
is the single byte `03`, but reports 2 bytes consumed — the decoder's
one-byte lookahead (`_advance` at the end of every handler) has already
eaten the first trailing byte. -/
theorem c9_counterexample :
    decodeBinaryCount [0x03, 0x10] = .ok (.vint 3, 2) ∧
    encodeValue (.vint 3) = [0x03] ∧ (2 : Nat) ≠ ([0x03] : List Nat).length := by
  refine ⟨?x1, by simp [encodeValue, intInstr], by simp⟩
  have h := decodeBinaryCount_encode (.vint 3) [0x10] (by simp [wfB])
  rw [show encodeValue (.vint 3) = [0x03] from by simp [encodeValue, intInstr]]
    at h
  simpa using h

/-- C9 (amended): decoding a well-formed encoded value followed by
trailing bytes returns the value, but consumes the encoding plus one
lookahead byte whenever trailing input exists (`length + min 1 |rest|`),
rather than never reading past the value. -/
theorem c9_lookahead_consumption (v : Value) (rest : List Nat)
    (hwf : wfB v = true) :
    decodeBinaryCount (encodeValue v ++ rest) =
      .ok (v, (encodeValue v).length + min 1 rest.length) :=
  decodeBinaryCount_encode v rest hwf

/-- C9 witness: the amended consumption count at a concrete input. -/
theorem c9_lookahead_consumption_witness :
    decodeBinaryCount (encodeValue (.vbool true) ++ [0x77]) =
      .ok (.vbool true,
        (encodeValue (.vbool true)).length + min 1 ([0x77] : List Nat).length) :=
  c9_lookahead_consumption (.vbool true) [0x77] (by simp [wfB])

/-- C10: `ADD_REF` immediately followed by an atom decodes without error
(the atom handlers drop the ref key, so the slot is consumed but never
bound), and a later `GET_REF` that resolves to that slot fails the
reference lookup. -/
theorem c10_addref_before_atom :
    decodeBinaryValue [0xa0, 0x03] = .ok (.vint 3) ∧
    decodeBinaryValue [0x22, 0xa0, 0x03, 0xa1, 0x00] =
      .error .invalidReference := by
  constructor
  · rw [decodeBinaryValue, decodeBinaryCount]
    rw [show ([0xa0, 0x03] : List Nat).length + 1 = 2 + 1 from rfl]
    rw [runLoop_ok builderVisitor Builder.hasResult 2
      (mkSt [0xa0, 0x03] 0) (mkSt [] 1) initBuilder
      { stack := [.vnull], pends := [⟨2, 1, .fbottom, none⟩],
        result := .vint 3, refs := [] } rfl
      (by
        rw [dnAddRef]
        rw [show ([0x03] : List Nat) = 0x03 :: [] from rfl]
        rw [dnInt3]
        rw [show builderVisitor.onInt initBuilder 3 =
          pushValue initBuilder (.vint 3) from rfl]
        rw [pushValue_init]
        rfl)]
    rw [show (2 : Nat) = 1 + 1 from rfl]
    rw [runLoop_done builderVisitor Builder.hasResult 1 (mkSt [] 1)
      { stack := [.vnull], pends := [⟨2, 1, .fbottom, none⟩],
        result := .vint 3, refs := [] } rfl]
    rfl
  · rw [decodeBinaryValue, decodeBinaryCount]
    rw [show ([0x22, 0xa0, 0x03, 0xa1, 0x00] : List Nat).length + 1 = 5 + 1
      from rfl]
    rw [runLoop_ok builderVisitor Builder.hasResult 5
      (mkSt [0x22, 0xa0, 0x03, 0xa1, 0x00] 0)
      (mkSt [0xa0, 0x03, 0xa1, 0x00] 0) initBuilder
      { stack := [], pends := [⟨2, 0, .farr, none⟩, ⟨1, 0, .fresult, none⟩,
          ⟨2, 0, .fbottom, none⟩], result := .vnull, refs := [] } rfl
      (by
        rw [dnArray2]
        simp [builderVisitor, initBuilder, Except.map, pure, Except.pure])]
    rw [show (5 : Nat) = 4 + 1 from rfl]
    rw [runLoop_ok builderVisitor Builder.hasResult 4
      (mkSt [0xa0, 0x03, 0xa1, 0x00] 0) (mkSt [0xa1, 0x00] 1)
      { stack := [], pends := [⟨2, 0, .farr, none⟩, ⟨1, 0, .fresult, none⟩,
          ⟨2, 0, .fbottom, none⟩], result := .vnull, refs := [] }
      { stack := [.vint 3], pends := [⟨2, 1, .farr, none⟩,
          ⟨1, 0, .fresult, none⟩, ⟨2, 0, .fbottom, none⟩],
        result := .vnull, refs := [] } rfl
      (by
        rw [dnAddRef]
        rw [show ([0x03, 0xa1, 0x00] : List Nat) = 0x03 :: [0xa1, 0x00]
          from rfl]
        rw [dnInt3]
        simp [builderVisitor, pushValue, Except.map, pure, Except.pure])]
    rw [show (4 : Nat) = 3 + 1 from rfl]
    rw [runLoop_err builderVisitor Builder.hasResult 3 (mkSt [0xa1, 0x00] 1)
      { stack := [.vint 3], pends := [⟨2, 1, .farr, none⟩,
          ⟨1, 0, .fresult, none⟩, ⟨2, 0, .fbottom, none⟩],
        result := .vnull, refs := [] } .invalidReference rfl
      (by
        rw [show ([0xa1, 0x00] : List Nat) = 0xa1 :: (writeUInt 0 ++ [])
          from by simp [writeUInt]]
        rw [dnGetRef]
        simp [builderVisitor, Except.map, List.find?])]
    rfl



/-- C1 (amended): on every well-formed tree value — floats restricted to
patterns whose Float32 narrowing is lossless, i.e. any NaN is already
quiet with an empty low-29-bit payload — `decode_binary` inverts the
tree encoding exactly. -/
theorem c1_tree_round_trip (v : Value) (hwf : wfB v = true) :
    decodeBinaryValue (encodeValue v) = .ok v := by
  rw [decodeBinaryValue]
  have h := decodeBinaryCount_encode v [] hwf
  rw [List.append_nil] at h
  rw [h]
  rfl

/-- C1 witness: the round trip on a value exercising every composite. -/
theorem c1_tree_round_trip_witness :
    decodeBinaryValue (encodeValue (.varray [.vint 6, .vstring [104, 105],
        .vmap [(.vint 1, .vnull)], .vseed (.vint 0) [(.vstring [97], .vbool true)],
        .vstruct [(0, .vint 1), (2, .vnull)]])) =
      .ok (.varray [.vint 6, .vstring [104, 105],
        .vmap [(.vint 1, .vnull)], .vseed (.vint 0) [(.vstring [97], .vbool true)],
        .vstruct [(0, .vint 1), (2, .vnull)]]) :=
  c1_tree_round_trip _ (by
    simp [wfB, wfBList, wfBPairs, wfBTagged, hashable, tagsOrdered, chainLE,
      decide_eq_true_eq])

/-- C1 counterexample: a signaling NaN with payload bit 29 set.  The
encoder narrows every NaN to Float32, forcing the quiet bit and
truncating the payload, so the decoded double differs from the input:
the round trip of the claim fails on this value. -/
theorem c1_nan_counterexample :
    decodeBinaryValue (encodeValue (.vfloat 0x7FF0000020000000)) =
      .ok (.vfloat 0x7FF8000020000000) ∧
    Value.vfloat 0x7FF8000020000000 ≠ Value.vfloat 0x7FF0000020000000 := by
  constructor
  · rw [show encodeValue (.vfloat 0x7FF0000020000000) =
      [0x1a, 0x01, 0x00, 0xC0, 0x7F] from by
        simp [encodeValue, floatInstr, encodeFloatBytes, f64ToF32, f64IsZero,
          f64IsInf, f64IsNaN, f64Mant, f64Exp, f64Sign, toLE]]
    rw [decodeBinaryValue, decodeBinaryCount]
    rw [show ([0x1a, 0x01, 0x00, 0xC0, 0x7F] : List Nat).length + 1 = 5 + 1
      from rfl]
    rw [show ([0x1a, 0x01, 0x00, 0xC0, 0x7F] : List Nat) =
      0x1a :: ([0x01, 0x00, 0xC0, 0x7F] ++ []) from rfl]
    rw [runLoop_ok builderVisitor Builder.hasResult 5
      (mkSt (0x1a :: ([0x01, 0x00, 0xC0, 0x7F] ++ [])) 0) (mkSt [] 0)
      initBuilder
      { stack := [.vnull], pends := [⟨2, 1, .fbottom, none⟩],
        result := .vfloat 0x7FF8000020000000, refs := [] } rfl
      (by
        rw [dnFloat32 builderVisitor [0x01, 0x00, 0xC0, 0x7F] [] 0 none
          initBuilder rfl]
        rw [show f32ToF64 (fromLE [0x01, 0x00, 0xC0, 0x7F]) =
          0x7FF8000020000000 from by
            simp [fromLE, f32ToF64, f32Exp, f32Mant, f32Sign]]
        rw [show builderVisitor.onFloat initBuilder 0x7FF8000020000000 =
          pushValue initBuilder (.vfloat 0x7FF8000020000000) from rfl]
        rw [pushValue_init]
        rfl)]
    rw [show (5 : Nat) = 4 + 1 from rfl]
    rw [runLoop_done builderVisitor Builder.hasResult 4 (mkSt [] 0)
      { stack := [.vnull], pends := [⟨2, 1, .fbottom, none⟩],
        result := .vfloat 0x7FF8000020000000, refs := [] } rfl]
    rfl
  · simp

/-- C5: the encoder emits tag `0x1a` with the 4 little-endian bytes of
the Float32 narrowing exactly when the binary64 pattern is a zero,
infinity or NaN, or its unbiased exponent lies in `[-126, 127]` with the
low 29 significand bits zero; in every other case it emits tag `0x1b`
with the 8 little-endian bytes of the original pattern. -/
theorem c5_float32_selection (b : Nat) :
    floatInstr b =
      if f64IsZero b ∨ f64IsInf b ∨ f64IsNaN b ∨
          (-126 ≤ (f64Exp b : Int) - 1023 ∧ (f64Exp b : Int) - 1023 ≤ 127 ∧
            f64Mant b % 2 ^ 29 = 0)
        then 0x1a :: toLE 4 (f64ToF32 b)
        else 0x1b :: toLE 8 b := by
  have hiff : (f64IsZero b ∨ f64IsInf b ∨ f64IsNaN b ∨
      (-126 ≤ (f64Exp b : Int) - 1023 ∧ (f64Exp b : Int) - 1023 ≤ 127 ∧
        f64Mant b % 2 ^ 29 = 0)) ↔ f32Selected b := by
    unfold f32Selected
    constructor
    · rintro (h | h | h | ⟨h1, h2, h3⟩)
      · exact Or.inl h
      · exact Or.inr (Or.inl h)
      · exact Or.inr (Or.inr (Or.inl h))
      · exact Or.inr (Or.inr (Or.inr ⟨by omega, by omega, h3⟩))
    · rintro (h | h | h | ⟨h1, h2, h3⟩)
      · exact Or.inl h
      · exact Or.inr (Or.inl h)
      · exact Or.inr (Or.inr (Or.inl h))
      · exact Or.inr (Or.inr (Or.inr ⟨by omega, by omega, h3⟩))
  by_cases h : f32Selected b
  · rw [if_pos (hiff.mpr h)]
    simp only [floatInstr]
    rw [encodeFloatBytes_of_selected b h]
    rw [if_pos (toLE_length 4 _)]
  · rw [if_neg (fun hc => h (hiff.mp hc))]
    simp only [floatInstr]
    rw [encodeFloatBytes_of_not_selected b h]
    rw [if_neg (by rw [toLE_length]; omega)]

/-- C6: viewing a 16-byte id as a big-endian integer `v`, the encoder
keeps all 16 bytes under tag Id128 when `2⁶⁴ ≤ v`, the last 8 under Id64
when `2³² ≤ v < 2⁶⁴`, the last 4 under Id32 when `2¹⁶ ≤ v < 2³²`, and
the last 2 under Id16 otherwise (a value equal to a boundary selects the
larger width); the decoder zero-pads back to 16 bytes, so the id reaches
the visitor byte-for-byte. -/
theorem c6_id_widths (bs : List Nat) (h16 : bs.length = 16)
    (h256 : ∀ x ∈ bs, x < 256) :
    (2 ^ 64 ≤ beNat bs → idInstr bs = 0x17 :: bs) ∧
    (2 ^ 32 ≤ beNat bs → beNat bs < 2 ^ 64 →
      idInstr bs = 0x16 :: bs.drop 8) ∧
    (2 ^ 16 ≤ beNat bs → beNat bs < 2 ^ 32 →
      idInstr bs = 0x15 :: bs.drop 12) ∧
    (beNat bs < 2 ^ 16 → idInstr bs = 0x14 :: bs.drop 14) ∧
    (∀ (l : List Nat) (nr : Nat) (rk : Option Nat) (b : Builder),
      decodeNext builderVisitor (mkSt (idInstr bs ++ l) nr) rk b =
        (pushValue b (.vid bs)).map (mkSt l nr, ·)) := by
  refine ⟨?x1, ?x2, ?x3, ?x4, ?x5⟩
  case x1 =>
    intro h
    rw [idInstr.eq_def]
    dsimp only
    rw [if_pos h]
  case x2 =>
    intro h1 h2
    rw [idInstr.eq_def]
    dsimp only
    rw [if_neg (by omega), if_pos h1]
  case x3 =>
    intro h1 h2
    rw [idInstr.eq_def]
    dsimp only
    rw [if_neg (by omega), if_neg (by omega), if_pos h1]
  case x4 =>
    intro h
    rw [idInstr.eq_def]
    dsimp only
    rw [if_neg (by omega), if_neg (by omega), if_neg (by omega)]
  case x5 =>
    intro l nr rk b
    rw [decode_idInstr builderVisitor bs h16 h256]
    rfl

/-- C6 witness: the value `2³²` sits on a boundary and selects Id64,
keeping the low 8 bytes. -/
theorem c6_id_widths_witness :
    idInstr [0, 0, 0, 0, 0, 0, 0, 0, 0, 0, 0, 1, 0, 0, 0, 0] =
      0x16 :: ([0, 0, 0, 0, 0, 0, 0, 0, 0, 0, 0, 1, 0, 0, 0, 0] :
        List Nat).drop 8 :=
  (c6_id_widths [0, 0, 0, 0, 0, 0, 0, 0, 0, 0, 0, 1, 0, 0, 0, 0]
    (by decide) (by decide)).2.1 (by decide) (by decide)

theorem takeWhile_replicate_self (t m : Nat) :
    (List.replicate m t).takeWhile (· = t) = List.replicate m t := by
  induction m with
  | zero => rfl
  | succ k ih => simp [List.replicate_succ, List.takeWhile_cons, ih]

theorem dropWhile_replicate_self (t m : Nat) :
    (List.replicate m t).dropWhile (· = t) = [] := by
  induction m with
  | zero => rfl
  | succ k ih => simp [List.replicate_succ, List.dropWhile_cons, ih]

/-- C8 (amended): after the first tag of a run the encoder emits the
repeat marker `0` followed by the number of REMAINING equal tags — for a
run of `n + 2` equal tags the length nibble-varint carries `1 + n`, not
the total run length.  In particular `[0, 0, 0]` yields nibbles
`0, 0, 2` and bytes `88 03 00 20` (the claim predicted `0, 0, 3`). -/
theorem c8_rle_remaining_run (t n : Nat) :
    tagNibbles (t :: List.replicate (n + 1) t) =
      nibValue t ++ (nibValue 0 ++ nibValue (1 + n)) ∧
    beginStructBytes [0, 0, 0] = [0x88, 0x03, 0x00, 0x20] := by
  constructor
  · simp only [tagNibbles]
    congr 1
    rw [List.replicate_succ]
    simp only [tagNibblesLoop]
    rw [if_pos trivial]
    rw [takeWhile_replicate_self, dropWhile_replicate_self]
    simp only [tagNibblesLoop, List.length_replicate, List.append_nil]
  · simp [beginStructBytes, writeUInt, writeStructTags, tagNibbles,
      tagNibblesLoop, nibValue, packNibs, nibVarint, nibVarintGo]


end Plankton
